import Mathlib

/-!
Verification of the maven-repo-cleaner utility (src/main.rs).

The program walks a Maven-style local repository with an explicit FIFO
worklist of paths, deletes stale snapshot artifacts and local metadata
descriptors, accumulates the deleted bytes and prints a formatted total.

The embedding below models the filesystem as a finite tree of named nodes.
File nodes carry the environment's behaviour for the two fallible calls
made on files (`fs::metadata` and `fs::remove_file`); directory nodes carry
the behaviour of `read_dir`.  Entry names are raw OS strings: they decode
to a `String` when they are valid UTF-8 and to `none` otherwise.
-/

namespace MavenClean

/-- Rust `str::ends_with`: the pattern is a suffix of the subject. -/
def strEndsWith (s pat : String) : Bool := decide (pat.data <:+ s.data)

/-- Rust `str::contains`: the pattern occurs as a contiguous substring. -/
def strContains (s pat : String) : Bool := decide (pat.data <:+: s.data)

/-- `static SNAPSHOT_SUFFIX: &str = "-SNAPSHOT"` (main.rs:8). -/
def SNAPSHOT_SUFFIX : String := "-SNAPSHOT"

/-- `static SUFFIXIES: [&str; 6]` (main.rs:10-17). -/
def SUFFIXIES : List String :=
  [".jar", ".jar.sha1", ".pom", ".pom.sha1", ".war", ".war.sha1"]

/-- `static LOCAL_METADATA_FILE: &str = "maven-metadata-local.xml"` (main.rs:19). -/
def LOCAL_METADATA_FILE : String := "maven-metadata-local.xml"

/-- A raw directory-entry name.  `utf8` is the decoded string when the OS
name is valid UTF-8, `none` otherwise; `tag` distinguishes distinct raw
byte names that have the same decoding status. -/
structure RawName where
  utf8 : Option String
  tag : Nat
deriving DecidableEq, Repr

/-- A filesystem subtree.  A file carries its byte size, whether a
`fs::metadata` call on it succeeds, and whether `fs::remove_file` on it
succeeds; a directory carries whether `fs::read_dir` succeeds, plus its
named children in listing order. -/
inductive Node where
  | file (size : Nat) (sizeOk : Bool) (delOk : Bool)
  | dir (readOk : Bool) (children : List (RawName × Node))
deriving Repr

/-- A path relative to the repository root: the raw names of the
components, root first.  `[]` is the root itself. -/
abbrev FsPath := List RawName

/-- First child with the given name (directory entries resolve by name). -/
def findChild (a : RawName) : List (RawName × Node) → Option Node
  | [] => none
  | (b, n) :: rest => if b = a then some n else findChild a rest

/-- Remove the first child with the given name. -/
def eraseChild (a : RawName) : List (RawName × Node) → List (RawName × Node)
  | [] => []
  | (b, n) :: rest => if b = a then rest else (b, n) :: eraseChild a rest

/-- Apply `f` to the first child with the given name. -/
def modifyChild (a : RawName) (f : Node → Node) :
    List (RawName × Node) → List (RawName × Node)
  | [] => []
  | (b, n) :: rest => if b = a then (b, f n) :: rest else (b, n) :: modifyChild a f rest

/-- Resolve a path in the current tree (the filesystem stat underlying
`is_dir` / `is_file`). -/
def lookupPath : FsPath → Node → Option Node
  | [], n => some n
  | _ :: _, Node.file _ _ _ => none
  | a :: p, Node.dir _ cs => (findChild a cs).bind (lookupPath p)

/-- `std::fs::remove_file`: succeeds iff the path names an existing file
whose removal the environment permits; returns the updated tree.  The
root itself (`[]`) is never a removable child. -/
def removeFile : FsPath → Node → Option Node
  | [], _ => none
  | [_], Node.file _ _ _ => none
  | [a], Node.dir ro cs =>
      match findChild a cs with
      | some (Node.file _ _ true) => some (Node.dir ro (eraseChild a cs))
      | _ => none
  | _ :: _ :: _, Node.file _ _ _ => none
  | a :: b :: p, Node.dir ro cs =>
      (findChild a cs).bind fun c =>
        (removeFile (b :: p) c).map fun c' => Node.dir ro (modifyChild a (fun _ => c') cs)

/-- `std::fs::metadata(..).len()`: the size when the lookup succeeds. -/
def metadataLen (p : FsPath) (fs : Node) : Option Nat :=
  match lookupPath p fs with
  | some (Node.file sz true _) => some sz
  | _ => none

/-- `get_file_name` (main.rs:123-130) on the path `root ++ p`: the last
component's decoded name; for the root itself, the decoded name of the
root path's own last component (`rootName`). -/
def fileNameAt (rootName : Option RawName) (p : FsPath) : Option String :=
  match p.getLast? with
  | none => rootName.bind (·.utf8)
  | some a => a.utf8

/-- The child loop of the directory branch (main.rs:56-75): walks the
listing in order, pushes every subdirectory, pushes a file iff the folder
is a snapshot folder or the file is the local metadata file.  Returns
`none` when `get_file_name(&entry_path).unwrap()` (main.rs:66) panics,
i.e. when some file child's name is not valid UTF-8. -/
def expandChildren (folderName : String) (base : FsPath) :
    List (RawName × Node) → Option (List FsPath)
  | [] => some []
  | (a, Node.file _ _ _) :: rest =>
      match a.utf8 with
      | none => none
      | some fname =>
          if strEndsWith folderName SNAPSHOT_SUFFIX || fname == LOCAL_METADATA_FILE then
            (expandChildren folderName base rest).map ((base ++ [a]) :: ·)
          else
            expandChildren folderName base rest
  | (a, Node.dir _ _) :: rest =>
      (expandChildren folderName base rest).map ((base ++ [a]) :: ·)

/-- The suffix loop of the file branch (main.rs:103-114): for each
recognized suffix, if the file name ends with it and does not contain the
folder name, add the file's size (zero if the metadata lookup fails) and
try to delete; a failed deletion breaks the loop. -/
def suffixLoop (fileName folderName : String) (p : FsPath) :
    List String → Node → Nat → Node × Nat
  | [], fs, deleted => (fs, deleted)
  | s :: rest, fs, deleted =>
      if strEndsWith fileName s && !strContains fileName folderName then
        match removeFile p fs with
        | some fs' =>
            suffixLoop fileName folderName p rest fs' (deleted + (metadataLen p fs).getD 0)
        | none => (fs, deleted + (metadataLen p fs).getD 0)
      else
        suffixLoop fileName folderName p rest fs deleted

/-- Result of processing one dequeued path (one iteration of the while
loop, main.rs:47-117). -/
inductive StepRes where
  | panicked
  | halted (fs : Node) (deleted : Nat)
  | next (fs : Node) (deleted : Nat) (pushed : List FsPath)

/-- One iteration of the traversal loop on the dequeued path `p`.

Directory branch (main.rs:48-81): resolve the folder name (skip when it
cannot be resolved), list the children (skip on a listing error), push
children per `expandChildren`.

File branch (main.rs:82-116): the names come from the path string alone.
`p = []` stands for the case where the root path itself is not a
directory; `main` rejects that before `cleanup` runs, and the model skips
it.  A metadata file is deleted unconditionally and a failed deletion
halts the whole loop (`break`, main.rs:100); otherwise the suffix loop
runs. -/
def processPath (rootName : Option RawName) (fs : Node) (deleted : Nat)
    (p : FsPath) : StepRes :=
  match lookupPath p fs with
  | some (Node.dir readOk cs) =>
      match fileNameAt rootName p with
      | none => StepRes.next fs deleted []
      | some folderName =>
          if readOk then
            match expandChildren folderName p cs with
            | none => StepRes.panicked
            | some pushed => StepRes.next fs deleted pushed
          else
            StepRes.next fs deleted []
  | _ =>
      match p with
      | [] => StepRes.next fs deleted []
      | _ :: _ =>
          match fileNameAt rootName p.dropLast, fileNameAt rootName p with
          | some folderName, some fileName =>
              if fileName == LOCAL_METADATA_FILE then
                match removeFile p fs with
                | some fs' => StepRes.next fs' deleted []
                | none => StepRes.halted fs deleted
              else
                StepRes.next (suffixLoop fileName folderName p SUFFIXIES fs deleted).1
                  (suffixLoop fileName folderName p SUFFIXIES fs deleted).2 []
          | _, _ => StepRes.next fs deleted []

/-- Terminal states of one `cleanup` run.  `drained`: the queue emptied
normally; `haltedRun`: the metadata-deletion `break` fired; `panickedRun`:
the unwrap on a non-UTF-8 file name panicked; `fuelOut` is the fuel bound
of the model and is never reached (see the termination theorem). -/
inductive RunOutcome where
  | drained (fs : Node) (deleted : Nat)
  | haltedRun (fs : Node) (deleted : Nat)
  | panickedRun
  | fuelOut
deriving Repr

/-- The while loop (main.rs:47-117), FIFO: pop the front, process it,
append the pushed paths at the back.  Also records the dequeued paths in
order.  The fuel argument only bounds the iteration count. -/
def runLoop (rootName : Option RawName) :
    Nat → Node → Nat → List FsPath → List FsPath → RunOutcome × List FsPath
  | _, fs, d, [], tr => (RunOutcome.drained fs d, tr)
  | 0, _, _, _ :: _, tr => (RunOutcome.fuelOut, tr)
  | fuel + 1, fs, d, p :: rest, tr =>
      match processPath rootName fs d p with
      | StepRes.panicked => (RunOutcome.panickedRun, tr ++ [p])
      | StepRes.halted fs' d' => (RunOutcome.haltedRun fs' d', tr ++ [p])
      | StepRes.next fs' d' pushed => runLoop rootName fuel fs' d' (rest ++ pushed) (tr ++ [p])

mutual
/-- Size of a subtree (for the fuel bound): one per node. -/
def nweight : Node → Nat
  | Node.file _ _ _ => 1
  | Node.dir _ cs => 1 + cweight cs
/-- Sum of subtree sizes of a child list. -/
def cweight : List (RawName × Node) → Nat
  | [] => 0
  | (_, n) :: rest => nweight n + cweight rest
end

/-- `cleanup` (main.rs:43-121): seed the queue with the root and drain it.
The fuel `nweight fs` is enough for any run (proved below). -/
def cleanup (rootName : Option RawName) (fs : Node) : RunOutcome × List FsPath :=
  runLoop rootName (nweight fs) fs 0 [[]] []

/-- Two-decimal rendering of the exact rational `n / d` (`d` a power of
two), rounding half to even: for sizes below 2^53 this is exactly what
Rust's `{:.2}` prints for the f64 `n as f64 / d as f64`, since that f64
holds `n / d` exactly. -/
def twoDecimal (n d : Nat) : String :=
  let q := (100 * n) / d
  let r := (100 * n) % d
  let h := if d < 2 * r then q + 1
           else if 2 * r < d then q
           else if q % 2 = 0 then q else q + 1
  toString (h / 100) ++ "." ++ (if h % 100 < 10 then "0" else "") ++ toString (h % 100)

/-- `format_size` (main.rs:132-139). -/
def format_size (size : Nat) : String :=
  if 1024 * 1024 * 1024 ≤ size then twoDecimal size (1024 * 1024 * 1024) ++ " GiB"
  else if 1024 * 1024 ≤ size then twoDecimal size (1024 * 1024) ++ " MiB"
  else if 1024 ≤ size then twoDecimal size 1024 ++ " KiB"
  else toString size ++ " B"

/-! Specification-side definitions: structural descriptions of what one
run deletes, which paths it visits, and when it runs without failures.
These are proved equal to the operational model below. -/

/-- Replace the node at a path (no effect on a dangling path). -/
def replaceAt (val : Node) : FsPath → Node → Node
  | [], _ => val
  | _ :: _, Node.file sz sOk dOk => Node.file sz sOk dOk
  | a :: p, Node.dir ro cs => Node.dir ro (modifyChild a (replaceAt val p) cs)

/-- Remove the entry at a (nonempty) path from its parent directory. -/
def eraseAt : FsPath → Node → Node
  | [], fs => fs
  | [a], Node.dir ro cs => Node.dir ro (eraseChild a cs)
  | [_], fs => fs
  | a :: b :: p, Node.dir ro cs => Node.dir ro (modifyChild a (eraseAt (b :: p)) cs)
  | _ :: _ :: _, fs => fs

/-- Erase the child `a` of a directory node (identity on files). -/
def childErase (a : RawName) : Node → Node
  | Node.file sz sOk dOk => Node.file sz sOk dOk
  | Node.dir ro cs => Node.dir ro (eraseChild a cs)

/-- Overwrite the child `a` of a directory node (identity on files). -/
def childSet (a : RawName) (v : Node) : Node → Node
  | Node.file sz sOk dOk => Node.file sz sOk dOk
  | Node.dir ro cs => Node.dir ro (modifyChild a (fun _ => v) cs)

/-- A file named `n` directly inside a folder named `dn` is deleted by one
run iff it is the local metadata file, or the folder is a snapshot folder
and `n` matches a recognized suffix without containing `dn`. -/
def delCond (dn n : String) : Bool :=
  n == LOCAL_METADATA_FILE ||
    (strEndsWith dn SNAPSHOT_SUFFIX && (SUFFIXIES.any fun s => strEndsWith n s)
      && !strContains n dn)

mutual
/-- The subtree left after the run has traversed a directory whose own
decoded name is `dn`: unreadable directories are untouched, eligible file
children are removed, subdirectories are pruned under their own names
(untouched when their name does not decode). -/
def pruneNode (dn : String) : Node → Node
  | Node.file sz sOk dOk => Node.file sz sOk dOk
  | Node.dir ro cs => if ro then Node.dir ro (pruneChildren dn cs) else Node.dir ro cs
/-- Child-list part of `pruneNode`. -/
def pruneChildren (dn : String) : List (RawName × Node) → List (RawName × Node)
  | [] => []
  | (a, Node.file sz sOk dOk) :: rest =>
      match a.utf8 with
      | some n =>
          if delCond dn n then pruneChildren dn rest
          else (a, Node.file sz sOk dOk) :: pruneChildren dn rest
      | none => (a, Node.file sz sOk dOk) :: pruneChildren dn rest
  | (a, Node.dir ro cs) :: rest =>
      (a, match a.utf8 with
          | some cn => pruneNode cn (Node.dir ro cs)
          | none => Node.dir ro cs) :: pruneChildren dn rest
end

mutual
/-- Total byte count the run charges inside a subtree whose own decoded
name is `dn` (zero for a file whose size lookup fails, zero for metadata
files, which are deleted without size accounting). -/
def delSize (dn : String) : Node → Nat
  | Node.file _ _ _ => 0
  | Node.dir ro cs => if ro then delSizeChildren dn cs else 0
/-- Child-list part of `delSize`. -/
def delSizeChildren (dn : String) : List (RawName × Node) → Nat
  | [] => 0
  | (a, Node.file sz sOk _) :: rest =>
      (match a.utf8 with
       | some n =>
           if n == LOCAL_METADATA_FILE then 0
           else if delCond dn n then (if sOk then sz else 0) else 0
       | none => 0) + delSizeChildren dn rest
  | (a, Node.dir ro cs) :: rest =>
      (match a.utf8 with
       | some cn => delSize cn (Node.dir ro cs)
       | none => 0) + delSizeChildren dn rest
end

/-- The paths pushed when a directory at `base` with decoded name `dn` and
listing `cs` is expanded: every subdirectory, and the files that pass the
snapshot-or-metadata filter (assuming every file child's name decodes). -/
def enqPaths (dn : String) (base : FsPath) : List (RawName × Node) → List FsPath
  | [] => []
  | (a, Node.file _ _ _) :: rest =>
      (match a.utf8 with
       | some n =>
           if strEndsWith dn SNAPSHOT_SUFFIX || n == LOCAL_METADATA_FILE
           then [base ++ [a]] else []
       | none => []) ++ enqPaths dn base rest
  | (a, Node.dir _ _) :: rest => (base ++ [a]) :: enqPaths dn base rest

mutual
/-- All paths the traversal dequeues strictly inside a subtree rooted at
`base`, when the subtree's own decoded name is `dn` and it is expanded. -/
def visitNode (dn : String) (base : FsPath) : Node → List FsPath
  | Node.file _ _ _ => []
  | Node.dir ro cs => if ro then visitChildren dn base cs else []
/-- Child-list part of `visitNode`. -/
def visitChildren (dn : String) (base : FsPath) : List (RawName × Node) → List FsPath
  | [] => []
  | (a, Node.file _ _ _) :: rest =>
      (match a.utf8 with
       | some n =>
           if strEndsWith dn SNAPSHOT_SUFFIX || n == LOCAL_METADATA_FILE
           then [base ++ [a]] else []
       | none => []) ++ visitChildren dn base rest
  | (a, Node.dir ro cs) :: rest =>
      ((base ++ [a]) :: (match a.utf8 with
        | some cn => visitNode cn (base ++ [a]) (Node.dir ro cs)
        | none => [])) ++ visitChildren dn base rest
end

mutual
/-- The traversal of this subtree (under decoded folder name `dn`) hits no
panic and no failed deletion: every file child of an expanded directory
has a decodable name, every eligible file child is removable, recursively
for expanded subdirectories. -/
def okNode (dn : String) : Node → Bool
  | Node.file _ _ _ => true
  | Node.dir ro cs => if ro then okChildren dn cs else true
/-- Child-list part of `okNode`. -/
def okChildren (dn : String) : List (RawName × Node) → Bool
  | [] => true
  | (a, Node.file _ _ dOk) :: rest =>
      (match a.utf8 with
       | some n => !delCond dn n || dOk
       | none => false) && okChildren dn rest
  | (a, Node.dir ro cs) :: rest =>
      (match a.utf8 with
       | some cn => okNode cn (Node.dir ro cs)
       | none => true) && okChildren dn rest
end

/-- Names along a path all decode and every directory on it is readable;
returns the decoded name of the directory the path ends at (`dn` is the
decoded name of the tree's root). -/
def chainName (dn : String) : FsPath → Node → Option String
  | [], Node.dir true _ => some dn
  | a :: q, Node.dir true cs =>
      (match findChild a cs, a.utf8 with
       | some c, some cn => chainName cn q c
       | _, _ => none)
  | _, _ => none

/-- `true` iff every directory's children carry pairwise distinct raw
names somewhere in `keyMem` terms. -/
def keyMem (a : RawName) : List (RawName × Node) → Bool
  | [] => false
  | (b, _) :: rest => decide (b = a) || keyMem a rest

/-- Child lists never repeat a raw name. -/
def nodupKeys : List (RawName × Node) → Bool
  | [] => true
  | (a, _) :: rest => !keyMem a rest && nodupKeys rest

mutual
/-- Well-formed filesystem: every directory's children have pairwise
distinct raw names (true of a real directory tree). -/
def wfNode : Node → Bool
  | Node.file _ _ _ => true
  | Node.dir _ cs => nodupKeys cs && wfChildren cs
/-- Child-list part of `wfNode`. -/
def wfChildren : List (RawName × Node) → Bool
  | [] => true
  | (_, n) :: rest => wfNode n && wfChildren rest
end

/-- The action one dequeued path performs on the tree, as data: keep it,
substitute a new subtree at the path, or delete the entry at the path. -/
inductive EffAction where
  | keep
  | subst (v : Node)
  | del

/-- Which action a dequeued path performs, determined by the resolution
of the path and the static names alone: an expanded directory becomes its
pruned subtree; an evaluated file is erased iff `delCond` holds for its
decoded name under its parent's. -/
def effActionOf (rootName : Option RawName) (fs : Node) (p : FsPath) : EffAction :=
  match lookupPath p fs with
  | some (Node.dir ro cs) =>
      match fileNameAt rootName p with
      | some dn => EffAction.subst (pruneNode dn (Node.dir ro cs))
      | none => EffAction.keep
  | some (Node.file _ _ _) =>
      match p with
      | [] => EffAction.keep
      | _ :: _ =>
          match fileNameAt rootName p.dropLast, fileNameAt rootName p with
          | some dn, some n => if delCond dn n then EffAction.del else EffAction.keep
          | _, _ => EffAction.keep
  | none => EffAction.keep

/-- Apply an action at a path. -/
def runEff : EffAction → FsPath → Node → Node
  | EffAction.keep, _, fs => fs
  | EffAction.subst v, p, fs => replaceAt v p fs
  | EffAction.del, p, fs => eraseAt p fs

/-- The effect one dequeued path has on the tree, described structurally. -/
def pathEffect (rootName : Option RawName) (fs : Node) (p : FsPath) : Node :=
  runEff (effActionOf rootName fs p) p fs

/-- The bytes one dequeued path charges, described structurally. -/
def pathDelta (rootName : Option RawName) (fs : Node) (p : FsPath) : Nat :=
  match lookupPath p fs with
  | some (Node.dir ro cs) =>
      match fileNameAt rootName p with
      | some dn => delSize dn (Node.dir ro cs)
      | none => 0
  | some (Node.file sz sOk _) =>
      match p with
      | [] => 0
      | _ :: _ =>
          match fileNameAt rootName p.dropLast, fileNameAt rootName p with
          | some dn, some n =>
              if n == LOCAL_METADATA_FILE then 0
              else if delCond dn n then (if sOk then sz else 0) else 0
          | _, _ => 0
  | none => 0

/-- The dequeued paths one queued path is responsible for (itself apart). -/
def pathVisit (rootName : Option RawName) (fs : Node) (p : FsPath) : List FsPath :=
  match lookupPath p fs with
  | some (Node.dir ro cs) =>
      match fileNameAt rootName p with
      | some dn => visitNode dn p (Node.dir ro cs)
      | none => []
  | _ => []

/-- Invariant of a queued path: it resolves; a directory satisfies
`okNode` whenever its name decodes; a queued file (other than the root)
was pushed by its parent's expansion, so both its names decode, it passed
the snapshot-or-metadata filter, and it is removable if eligible. -/
def queueOk (rootName : Option RawName) (fs : Node) (p : FsPath) : Prop :=
  match lookupPath p fs with
  | some (Node.dir ro cs) =>
      ∀ dn, fileNameAt rootName p = some dn → okNode dn (Node.dir ro cs) = true
  | some (Node.file _ _ dOk) =>
      p = [] ∨
        ∃ dn n, fileNameAt rootName p.dropLast = some dn ∧ fileNameAt rootName p = some n ∧
          (strEndsWith dn SNAPSHOT_SUFFIX || n == LOCAL_METADATA_FILE) = true ∧
          (delCond dn n = true → dOk = true)
  | none => False

/-- The whole run is failure-free: if the root's name decodes, the root
subtree satisfies `okNode`. -/
def okRun (rootName : Option RawName) (fs : Node) : Prop :=
  ∀ dn, fileNameAt rootName [] = some dn → okNode dn fs = true

/-- Weight of a queued path in the current tree. -/
def pweight (fs : Node) (p : FsPath) : Nat :=
  match lookupPath p fs with
  | some n => nweight n
  | none => 1

/-- Total weight of the queue: the fuel measure. -/
def measureQ (fs : Node) (q : List FsPath) : Nat := (q.map (pweight fs)).sum

/-- Fold of `pathEffect` over a queue. -/
def applyAll (rootName : Option RawName) : Node → List FsPath → Node
  | fs, [] => fs
  | fs, p :: rest => applyAll rootName (pathEffect rootName fs p) rest

/-- Sum of `pathDelta` over a queue (all measured on the same tree). -/
def deltaQ (rootName : Option RawName) (fs : Node) (q : List FsPath) : Nat :=
  (q.map (pathDelta rootName fs)).sum

/-- Two paths where neither is a prefix of the other: their subtrees are
disjoint. -/
def Incomp (p q : FsPath) : Prop := ¬ p <+: q ∧ ¬ q <+: p

/-! Concrete inputs used by witnesses and counterexamples. -/

/-- Shorthand for a decoded raw name. -/
def rnm (s : String) : RawName := ⟨some s, 0⟩

/-- A root name for concrete runs. -/
def exRoot : Option RawName := some (rnm "repo")

/-- Snapshot folder holding one stale artifact whose deletion fails. -/
def exDelFail : Node :=
  Node.dir true
    [(rnm "a-SNAPSHOT", Node.dir true [(rnm "x.jar", Node.file 7 true false)])]

/-- A root directory holding one file whose name is not valid UTF-8. -/
def exPanic : Node := Node.dir true [(⟨none, 0⟩, Node.file 3 true true)]

/-- Snapshot tree for end-to-end witnesses: one stale timestamped jar, one
retained snapshot-named jar, one metadata file in a release folder. -/
def exSnap : Node :=
  Node.dir true
    [(rnm "1.0-SNAPSHOT", Node.dir true
        [(rnm "foo-1.0-20230101.jar", Node.file 10 true true),
         (rnm "foo-1.0-SNAPSHOT.jar", Node.file 20 true true)]),
     (rnm "1.0", Node.dir true
        [(rnm "maven-metadata-local.xml", Node.file 5 true true),
         (rnm "foo-1.0.jar", Node.file 7 true true)])]

/-- Metadata file whose deletion fails, with a sibling snapshot tree that
would still be pending when the halt fires. -/
def exHalt : Node :=
  Node.dir true
    [(rnm "maven-metadata-local.xml", Node.file 5 true false),
     (rnm "b-SNAPSHOT", Node.dir true [(rnm "y.jar", Node.file 9 true true)])]

/-- The tree `exSnap` leaves behind after one completed run: the stale
timestamped jar and the metadata file are gone. -/
def exSnap1 : Node :=
  Node.dir true
    [(rnm "1.0-SNAPSHOT", Node.dir true
        [(rnm "foo-1.0-SNAPSHOT.jar", Node.file 20 true true)]),
     (rnm "1.0", Node.dir true [(rnm "foo-1.0.jar", Node.file 7 true true)])]

/-- The dequeue order of the run on `exSnap`. -/
def exTrace : List FsPath :=
  [[], [rnm "1.0-SNAPSHOT"], [rnm "1.0"],
   [rnm "1.0-SNAPSHOT", rnm "foo-1.0-20230101.jar"],
   [rnm "1.0-SNAPSHOT", rnm "foo-1.0-SNAPSHOT.jar"],
   [rnm "1.0", rnm "maven-metadata-local.xml"]]

/-! Child-list operations: resolution, erasure and modification commute
in the expected ways. -/

theorem findChild_eraseChild_ne {a b : RawName} (hne : b ≠ a) :
    ∀ cs, findChild a (eraseChild b cs) = findChild a cs := by
  intro cs
  induction cs with
  | nil => rfl
  | cons e rest ih =>
      obtain ⟨c, n⟩ := e
      by_cases hcb : c = b
      · subst hcb
        simp [eraseChild, findChild, hne, ih]
      · by_cases hca : c = a
        · subst hca
          simp [eraseChild, findChild, hcb]
        · simp [eraseChild, findChild, hcb, hca, ih]

theorem findChild_modifyChild_ne {a b : RawName} {f : Node → Node} (hne : b ≠ a) :
    ∀ cs, findChild a (modifyChild b f cs) = findChild a cs := by
  intro cs
  induction cs with
  | nil => rfl
  | cons e rest ih =>
      obtain ⟨c, n⟩ := e
      by_cases hcb : c = b
      · subst hcb
        simp [modifyChild, findChild, hne, ih]
      · by_cases hca : c = a
        · subst hca
          simp [modifyChild, findChild, hcb]
        · simp [modifyChild, findChild, hcb, hca, ih]

theorem findChild_modifyChild_self {a : RawName} {f : Node → Node} :
    ∀ cs, findChild a (modifyChild a f cs) = (findChild a cs).map f := by
  intro cs
  induction cs with
  | nil => rfl
  | cons e rest ih =>
      obtain ⟨c, n⟩ := e
      by_cases hca : c = a
      · subst hca
        simp [modifyChild, findChild]
      · simp [modifyChild, findChild, hca, ih]

theorem modifyChild_modifyChild_ne {a b : RawName} {f g : Node → Node} (hne : a ≠ b) :
    ∀ cs, modifyChild a f (modifyChild b g cs) = modifyChild b g (modifyChild a f cs) := by
  intro cs
  induction cs with
  | nil => rfl
  | cons e rest ih =>
      obtain ⟨c, n⟩ := e
      by_cases hcb : c = b
      · subst hcb
        simp [modifyChild, hne.symm, ih]
      · by_cases hca : c = a
        · subst hca
          simp [modifyChild, hcb, ih]
        · simp [modifyChild, hcb, hca, ih]

theorem eraseChild_modifyChild_ne {a b : RawName} {f : Node → Node} (hne : a ≠ b) :
    ∀ cs, eraseChild a (modifyChild b f cs) = modifyChild b f (eraseChild a cs) := by
  intro cs
  induction cs with
  | nil => rfl
  | cons e rest ih =>
      obtain ⟨c, n⟩ := e
      by_cases hcb : c = b
      · subst hcb
        simp [modifyChild, eraseChild, hne.symm, ih]
      · by_cases hca : c = a
        · subst hca
          simp [modifyChild, eraseChild, hcb]
        · simp [modifyChild, eraseChild, hcb, hca, ih]

theorem eraseChild_eraseChild_ne {a b : RawName} (hne : a ≠ b) :
    ∀ cs, eraseChild a (eraseChild b cs) = eraseChild b (eraseChild a cs) := by
  intro cs
  induction cs with
  | nil => rfl
  | cons e rest ih =>
      obtain ⟨c, n⟩ := e
      by_cases hcb : c = b
      · subst hcb
        simp [eraseChild, hne.symm]
      · by_cases hca : c = a
        · subst hca
          simp [eraseChild, hcb]
        · simp [eraseChild, hcb, hca, ih]

theorem modifyChild_modifyChild_self {a : RawName} {f g : Node → Node} :
    ∀ cs, modifyChild a f (modifyChild a g cs) = modifyChild a (fun n => f (g n)) cs := by
  intro cs
  induction cs with
  | nil => rfl
  | cons e rest ih =>
      obtain ⟨c, n⟩ := e
      by_cases hca : c = a
      · subst hca
        simp [modifyChild]
      · simp [modifyChild, hca, ih]

/-! Key membership, distinctness, and positional variants. -/

theorem keyMem_false_findChild {a : RawName} :
    ∀ {cs}, keyMem a cs = false → findChild a cs = none := by
  intro cs
  induction cs with
  | nil => intro _; rfl
  | cons e rest ih =>
      obtain ⟨c, n⟩ := e
      intro h
      simp only [keyMem, Bool.or_eq_false_iff, decide_eq_false_iff_not] at h
      simp only [findChild, if_neg h.1, ih h.2]

theorem keyMem_append {a : RawName} :
    ∀ l₁ l₂, keyMem a (l₁ ++ l₂) = (keyMem a l₁ || keyMem a l₂) := by
  intro l₁ l₂
  induction l₁ with
  | nil => rfl
  | cons e rest ih =>
      obtain ⟨c, n⟩ := e
      simp only [List.cons_append, keyMem, List.append_eq, ih, Bool.or_assoc]

theorem findChild_mid {a : RawName} {n : Node} :
    ∀ {l₁ l₂}, keyMem a l₁ = false → findChild a (l₁ ++ (a, n) :: l₂) = some n := by
  intro l₁ l₂
  induction l₁ with
  | nil => intro _; simp [findChild]
  | cons e rest ih =>
      obtain ⟨c, m⟩ := e
      intro h
      simp only [keyMem, Bool.or_eq_false_iff, decide_eq_false_iff_not] at h
      simp only [List.cons_append, findChild, List.append_eq, if_neg h.1, ih h.2]

theorem eraseChild_mid {a : RawName} {n : Node} :
    ∀ {l₁ l₂}, keyMem a l₁ = false → eraseChild a (l₁ ++ (a, n) :: l₂) = l₁ ++ l₂ := by
  intro l₁ l₂
  induction l₁ with
  | nil => intro _; simp [eraseChild]
  | cons e rest ih =>
      obtain ⟨c, m⟩ := e
      intro h
      simp only [keyMem, Bool.or_eq_false_iff, decide_eq_false_iff_not] at h
      simp only [List.cons_append, eraseChild, List.append_eq, if_neg h.1, ih h.2]

theorem modifyChild_mid {a : RawName} {n : Node} {f : Node → Node} :
    ∀ {l₁ l₂}, keyMem a l₁ = false →
      modifyChild a f (l₁ ++ (a, n) :: l₂) = l₁ ++ (a, f n) :: l₂ := by
  intro l₁ l₂
  induction l₁ with
  | nil => intro _; simp [modifyChild]
  | cons e rest ih =>
      obtain ⟨c, m⟩ := e
      intro h
      simp only [keyMem, Bool.or_eq_false_iff, decide_eq_false_iff_not] at h
      simp only [List.cons_append, modifyChild, List.append_eq, if_neg h.1, ih h.2]

theorem nodupKeys_mid {a : RawName} {n : Node} :
    ∀ l₁ {l₂}, nodupKeys (l₁ ++ (a, n) :: l₂) = true →
      keyMem a l₁ = false ∧ keyMem a l₂ = false := by
  intro l₁ l₂
  induction l₁ with
  | nil =>
      intro h
      simp only [List.nil_append, nodupKeys, Bool.and_eq_true, Bool.not_eq_true'] at h
      exact ⟨rfl, h.1⟩
  | cons e rest ih =>
      obtain ⟨c, m⟩ := e
      intro h
      simp only [List.cons_append, List.append_eq, nodupKeys, Bool.and_eq_true, Bool.not_eq_true'] at h
      rcases ih h.2 with ⟨h1, h2⟩
      refine ⟨?_, h2⟩
      simp only [keyMem, Bool.or_eq_false_iff, decide_eq_false_iff_not]
      refine ⟨?_, h1⟩
      intro hca
      subst hca
      rw [keyMem_append] at h
      simp [keyMem] at h

theorem nodupKeys_set_mid {a : RawName} {n m : Node} :
    ∀ l₁ {l₂}, nodupKeys (l₁ ++ (a, n) :: l₂) = true →
      nodupKeys (l₁ ++ (a, m) :: l₂) = true := by
  intro l₁ l₂
  induction l₁ with
  | nil =>
      intro h
      simpa only [List.nil_append, nodupKeys, Bool.and_eq_true] using h
  | cons e rest ih =>
      obtain ⟨c, k⟩ := e
      intro h
      simp only [List.cons_append, List.append_eq, nodupKeys, Bool.and_eq_true] at h ⊢
      refine ⟨?_, ih h.2⟩
      rw [keyMem_append] at h ⊢
      simpa only [keyMem] using h.1

theorem nodupKeys_drop_mid {a : RawName} {n : Node} :
    ∀ l₁ {l₂}, nodupKeys (l₁ ++ (a, n) :: l₂) = true → nodupKeys (l₁ ++ l₂) = true := by
  intro l₁ l₂
  induction l₁ with
  | nil =>
      intro h
      simp only [List.nil_append, nodupKeys, Bool.and_eq_true] at h
      exact h.2
  | cons e rest ih =>
      obtain ⟨c, k⟩ := e
      intro h
      simp only [List.cons_append, List.append_eq, nodupKeys, Bool.and_eq_true] at h ⊢
      refine ⟨?_, ih h.2⟩
      have h1 : keyMem c (rest ++ (a, n) :: l₂) = false := by
        cases hk : keyMem c (rest ++ (a, n) :: l₂)
        · rfl
        · rw [hk] at h
          simp at h
      rw [keyMem_append] at h1
      rcases Bool.or_eq_false_iff.mp h1 with ⟨hr, hc2⟩
      have hc3 : keyMem c l₂ = false := by
        simp only [keyMem, Bool.or_eq_false_iff] at hc2
        exact hc2.2
      rw [keyMem_append, hr, hc3]
      rfl

/-! Path-level lemmas: resolution along appended paths, self and disjoint
interaction of `replaceAt` and `eraseAt`. -/

theorem incomp_nil_left {q : FsPath} : ¬ Incomp [] q := fun h => h.1 List.nil_prefix

theorem eraseAt_file {sz : Nat} {sOk dOk : Bool} :
    ∀ p, eraseAt p (Node.file sz sOk dOk) = Node.file sz sOk dOk := by
  intro p
  match p with
  | [] => rfl
  | [_] => rfl
  | _ :: _ :: _ => rfl

theorem incomp_cons_cases {a b : RawName} {p q : FsPath} (h : Incomp (a :: p) (b :: q)) :
    a ≠ b ∨ (a = b ∧ Incomp p q) := by
  by_cases hab : a = b
  · subst hab
    refine Or.inr ⟨rfl, ?_, ?_⟩
    · intro hpq
      exact h.1 (List.cons_prefix_cons.mpr ⟨rfl, hpq⟩)
    · intro hqp
      exact h.2 (List.cons_prefix_cons.mpr ⟨rfl, hqp⟩)
  · exact Or.inl hab

theorem modifyChild_congr {a : RawName} {f g : Node → Node} :
    ∀ {cs : List (RawName × Node)},
      (∀ c, findChild a cs = some c → f c = g c) → modifyChild a f cs = modifyChild a g cs := by
  intro cs
  induction cs with
  | nil => intro _; rfl
  | cons e rest ih =>
      intro h
      obtain ⟨b, n⟩ := e
      by_cases hb : b = a
      · subst hb
        simp only [modifyChild, if_pos rfl]
        rw [h n (by simp [findChild])]
        simp
      · simp only [modifyChild, if_neg hb]
        rw [ih fun c hc => h c (by simpa [findChild, hb] using hc)]

theorem modifyChild_id {a : RawName} :
    ∀ cs, modifyChild a (fun n => n) cs = cs := by
  intro cs
  induction cs with
  | nil => rfl
  | cons e rest ih =>
      obtain ⟨c, n⟩ := e
      by_cases hca : c = a
      · subst hca
        simp [modifyChild]
      · simp [modifyChild, hca, ih]

theorem lookupPath_append :
    ∀ (p q : FsPath) (fs : Node),
      lookupPath (p ++ q) fs = (lookupPath p fs).bind (lookupPath q) := by
  intro p
  induction p with
  | nil => intro q fs; rfl
  | cons a p ih =>
      intro q fs
      cases fs with
      | file sz sOk dOk => rfl
      | dir ro cs =>
          simp only [List.cons_append, lookupPath]
          cases findChild a cs with
          | none => rfl
          | some c =>
              simp only [Option.some_bind]
              exact ih q c

theorem lookupPath_replaceAt_self {v : Node} :
    ∀ (p : FsPath) (fs : Node), (lookupPath p fs).isSome = true →
      lookupPath p (replaceAt v p fs) = some v := by
  intro p
  induction p with
  | nil => intro fs _; rfl
  | cons a p ih =>
      intro fs h
      cases fs with
      | file sz sOk dOk => simp [lookupPath] at h
      | dir ro cs =>
          simp only [lookupPath, replaceAt] at h ⊢
          rw [findChild_modifyChild_self]
          cases hfc : findChild a cs with
          | none => rw [hfc] at h; simp at h
          | some c =>
              rw [hfc] at h
              simp only [Option.some_bind] at h
              simp only [Option.map_some', Option.some_bind]
              exact ih c h

theorem replaceAt_self :
    ∀ (p : FsPath) (fs v : Node), lookupPath p fs = some v → replaceAt v p fs = fs := by
  intro p
  induction p with
  | nil =>
      intro fs v h
      injection h with h
      rw [← h]
      rfl
  | cons a p ih =>
      intro fs v h
      cases fs with
      | file sz sOk dOk => rfl
      | dir ro cs =>
          simp only [lookupPath] at h
          cases hfc : findChild a cs with
          | none => rw [hfc] at h; simp at h
          | some c =>
              rw [hfc] at h
              simp only [Option.some_bind] at h
              simp only [replaceAt]
              have hmc : modifyChild a (replaceAt v p) cs = modifyChild a (fun n => n) cs :=
                modifyChild_congr fun c' hc' => by
                  rw [hfc] at hc'
                  cases hc'
                  exact ih c v h
              rw [hmc, modifyChild_id]

theorem replaceAt_replaceAt {v w : Node} :
    ∀ (p : FsPath) (fs : Node), replaceAt v p (replaceAt w p fs) = replaceAt v p fs := by
  intro p
  induction p with
  | nil => intro fs; rfl
  | cons a p ih =>
      intro fs
      cases fs with
      | file sz sOk dOk => rfl
      | dir ro cs =>
          simp only [replaceAt, modifyChild_modifyChild_self]
          have : (fun n => replaceAt v p (replaceAt w p n)) = replaceAt v p :=
            funext fun n => ih n
          rw [this]

theorem lookupPath_replaceAt_incomp {v : Node} :
    ∀ (p q : FsPath) (fs : Node), Incomp p q →
      lookupPath q (replaceAt v p fs) = lookupPath q fs := by
  intro p
  induction p with
  | nil => intro q fs h; exact absurd h incomp_nil_left
  | cons a p ih =>
      intro q fs h
      cases q with
      | nil => exact absurd List.nil_prefix h.2
      | cons b q' =>
          cases fs with
          | file sz sOk dOk => rfl
          | dir ro cs =>
              rcases incomp_cons_cases h with hab | ⟨hab, hpq⟩
              · simp only [replaceAt, lookupPath]
                rw [findChild_modifyChild_ne hab]
              · subst hab
                simp only [replaceAt, lookupPath, findChild_modifyChild_self]
                cases hfc : findChild a cs with
                | none => rfl
                | some c =>
                    simp only [Option.map_some', Option.some_bind]
                    exact ih q' c hpq

theorem lookupPath_eraseAt_incomp :
    ∀ (p q : FsPath) (fs : Node), Incomp p q →
      lookupPath q (eraseAt p fs) = lookupPath q fs := by
  intro p
  induction p with
  | nil => intro q fs h; exact absurd h incomp_nil_left
  | cons a p ih =>
      intro q fs h
      cases q with
      | nil => exact absurd List.nil_prefix h.2
      | cons b q' =>
          cases fs with
          | file sz sOk dOk => rw [eraseAt_file]
          | dir ro cs =>
              rcases incomp_cons_cases h with hab | ⟨hab, hpq⟩
              · cases p with
                | nil =>
                    simp only [eraseAt, lookupPath]
                    rw [findChild_eraseChild_ne hab]
                | cons a2 p2 =>
                    simp only [eraseAt, lookupPath]
                    rw [findChild_modifyChild_ne hab]
              · subst hab
                cases p with
                | nil => exact absurd hpq incomp_nil_left
                | cons a2 p2 =>
                    simp only [eraseAt, lookupPath, findChild_modifyChild_self]
                    cases hfc : findChild a cs with
                    | none => rfl
                    | some c =>
                        simp only [Option.map_some', Option.some_bind]
                        exact ih q' c hpq

theorem replaceAt_comm_incomp {v w : Node} :
    ∀ (p q : FsPath) (fs : Node), Incomp p q →
      replaceAt v p (replaceAt w q fs) = replaceAt w q (replaceAt v p fs) := by
  intro p
  induction p with
  | nil => intro q fs h; exact absurd h incomp_nil_left
  | cons a p ih =>
      intro q fs h
      cases q with
      | nil => exact absurd List.nil_prefix h.2
      | cons b q' =>
          cases fs with
          | file sz sOk dOk => rfl
          | dir ro cs =>
              rcases incomp_cons_cases h with hab | ⟨hab, hpq⟩
              · simp only [replaceAt]
                rw [modifyChild_modifyChild_ne hab]
              · subst hab
                simp only [replaceAt, modifyChild_modifyChild_self]
                have hfun : (fun n => replaceAt v p (replaceAt w q' n))
                    = fun n => replaceAt w q' (replaceAt v p n) :=
                  funext fun n => ih q' n hpq
                rw [hfun]

theorem eraseAt_replaceAt_incomp {v : Node} :
    ∀ (p q : FsPath) (fs : Node), Incomp p q →
      eraseAt p (replaceAt v q fs) = replaceAt v q (eraseAt p fs) := by
  intro p
  induction p with
  | nil => intro q fs h; exact absurd h incomp_nil_left
  | cons a p ih =>
      intro q fs h
      cases q with
      | nil => exact absurd List.nil_prefix h.2
      | cons b q' =>
          cases fs with
          | file sz sOk dOk => simp only [replaceAt, eraseAt_file]
          | dir ro cs =>
              rcases incomp_cons_cases h with hab | ⟨hab, hpq⟩
              · cases p with
                | nil =>
                    simp only [replaceAt, eraseAt]
                    rw [eraseChild_modifyChild_ne hab]
                | cons a2 p2 =>
                    simp only [replaceAt, eraseAt]
                    rw [modifyChild_modifyChild_ne hab]
              · subst hab
                cases p with
                | nil => exact absurd hpq incomp_nil_left
                | cons a2 p2 =>
                    simp only [replaceAt, eraseAt, modifyChild_modifyChild_self]
                    have hfun : (fun n => eraseAt (a2 :: p2) (replaceAt v q' n))
                        = fun n => replaceAt v q' (eraseAt (a2 :: p2) n) :=
                      funext fun n => ih q' n hpq
                    rw [hfun]

theorem eraseAt_comm_incomp :
    ∀ (p q : FsPath) (fs : Node), Incomp p q →
      eraseAt p (eraseAt q fs) = eraseAt q (eraseAt p fs) := by
  intro p
  induction p with
  | nil => intro q fs h; exact absurd h incomp_nil_left
  | cons a p ih =>
      intro q fs h
      cases q with
      | nil => exact absurd List.nil_prefix h.2
      | cons b q' =>
          cases fs with
          | file sz sOk dOk => simp only [eraseAt_file]
          | dir ro cs =>
              rcases incomp_cons_cases h with hab | ⟨hab, hpq⟩
              · cases p with
                | nil =>
                    cases q' with
                    | nil =>
                        simp only [eraseAt]
                        rw [eraseChild_eraseChild_ne hab]
                    | cons b2 q2 =>
                        simp only [eraseAt]
                        rw [eraseChild_modifyChild_ne hab]
                | cons a2 p2 =>
                    cases q' with
                    | nil =>
                        simp only [eraseAt]
                        rw [eraseChild_modifyChild_ne (fun hba => hab hba.symm)]
                    | cons b2 q2 =>
                        simp only [eraseAt]
                        rw [modifyChild_modifyChild_ne hab]
              · subst hab
                cases p with
                | nil => exact absurd hpq incomp_nil_left
                | cons a2 p2 =>
                    cases q' with
                    | nil => exact absurd List.nil_prefix hpq.2
                    | cons b2 q2 =>
                        simp only [eraseAt, modifyChild_modifyChild_self]
                        have hfun : (fun n => eraseAt (a2 :: p2) (eraseAt (b2 :: q2) n))
                            = fun n => eraseAt (b2 :: q2) (eraseAt (a2 :: p2) n) :=
                          funext fun n => ih (b2 :: q2) n hpq
                        rw [hfun]

theorem eraseAt_concat {a : RawName} :
    ∀ (p : FsPath) (fs node : Node), lookupPath p fs = some node →
      eraseAt (p ++ [a]) fs = replaceAt (childErase a node) p fs := by
  intro p
  induction p with
  | nil =>
      intro fs node h
      injection h with h
      subst h
      cases fs with
      | file sz sOk dOk => rfl
      | dir ro cs => rfl
  | cons b p' ih =>
      intro fs node h
      cases fs with
      | file sz sOk dOk => simp [lookupPath] at h
      | dir ro cs =>
          simp only [lookupPath] at h
          cases hfc : findChild b cs with
          | none => rw [hfc] at h; simp at h
          | some c =>
              rw [hfc] at h
              simp only [Option.some_bind] at h
              obtain ⟨x, xs, hxx⟩ : ∃ x xs, p' ++ [a] = x :: xs := by
                cases p' with
                | nil => exact ⟨a, [], rfl⟩
                | cons y ys => exact ⟨y, ys ++ [a], rfl⟩
              show eraseAt (b :: (p' ++ [a])) (Node.dir ro cs) = _
              rw [hxx]
              simp only [eraseAt, replaceAt]
              have hmc : modifyChild b (eraseAt (x :: xs)) cs
                  = modifyChild b (replaceAt (childErase a node) p') cs :=
                modifyChild_congr fun c' hc' => by
                  rw [hfc] at hc'
                  cases hc'
                  rw [← hxx]
                  exact ih c node h
              rw [hmc]

theorem replaceAt_concat {a : RawName} {v : Node} :
    ∀ (p : FsPath) (fs node : Node), lookupPath p fs = some node →
      replaceAt v (p ++ [a]) fs = replaceAt (childSet a v node) p fs := by
  intro p
  induction p with
  | nil =>
      intro fs node h
      injection h with h
      subst h
      cases fs with
      | file sz sOk dOk => rfl
      | dir ro cs =>
          simp only [List.nil_append, replaceAt, childSet]
  | cons b p' ih =>
      intro fs node h
      cases fs with
      | file sz sOk dOk => simp [lookupPath] at h
      | dir ro cs =>
          simp only [lookupPath] at h
          cases hfc : findChild b cs with
          | none => rw [hfc] at h; simp at h
          | some c =>
              rw [hfc] at h
              simp only [Option.some_bind] at h
              show replaceAt v (b :: (p' ++ [a])) (Node.dir ro cs) = _
              simp only [replaceAt]
              have hmc : modifyChild b (replaceAt v (p' ++ [a])) cs
                  = modifyChild b (replaceAt (childSet a v node) p') cs :=
                modifyChild_congr fun c' hc' => by
                  rw [hfc] at hc'
                  cases hc'
                  exact ih c node h
              rw [hmc]

/-! Well-formedness: global key distinctness and its preservation. -/

theorem wfNode_dir {ro : Bool} {cs : List (RawName × Node)}
    (h : wfNode (Node.dir ro cs) = true) :
    nodupKeys cs = true ∧ wfChildren cs = true := by
  simpa only [wfNode, Bool.and_eq_true] using h

theorem wfChildren_findChild :
    ∀ {cs : List (RawName × Node)} {a : RawName} {c : Node},
      wfChildren cs = true → findChild a cs = some c → wfNode c = true := by
  intro cs
  induction cs with
  | nil => intro a c _ h; simp [findChild] at h
  | cons e rest ih =>
      obtain ⟨b, n⟩ := e
      intro a c hwf hfc
      simp only [wfChildren, Bool.and_eq_true] at hwf
      by_cases hba : b = a
      · subst hba
        simp only [findChild, if_pos rfl] at hfc
        cases hfc
        exact hwf.1
      · simp only [findChild, if_neg hba] at hfc
        exact ih hwf.2 hfc

theorem wf_lookup :
    ∀ (p : FsPath) {fs node : Node},
      wfNode fs = true → lookupPath p fs = some node → wfNode node = true := by
  intro p
  induction p with
  | nil =>
      intro fs node hwf h
      injection h with h
      exact h ▸ hwf
  | cons a p ih =>
      intro fs node hwf h
      cases fs with
      | file sz sOk dOk => simp [lookupPath] at h
      | dir ro cs =>
          simp only [lookupPath] at h
          cases hfc : findChild a cs with
          | none => rw [hfc] at h; simp at h
          | some c =>
              rw [hfc] at h
              simp only [Option.some_bind] at h
              exact ih (wfChildren_findChild (wfNode_dir hwf).2 hfc) h

theorem keyMem_eraseChild_le {b a : RawName} :
    ∀ {cs}, keyMem b (eraseChild a cs) = true → keyMem b cs = true := by
  intro cs
  induction cs with
  | nil => intro h; simp [eraseChild, keyMem] at h
  | cons e rest ih =>
      obtain ⟨c, n⟩ := e
      intro h
      by_cases hca : c = a
      · subst hca
        have h' : keyMem b rest = true := by simpa [eraseChild] using h
        simp [keyMem, h']
      · simp only [eraseChild, if_neg hca, keyMem] at h ⊢
        rcases Bool.or_eq_true_iff.mp h with h' | h'
        · rw [h']
          simp
        · rw [ih h']
          simp

theorem nodupKeys_eraseChild {a : RawName} :
    ∀ {cs}, nodupKeys cs = true → nodupKeys (eraseChild a cs) = true := by
  intro cs
  induction cs with
  | nil => intro _; rfl
  | cons e rest ih =>
      obtain ⟨c, n⟩ := e
      intro h
      simp only [nodupKeys, Bool.and_eq_true, Bool.not_eq_true'] at h
      by_cases hca : c = a
      · subst hca
        simp only [eraseChild, if_pos rfl]
        exact h.2
      · simp only [eraseChild, if_neg hca, nodupKeys, Bool.and_eq_true, Bool.not_eq_true']
        refine ⟨?_, ih h.2⟩
        cases hk : keyMem c (eraseChild a rest)
        · rfl
        · rw [keyMem_eraseChild_le hk] at h
          exact h.1

theorem wfChildren_eraseChild {a : RawName} :
    ∀ {cs}, wfChildren cs = true → wfChildren (eraseChild a cs) = true := by
  intro cs
  induction cs with
  | nil => intro _; rfl
  | cons e rest ih =>
      obtain ⟨c, n⟩ := e
      intro h
      simp only [wfChildren, Bool.and_eq_true] at h
      by_cases hca : c = a
      · subst hca
        simp only [eraseChild, if_pos rfl]
        exact h.2
      · simp only [eraseChild, if_neg hca, wfChildren, Bool.and_eq_true]
        exact ⟨h.1, ih h.2⟩

theorem keyMem_modifyChild {b a : RawName} {f : Node → Node} :
    ∀ cs, keyMem b (modifyChild a f cs) = keyMem b cs := by
  intro cs
  induction cs with
  | nil => rfl
  | cons e rest ih =>
      obtain ⟨c, n⟩ := e
      by_cases hca : c = a
      · subst hca
        simp [modifyChild, keyMem]
      · simp [modifyChild, keyMem, hca, ih]

theorem nodupKeys_modifyChild {a : RawName} {f : Node → Node} :
    ∀ cs, nodupKeys (modifyChild a f cs) = nodupKeys cs := by
  intro cs
  induction cs with
  | nil => rfl
  | cons e rest ih =>
      obtain ⟨c, n⟩ := e
      by_cases hca : c = a
      · subst hca
        simp [modifyChild, nodupKeys, keyMem_modifyChild]
      · simp [modifyChild, nodupKeys, hca, ih, keyMem_modifyChild]

theorem wfChildren_modifyChild {a : RawName} {f : Node → Node} :
    ∀ {cs}, (∀ c, findChild a cs = some c → wfNode (f c) = true) →
      wfChildren cs = true → wfChildren (modifyChild a f cs) = true := by
  intro cs
  induction cs with
  | nil => intro _ _; rfl
  | cons e rest ih =>
      obtain ⟨c, n⟩ := e
      intro hf h
      simp only [wfChildren, Bool.and_eq_true] at h
      by_cases hca : c = a
      · subst hca
        simp only [modifyChild, if_pos rfl, wfChildren, Bool.and_eq_true]
        exact ⟨hf n (by simp [findChild]), h.2⟩
      · simp only [modifyChild, if_neg hca, wfChildren, Bool.and_eq_true]
        exact ⟨h.1, ih (fun c' hc' => hf c' (by simpa [findChild, hca] using hc')) h.2⟩

theorem wf_eraseAt :
    ∀ (p : FsPath) (fs : Node), wfNode fs = true → wfNode (eraseAt p fs) = true := by
  intro p
  induction p with
  | nil => intro fs h; exact h
  | cons a p ih =>
      intro fs h
      cases fs with
      | file sz sOk dOk => rw [eraseAt_file]; exact h
      | dir ro cs =>
          rcases wfNode_dir h with ⟨hnd, hwc⟩
          cases p with
          | nil =>
              simp only [eraseAt, wfNode, Bool.and_eq_true]
              exact ⟨nodupKeys_eraseChild hnd, wfChildren_eraseChild hwc⟩
          | cons b p' =>
              simp only [eraseAt, wfNode, Bool.and_eq_true]
              constructor
              · rw [nodupKeys_modifyChild]
                exact hnd
              · exact wfChildren_modifyChild
                  (fun c hc => ih c (wfChildren_findChild hwc hc)) hwc

/-! Name resolution along extended paths, read-only congruence, and the
queue measure. -/

theorem fileNameAt_concat {rootName : Option RawName} {p : FsPath} {a : RawName} :
    fileNameAt rootName (p ++ [a]) = a.utf8 := by
  simp [fileNameAt, List.getLast?_concat]

theorem pathDelta_congr {rootName : Option RawName} {fs fs2 : Node} {p : FsPath}
    (h : lookupPath p fs2 = lookupPath p fs) :
    pathDelta rootName fs2 p = pathDelta rootName fs p := by
  unfold pathDelta
  rw [h]

theorem pathVisit_congr {rootName : Option RawName} {fs fs2 : Node} {p : FsPath}
    (h : lookupPath p fs2 = lookupPath p fs) :
    pathVisit rootName fs2 p = pathVisit rootName fs p := by
  unfold pathVisit
  rw [h]

theorem queueOk_congr {rootName : Option RawName} {fs fs2 : Node} {p : FsPath}
    (h : lookupPath p fs2 = lookupPath p fs) :
    queueOk rootName fs2 p ↔ queueOk rootName fs p := by
  unfold queueOk
  rw [h]

theorem pweight_congr {fs fs2 : Node} {p : FsPath}
    (h : lookupPath p fs2 = lookupPath p fs) : pweight fs2 p = pweight fs p := by
  unfold pweight
  rw [h]

theorem nweight_pos : ∀ n : Node, 1 ≤ nweight n := by
  intro n
  cases n with
  | file sz sOk dOk => exact Nat.le_refl 1
  | dir ro cs => simp [nweight]

theorem pweight_pos (fs : Node) (p : FsPath) : 1 ≤ pweight fs p := by
  unfold pweight
  cases lookupPath p fs with
  | none => exact Nat.le_refl 1
  | some n => exact nweight_pos n

theorem measureQ_nil (fs : Node) : measureQ fs [] = 0 := rfl

theorem measureQ_cons (fs : Node) (p : FsPath) (q : List FsPath) :
    measureQ fs (p :: q) = pweight fs p + measureQ fs q := by
  simp [measureQ]

theorem measureQ_append (fs : Node) (q₁ q₂ : List FsPath) :
    measureQ fs (q₁ ++ q₂) = measureQ fs q₁ + measureQ fs q₂ := by
  simp [measureQ]

theorem measureQ_congr {fs fs2 : Node} {q : List FsPath}
    (h : ∀ p ∈ q, lookupPath p fs2 = lookupPath p fs) : measureQ fs2 q = measureQ fs q := by
  induction q with
  | nil => rfl
  | cons p rest ih =>
      rw [measureQ_cons, measureQ_cons, pweight_congr (h p (List.mem_cons_self p rest)),
        ih fun r hr => h r (List.mem_cons_of_mem p hr)]

/-! The push list of an expansion. -/

theorem expandChildren_some_eq {dn : String} {base : FsPath} :
    ∀ {cs : List (RawName × Node)} {L : List FsPath},
      expandChildren dn base cs = some L → L = enqPaths dn base cs := by
  intro cs
  induction cs with
  | nil =>
      intro L h
      injection h with h
      exact h.symm
  | cons e rest ih =>
      obtain ⟨a, n⟩ := e
      intro L h
      cases n with
      | file sz sOk dOk =>
          cases hu : a.utf8 with
          | none =>
              simp only [expandChildren, hu] at h
              exact Option.noConfusion h
          | some nm =>
              simp only [expandChildren, hu] at h
              by_cases hcond :
                  (strEndsWith dn SNAPSHOT_SUFFIX || nm == LOCAL_METADATA_FILE) = true
              · rw [if_pos hcond] at h
                cases hrest : expandChildren dn base rest with
                | none => rw [hrest] at h; cases h
                | some L' =>
                    rw [hrest] at h
                    simp only [Option.map_some'] at h
                    injection h with h
                    subst h
                    simp only [enqPaths, hu, if_pos hcond, ih hrest]
                    rfl
              · rw [if_neg hcond] at h
                simp only [enqPaths, hu, if_neg hcond, ← ih h]
                rfl
      | dir ro2 cs2 =>
          simp only [expandChildren] at h
          cases hrest : expandChildren dn base rest with
          | none => rw [hrest] at h; cases h
          | some L' =>
              rw [hrest] at h
              simp only [Option.map_some'] at h
              injection h with h
              subst h
              rw [enqPaths, ih hrest]

theorem okChildren_expand {dn : String} {base : FsPath} :
    ∀ {cs : List (RawName × Node)}, okChildren dn cs = true →
      expandChildren dn base cs = some (enqPaths dn base cs) := by
  intro cs
  induction cs with
  | nil => intro _; rfl
  | cons e rest ih =>
      obtain ⟨a, n⟩ := e
      intro h
      cases n with
      | file sz sOk dOk =>
          rw [okChildren, Bool.and_eq_true] at h
          cases hu : a.utf8 with
          | none =>
              rw [hu] at h
              exact absurd h.1 (by simp)
          | some nm =>
              simp only [expandChildren, hu, enqPaths]
              by_cases hcond :
                  (strEndsWith dn SNAPSHOT_SUFFIX || nm == LOCAL_METADATA_FILE) = true
              · rw [if_pos hcond, if_pos hcond, ih h.2]
                rfl
              · rw [if_neg hcond, if_neg hcond, ih h.2]
                rfl
      | dir ro2 cs2 =>
          rw [okChildren, Bool.and_eq_true] at h
          simp only [expandChildren, enqPaths, ih h.2]
          rfl

theorem enqPaths_shape {dn : String} {base : FsPath} :
    ∀ {cs : List (RawName × Node)} {x : FsPath},
      x ∈ enqPaths dn base cs → ∃ a, x = base ++ [a] ∧ keyMem a cs = true := by
  intro cs
  induction cs with
  | nil => intro x h; simp [enqPaths] at h
  | cons e rest ih =>
      obtain ⟨a, n⟩ := e
      intro x h
      cases n with
      | file sz sOk dOk =>
          rw [enqPaths] at h
          rcases List.mem_append.mp h with h' | h'
          · refine ⟨a, ?_, by simp [keyMem]⟩
            cases hu : a.utf8 with
            | none =>
                rw [hu] at h'
                have h2 : x ∈ ([] : List FsPath) := h'
                simp at h2
            | some nm =>
                rw [hu] at h'
                have h2 : x ∈ (if (strEndsWith dn SNAPSHOT_SUFFIX
                      || nm == LOCAL_METADATA_FILE) = true
                    then [base ++ [a]] else ([] : List FsPath)) := h'
                by_cases hcond :
                    (strEndsWith dn SNAPSHOT_SUFFIX || nm == LOCAL_METADATA_FILE) = true
                · rw [if_pos hcond] at h2
                  simpa using h2
                · rw [if_neg hcond] at h2
                  simp at h2
          · obtain ⟨b, hb, hbm⟩ := ih h'
            exact ⟨b, hb, by simp [keyMem, hbm]⟩
      | dir ro2 cs2 =>
          rw [enqPaths] at h
          rcases List.mem_cons.mp h with h' | h'
          · exact ⟨a, h', by simp [keyMem]⟩
          · obtain ⟨b, hb, hbm⟩ := ih h'
            exact ⟨b, hb, by simp [keyMem, hbm]⟩

theorem incomp_concat_ne {base : FsPath} {a b : RawName} (hne : a ≠ b) :
    Incomp (base ++ [a]) (base ++ [b]) := by
  constructor <;> intro hpre
  · have heq := List.IsPrefix.eq_of_length hpre (by simp)
    exact hne (by simpa using List.append_cancel_left heq)
  · have heq := List.IsPrefix.eq_of_length hpre (by simp)
    exact hne (by simpa using (List.append_cancel_left heq).symm)

theorem enqPaths_pairwise {dn : String} {base : FsPath} :
    ∀ {cs : List (RawName × Node)}, nodupKeys cs = true →
      List.Pairwise Incomp (enqPaths dn base cs) := by
  intro cs
  induction cs with
  | nil => intro _; simp [enqPaths]
  | cons e rest ih =>
      obtain ⟨a, n⟩ := e
      intro h
      rw [nodupKeys, Bool.and_eq_true, Bool.not_eq_true'] at h
      have hmem : ∀ x ∈ enqPaths dn base rest, Incomp (base ++ [a]) x := by
        intro x hx
        obtain ⟨b, rfl, hbm⟩ := enqPaths_shape hx
        refine incomp_concat_ne fun hab => ?_
        rw [hab] at h
        rw [hbm] at h
        exact absurd h.1 (by simp)
      cases n with
      | file sz sOk dOk =>
          rw [enqPaths]
          cases hu : a.utf8 with
          | none =>
              show List.Pairwise Incomp (([] : List FsPath) ++ enqPaths dn base rest)
              simpa using ih h.2
          | some nm =>
              show List.Pairwise Incomp ((if (strEndsWith dn SNAPSHOT_SUFFIX
                    || nm == LOCAL_METADATA_FILE) = true
                  then [base ++ [a]] else ([] : List FsPath)) ++ enqPaths dn base rest)
              by_cases hcond :
                  (strEndsWith dn SNAPSHOT_SUFFIX || nm == LOCAL_METADATA_FILE) = true
              · rw [if_pos hcond]
                show List.Pairwise Incomp ((base ++ [a]) :: enqPaths dn base rest)
                exact List.pairwise_cons.mpr ⟨hmem, ih h.2⟩
              · rw [if_neg hcond]
                simpa using ih h.2
      | dir ro2 cs2 =>
          rw [enqPaths]
          exact List.pairwise_cons.mpr ⟨hmem, ih h.2⟩

theorem delCond_enq {dn n : String} (h : delCond dn n = true) :
    (strEndsWith dn SNAPSHOT_SUFFIX || n == LOCAL_METADATA_FILE) = true := by
  unfold delCond at h
  rcases Bool.or_eq_true_iff.mp h with h | h
  · rw [h]
    simp
  · simp only [Bool.and_eq_true] at h
    rw [h.1.1]
    simp

/-! The one-path effect: congruence, preservation and commutation. -/

theorem effActionOf_congr {rootName : Option RawName} {fs fs2 : Node} {p : FsPath}
    (h : lookupPath p fs2 = lookupPath p fs) :
    effActionOf rootName fs2 p = effActionOf rootName fs p := by
  unfold effActionOf
  rw [h]

theorem lookupPath_runEff_incomp {A : EffAction} {p q : FsPath} {fs : Node}
    (h : Incomp p q) : lookupPath q (runEff A p fs) = lookupPath q fs := by
  cases A with
  | keep => rfl
  | subst v => exact lookupPath_replaceAt_incomp p q fs h
  | del => exact lookupPath_eraseAt_incomp p q fs h

theorem runEff_comm {A B : EffAction} {p q : FsPath} {fs : Node} (h : Incomp p q) :
    runEff A p (runEff B q fs) = runEff B q (runEff A p fs) := by
  have h' : Incomp q p := ⟨h.2, h.1⟩
  cases A with
  | keep => rfl
  | subst v =>
      cases B with
      | keep => rfl
      | subst w => exact replaceAt_comm_incomp p q fs h
      | del => exact (eraseAt_replaceAt_incomp q p fs h').symm
  | del =>
      cases B with
      | keep => rfl
      | subst w => exact eraseAt_replaceAt_incomp p q fs h
      | del => exact eraseAt_comm_incomp p q fs h

theorem lookupPath_pathEffect_incomp {rootName : Option RawName} {p q : FsPath} {fs : Node}
    (h : Incomp p q) : lookupPath q (pathEffect rootName fs p) = lookupPath q fs :=
  lookupPath_runEff_incomp h

theorem pathEffect_comm_incomp {rootName : Option RawName} {p q : FsPath} {fs : Node}
    (h : Incomp p q) :
    pathEffect rootName (pathEffect rootName fs p) q
      = pathEffect rootName (pathEffect rootName fs q) p := by
  have h' : Incomp q p := ⟨h.2, h.1⟩
  show runEff (effActionOf rootName (pathEffect rootName fs p) q) q
        (pathEffect rootName fs p)
      = runEff (effActionOf rootName (pathEffect rootName fs q) p) p
        (pathEffect rootName fs q)
  rw [effActionOf_congr (lookupPath_pathEffect_incomp h),
    effActionOf_congr (lookupPath_pathEffect_incomp h')]
  exact runEff_comm h'

theorem applyAll_append (rootName : Option RawName) :
    ∀ (q₁ q₂ : List FsPath) (fs : Node),
      applyAll rootName fs (q₁ ++ q₂) = applyAll rootName (applyAll rootName fs q₁) q₂ := by
  intro q₁
  induction q₁ with
  | nil => intro q₂ fs; rfl
  | cons p rest ih =>
      intro q₂ fs
      simp only [List.cons_append, applyAll]
      exact ih q₂ _

theorem applyAll_pathEffect_incomp {rootName : Option RawName} :
    ∀ (rest : List FsPath) (p : FsPath) (fs : Node), (∀ r ∈ rest, Incomp p r) →
      applyAll rootName (pathEffect rootName fs p) rest
        = pathEffect rootName (applyAll rootName fs rest) p := by
  intro rest
  induction rest with
  | nil => intro p fs _; rfl
  | cons r rest ih =>
      intro p fs h
      simp only [applyAll]
      rw [pathEffect_comm_incomp (h r (List.mem_cons_self r rest))]
      exact ih p (pathEffect rootName fs r) fun r' hr' => h r' (List.mem_cons_of_mem r hr')

theorem lookupPath_applyAll_incomp {rootName : Option RawName} :
    ∀ (rest : List FsPath) (p : FsPath) (fs : Node), (∀ r ∈ rest, Incomp r p) →
      lookupPath p (applyAll rootName fs rest) = lookupPath p fs := by
  intro rest
  induction rest with
  | nil => intro p fs _; rfl
  | cons r rest ih =>
      intro p fs h
      simp only [applyAll]
      rw [ih p _ fun r' hr' => h r' (List.mem_cons_of_mem r hr')]
      exact lookupPath_pathEffect_incomp (h r (List.mem_cons_self r rest))

/-! Characterizing the action of particular paths. -/

theorem lookupPath_concat {p : FsPath} {a : RawName} {fs : Node} :
    lookupPath (p ++ [a]) fs = (lookupPath p fs).bind fun node =>
      match node with
      | Node.dir _ cs => findChild a cs
      | Node.file _ _ _ => none := by
  rw [lookupPath_append]
  cases lookupPath p fs with
  | none => rfl
  | some node =>
      cases node with
      | file sz sOk dOk => rfl
      | dir ro cs =>
          simp only [Option.some_bind, lookupPath]
          exact Option.bind_some _

theorem effActionOf_dir {rootName : Option RawName} {fs : Node} {p : FsPath}
    {ro : Bool} {cs : List (RawName × Node)} {dn : String}
    (hlk : lookupPath p fs = some (Node.dir ro cs))
    (hdn : fileNameAt rootName p = some dn) :
    effActionOf rootName fs p = EffAction.subst (pruneNode dn (Node.dir ro cs)) := by
  have h1 : effActionOf rootName fs p = (match fileNameAt rootName p with
      | some dn' => EffAction.subst (pruneNode dn' (Node.dir ro cs))
      | none => EffAction.keep) := by
    unfold effActionOf
    rw [hlk]
  rw [hdn] at h1
  exact h1

theorem effActionOf_dir_noname {rootName : Option RawName} {fs : Node} {p : FsPath}
    {ro : Bool} {cs : List (RawName × Node)}
    (hlk : lookupPath p fs = some (Node.dir ro cs))
    (hdn : fileNameAt rootName p = none) :
    effActionOf rootName fs p = EffAction.keep := by
  have h1 : effActionOf rootName fs p = (match fileNameAt rootName p with
      | some dn' => EffAction.subst (pruneNode dn' (Node.dir ro cs))
      | none => EffAction.keep) := by
    unfold effActionOf
    rw [hlk]
  rw [hdn] at h1
  exact h1

theorem effActionOf_file_concat {rootName : Option RawName} {fs : Node} {p : FsPath}
    {a : RawName} {sz : Nat} {sOk dOk : Bool} {dn n : String}
    (hlk : lookupPath (p ++ [a]) fs = some (Node.file sz sOk dOk))
    (hdn : fileNameAt rootName p = some dn)
    (hn : a.utf8 = some n) :
    effActionOf rootName fs (p ++ [a])
      = if delCond dn n then EffAction.del else EffAction.keep := by
  have h1 : effActionOf rootName fs (p ++ [a]) = (match p ++ [a] with
      | [] => EffAction.keep
      | _ :: _ =>
          match fileNameAt rootName (p ++ [a]).dropLast, fileNameAt rootName (p ++ [a]) with
          | some dn', some n' => if delCond dn' n' then EffAction.del else EffAction.keep
          | _, _ => EffAction.keep) := by
    unfold effActionOf
    rw [hlk]
  rw [List.dropLast_concat, hdn, fileNameAt_concat, hn] at h1
  obtain ⟨x, xs, hxx⟩ : ∃ x xs, p ++ [a] = x :: xs := by
    cases p with
    | nil => exact ⟨a, [], rfl⟩
    | cons y ys => exact ⟨y, ys ++ [a], rfl⟩
  rw [hxx] at h1
  rw [hxx]
  exact h1

theorem pathEffect_file_concat {rootName : Option RawName} {fs : Node} {p : FsPath}
    {a : RawName} {sz : Nat} {sOk dOk : Bool} {dn n : String}
    (hlk : lookupPath (p ++ [a]) fs = some (Node.file sz sOk dOk))
    (hdn : fileNameAt rootName p = some dn)
    (hn : a.utf8 = some n) :
    pathEffect rootName fs (p ++ [a])
      = if delCond dn n then eraseAt (p ++ [a]) fs else fs := by
  unfold pathEffect
  rw [effActionOf_file_concat hlk hdn hn]
  by_cases hc : delCond dn n = true
  · rw [if_pos hc, if_pos hc]
    rfl
  · rw [if_neg hc, if_neg hc]
    rfl

/-! Decomposition of a directory expansion: applying the effects of all
pushed children realizes the structural pruning of the directory. -/

theorem applyAll_enqPaths {rootName : Option RawName} {p : FsPath} {dn : String} {ro : Bool} :
    ∀ (cs acc : List (RawName × Node)) (fs : Node),
      fileNameAt rootName p = some dn →
      lookupPath p fs = some (Node.dir ro (acc ++ cs)) →
      nodupKeys (acc ++ cs) = true →
      applyAll rootName fs (enqPaths dn p cs)
        = replaceAt (Node.dir ro (acc ++ pruneChildren dn cs)) p fs := by
  intro cs
  induction cs with
  | nil =>
      intro acc fs _ hlk _
      rw [List.append_nil] at hlk
      show fs = replaceAt (Node.dir ro (acc ++ pruneChildren dn [])) p fs
      rw [pruneChildren, List.append_nil]
      exact (replaceAt_self p fs _ hlk).symm
  | cons e cs' ih =>
      intro acc fs hdn hlk hnd
      obtain ⟨a, n⟩ := e
      have hKacc : keyMem a acc = false := (nodupKeys_mid acc hnd).1
      have hlkc : lookupPath (p ++ [a]) fs = some n := by
        rw [lookupPath_concat, hlk]
        simp only [Option.some_bind]
        exact findChild_mid hKacc
      cases n with
      | file sz sOk dOk =>
          rw [enqPaths]
          cases hu : a.utf8 with
          | none =>
              show applyAll rootName fs (([] : List FsPath) ++ enqPaths dn p cs')
                  = replaceAt (Node.dir ro
                      (acc ++ pruneChildren dn ((a, Node.file sz sOk dOk) :: cs'))) p fs
              rw [List.nil_append]
              have hpc : pruneChildren dn ((a, Node.file sz sOk dOk) :: cs')
                  = (a, Node.file sz sOk dOk) :: pruneChildren dn cs' := by
                rw [pruneChildren, hu]
              rw [hpc, List.append_cons acc]
              exact ih (acc ++ [(a, Node.file sz sOk dOk)]) fs hdn
                (by rw [← List.append_cons]; exact hlk)
                (by rw [← List.append_cons]; exact hnd)
          | some nm =>
              show applyAll rootName fs
                  ((if (strEndsWith dn SNAPSHOT_SUFFIX || nm == LOCAL_METADATA_FILE) = true
                    then [p ++ [a]] else ([] : List FsPath)) ++ enqPaths dn p cs') = _
              by_cases hcond :
                  (strEndsWith dn SNAPSHOT_SUFFIX || nm == LOCAL_METADATA_FILE) = true
              · rw [if_pos hcond, List.cons_append, List.nil_append]
                show applyAll rootName (pathEffect rootName fs (p ++ [a]))
                    (enqPaths dn p cs') = _
                rw [pathEffect_file_concat hlkc hdn hu]
                by_cases hdc : delCond dn nm = true
                · rw [if_pos hdc]
                  rw [eraseAt_concat p fs _ hlk]
                  have hch : childErase a (Node.dir ro (acc ++ (a, Node.file sz sOk dOk) :: cs'))
                      = Node.dir ro (acc ++ cs') := by
                    rw [childErase, eraseChild_mid hKacc]
                  rw [hch]
                  have hlk1 : lookupPath p (replaceAt (Node.dir ro (acc ++ cs')) p fs)
                      = some (Node.dir ro (acc ++ cs')) :=
                    lookupPath_replaceAt_self p fs (by rw [hlk]; rfl)
                  have hnd1 : nodupKeys (acc ++ cs') = true := nodupKeys_drop_mid acc hnd
                  rw [ih acc _ hdn hlk1 hnd1, replaceAt_replaceAt]
                  have hpc : pruneChildren dn ((a, Node.file sz sOk dOk) :: cs')
                      = pruneChildren dn cs' := by
                    rw [pruneChildren, hu]
                    show (if delCond dn nm = true then pruneChildren dn cs'
                        else (a, Node.file sz sOk dOk) :: pruneChildren dn cs')
                      = pruneChildren dn cs'
                    rw [if_pos hdc]
                  rw [hpc]
                · rw [if_neg hdc]
                  have hpc : pruneChildren dn ((a, Node.file sz sOk dOk) :: cs')
                      = (a, Node.file sz sOk dOk) :: pruneChildren dn cs' := by
                    rw [pruneChildren, hu]
                    show (if delCond dn nm = true then pruneChildren dn cs'
                        else (a, Node.file sz sOk dOk) :: pruneChildren dn cs')
                      = (a, Node.file sz sOk dOk) :: pruneChildren dn cs'
                    rw [if_neg hdc]
                  rw [hpc, List.append_cons acc]
                  exact ih (acc ++ [(a, Node.file sz sOk dOk)]) fs hdn
                    (by rw [← List.append_cons]; exact hlk)
                    (by rw [← List.append_cons]; exact hnd)
              · rw [if_neg hcond, List.nil_append]
                have hdc : delCond dn nm = false := by
                  cases hd : delCond dn nm
                  · rfl
                  · exact absurd (delCond_enq hd) hcond
                have hpc : pruneChildren dn ((a, Node.file sz sOk dOk) :: cs')
                    = (a, Node.file sz sOk dOk) :: pruneChildren dn cs' := by
                  rw [pruneChildren, hu]
                  show (if delCond dn nm = true then pruneChildren dn cs'
                      else (a, Node.file sz sOk dOk) :: pruneChildren dn cs')
                    = (a, Node.file sz sOk dOk) :: pruneChildren dn cs'
                  rw [if_neg (by rw [hdc]; exact Bool.false_ne_true)]
                rw [hpc, List.append_cons acc]
                exact ih (acc ++ [(a, Node.file sz sOk dOk)]) fs hdn
                  (by rw [← List.append_cons]; exact hlk)
                  (by rw [← List.append_cons]; exact hnd)
      | dir ro2 cs2 =>
          rw [enqPaths]
          show applyAll rootName (pathEffect rootName fs (p ++ [a])) (enqPaths dn p cs') = _
          cases hu : a.utf8 with
          | none =>
              have heff : pathEffect rootName fs (p ++ [a]) = fs := by
                unfold pathEffect
                rw [effActionOf_dir_noname hlkc (by rw [fileNameAt_concat, hu])]
                rfl
              rw [heff]
              have hpc : pruneChildren dn ((a, Node.dir ro2 cs2) :: cs')
                  = (a, Node.dir ro2 cs2) :: pruneChildren dn cs' := by
                rw [pruneChildren, hu]
              rw [hpc, List.append_cons acc]
              exact ih (acc ++ [(a, Node.dir ro2 cs2)]) fs hdn
                (by rw [← List.append_cons]; exact hlk)
                (by rw [← List.append_cons]; exact hnd)
          | some cn =>
              have heff : pathEffect rootName fs (p ++ [a])
                  = replaceAt (pruneNode cn (Node.dir ro2 cs2)) (p ++ [a]) fs := by
                unfold pathEffect
                rw [effActionOf_dir hlkc (by rw [fileNameAt_concat, hu])]
                rfl
              rw [heff, replaceAt_concat p fs _ hlk]
              have hch : childSet a (pruneNode cn (Node.dir ro2 cs2))
                    (Node.dir ro (acc ++ (a, Node.dir ro2 cs2) :: cs'))
                  = Node.dir ro (acc ++ (a, pruneNode cn (Node.dir ro2 cs2)) :: cs') := by
                rw [childSet, modifyChild_mid hKacc]
              rw [hch]
              have hlk1 : lookupPath p (replaceAt
                    (Node.dir ro (acc ++ (a, pruneNode cn (Node.dir ro2 cs2)) :: cs')) p fs)
                  = some (Node.dir ro (acc ++ (a, pruneNode cn (Node.dir ro2 cs2)) :: cs')) :=
                lookupPath_replaceAt_self p fs (by rw [hlk]; rfl)
              have hnd1 : nodupKeys (acc ++ (a, pruneNode cn (Node.dir ro2 cs2)) :: cs') = true :=
                nodupKeys_set_mid acc hnd
              have hpc : pruneChildren dn ((a, Node.dir ro2 cs2) :: cs')
                  = (a, pruneNode cn (Node.dir ro2 cs2)) :: pruneChildren dn cs' := by
                rw [pruneChildren, hu]
              have hrec := ih (acc ++ [(a, pruneNode cn (Node.dir ro2 cs2))]) _ hdn
                (by rw [← List.append_cons]; exact hlk1)
                (by rw [← List.append_cons]; exact hnd1)
              rw [← List.append_cons] at hrec
              rw [hpc, hrec, replaceAt_replaceAt]

theorem deltaQ_nil (rootName : Option RawName) (fs : Node) : deltaQ rootName fs [] = 0 := rfl

theorem deltaQ_cons (rootName : Option RawName) (fs : Node) (p : FsPath) (q : List FsPath) :
    deltaQ rootName fs (p :: q) = pathDelta rootName fs p + deltaQ rootName fs q := by
  simp [deltaQ]

theorem deltaQ_append (rootName : Option RawName) (fs : Node) (q₁ q₂ : List FsPath) :
    deltaQ rootName fs (q₁ ++ q₂) = deltaQ rootName fs q₁ + deltaQ rootName fs q₂ := by
  simp [deltaQ]

theorem deltaQ_congr {rootName : Option RawName} {fs fs2 : Node} {q : List FsPath}
    (h : ∀ p ∈ q, lookupPath p fs2 = lookupPath p fs) :
    deltaQ rootName fs2 q = deltaQ rootName fs q := by
  induction q with
  | nil => rfl
  | cons p rest ih =>
      rw [deltaQ_cons, deltaQ_cons, pathDelta_congr (h p (List.mem_cons_self p rest)),
        ih fun r hr => h r (List.mem_cons_of_mem p hr)]

theorem pathDelta_dir {rootName : Option RawName} {fs : Node} {p : FsPath}
    {ro : Bool} {cs : List (RawName × Node)} {dn : String}
    (hlk : lookupPath p fs = some (Node.dir ro cs))
    (hdn : fileNameAt rootName p = some dn) :
    pathDelta rootName fs p = delSize dn (Node.dir ro cs) := by
  have h1 : pathDelta rootName fs p = (match fileNameAt rootName p with
      | some dn' => delSize dn' (Node.dir ro cs)
      | none => 0) := by
    unfold pathDelta
    rw [hlk]
  rw [hdn] at h1
  exact h1

theorem pathDelta_dir_noname {rootName : Option RawName} {fs : Node} {p : FsPath}
    {ro : Bool} {cs : List (RawName × Node)}
    (hlk : lookupPath p fs = some (Node.dir ro cs))
    (hdn : fileNameAt rootName p = none) :
    pathDelta rootName fs p = 0 := by
  have h1 : pathDelta rootName fs p = (match fileNameAt rootName p with
      | some dn' => delSize dn' (Node.dir ro cs)
      | none => 0) := by
    unfold pathDelta
    rw [hlk]
  rw [hdn] at h1
  exact h1

theorem pathDelta_file_concat {rootName : Option RawName} {fs : Node} {p : FsPath}
    {a : RawName} {sz : Nat} {sOk dOk : Bool} {dn n : String}
    (hlk : lookupPath (p ++ [a]) fs = some (Node.file sz sOk dOk))
    (hdn : fileNameAt rootName p = some dn)
    (hn : a.utf8 = some n) :
    pathDelta rootName fs (p ++ [a])
      = (if n == LOCAL_METADATA_FILE then 0
         else if delCond dn n then (if sOk then sz else 0) else 0) := by
  have h1 : pathDelta rootName fs (p ++ [a]) = (match p ++ [a] with
      | [] => 0
      | _ :: _ =>
          match fileNameAt rootName (p ++ [a]).dropLast, fileNameAt rootName (p ++ [a]) with
          | some dn', some n' =>
              if n' == LOCAL_METADATA_FILE then 0
              else if delCond dn' n' then (if sOk then sz else 0) else 0
          | _, _ => 0) := by
    unfold pathDelta
    rw [hlk]
  rw [List.dropLast_concat, hdn, fileNameAt_concat, hn] at h1
  obtain ⟨x, xs, hxx⟩ : ∃ x xs, p ++ [a] = x :: xs := by
    cases p with
    | nil => exact ⟨a, [], rfl⟩
    | cons y ys => exact ⟨y, ys ++ [a], rfl⟩
  rw [hxx] at h1
  rw [hxx]
  exact h1

theorem deltaQ_enqPaths {rootName : Option RawName} {p : FsPath} {dn : String} {ro : Bool} :
    ∀ (cs acc : List (RawName × Node)) (fs : Node),
      fileNameAt rootName p = some dn →
      lookupPath p fs = some (Node.dir ro (acc ++ cs)) →
      nodupKeys (acc ++ cs) = true →
      deltaQ rootName fs (enqPaths dn p cs) = delSizeChildren dn cs := by
  intro cs
  induction cs with
  | nil => intro acc fs _ _ _; rfl
  | cons e cs' ih =>
      intro acc fs hdn hlk hnd
      obtain ⟨a, n⟩ := e
      have hKacc : keyMem a acc = false := (nodupKeys_mid acc hnd).1
      have hlkc : lookupPath (p ++ [a]) fs = some n := by
        rw [lookupPath_concat, hlk]
        simp only [Option.some_bind]
        exact findChild_mid hKacc
      have hihs := ih (acc ++ [(a, n)]) fs hdn
        (by rw [← List.append_cons]; exact hlk)
        (by rw [← List.append_cons]; exact hnd)
      cases n with
      | file sz sOk dOk =>
          rw [enqPaths, delSizeChildren]
          cases hu : a.utf8 with
          | none =>
              show deltaQ rootName fs (([] : List FsPath) ++ enqPaths dn p cs')
                  = 0 + delSizeChildren dn cs'
              rw [List.nil_append, Nat.zero_add]
              exact hihs
          | some nm =>
              show deltaQ rootName fs
                  ((if (strEndsWith dn SNAPSHOT_SUFFIX || nm == LOCAL_METADATA_FILE) = true
                    then [p ++ [a]] else ([] : List FsPath)) ++ enqPaths dn p cs')
                = (if nm == LOCAL_METADATA_FILE then 0
                   else if delCond dn nm then (if sOk then sz else 0) else 0)
                  + delSizeChildren dn cs'
              by_cases hcond :
                  (strEndsWith dn SNAPSHOT_SUFFIX || nm == LOCAL_METADATA_FILE) = true
              · rw [if_pos hcond, List.cons_append, List.nil_append, deltaQ_cons,
                  pathDelta_file_concat hlkc hdn hu, hihs]
              · rw [if_neg hcond, List.nil_append, hihs]
                have hnm : (nm == LOCAL_METADATA_FILE) = false := by
                  cases hb : (nm == LOCAL_METADATA_FILE)
                  · rfl
                  · exact absurd (by rw [hb]; simp) hcond
                have hdc : delCond dn nm = false := by
                  cases hd : delCond dn nm
                  · rfl
                  · exact absurd (delCond_enq hd) hcond
                rw [hnm, hdc]
                simp
      | dir ro2 cs2 =>
          rw [enqPaths, delSizeChildren, deltaQ_cons, hihs]
          cases hu : a.utf8 with
          | none =>
              rw [pathDelta_dir_noname hlkc (by rw [fileNameAt_concat, hu])]
          | some cn =>
              rw [pathDelta_dir hlkc (by rw [fileNameAt_concat, hu])]

theorem pathVisit_file {rootName : Option RawName} {fs : Node} {p : FsPath}
    {sz : Nat} {sOk dOk : Bool}
    (hlk : lookupPath p fs = some (Node.file sz sOk dOk)) :
    pathVisit rootName fs p = [] := by
  unfold pathVisit
  rw [hlk]

theorem pathVisit_dir {rootName : Option RawName} {fs : Node} {p : FsPath}
    {ro : Bool} {cs : List (RawName × Node)} {dn : String}
    (hlk : lookupPath p fs = some (Node.dir ro cs))
    (hdn : fileNameAt rootName p = some dn) :
    pathVisit rootName fs p = visitNode dn p (Node.dir ro cs) := by
  have h1 : pathVisit rootName fs p = (match fileNameAt rootName p with
      | some dn' => visitNode dn' p (Node.dir ro cs)
      | none => []) := by
    unfold pathVisit
    rw [hlk]
  rw [hdn] at h1
  exact h1

theorem pathVisit_dir_noname {rootName : Option RawName} {fs : Node} {p : FsPath}
    {ro : Bool} {cs : List (RawName × Node)}
    (hlk : lookupPath p fs = some (Node.dir ro cs))
    (hdn : fileNameAt rootName p = none) :
    pathVisit rootName fs p = [] := by
  have h1 : pathVisit rootName fs p = (match fileNameAt rootName p with
      | some dn' => visitNode dn' p (Node.dir ro cs)
      | none => []) := by
    unfold pathVisit
    rw [hlk]
  rw [hdn] at h1
  exact h1

theorem visitChildren_iff {rootName : Option RawName} {p : FsPath} {dn : String} {ro : Bool} :
    ∀ (cs acc : List (RawName × Node)) (fs : Node),
      fileNameAt rootName p = some dn →
      lookupPath p fs = some (Node.dir ro (acc ++ cs)) →
      nodupKeys (acc ++ cs) = true →
      ∀ x, x ∈ visitChildren dn p cs ↔
        (x ∈ enqPaths dn p cs ∨ ∃ P ∈ enqPaths dn p cs, x ∈ pathVisit rootName fs P) := by
  intro cs
  induction cs with
  | nil =>
      intro acc fs _ _ _ x
      simp [visitChildren, enqPaths]
  | cons e cs' ih =>
      intro acc fs hdn hlk hnd x
      obtain ⟨a, n⟩ := e
      have hKacc : keyMem a acc = false := (nodupKeys_mid acc hnd).1
      have hlkc : lookupPath (p ++ [a]) fs = some n := by
        rw [lookupPath_concat, hlk]
        simp only [Option.some_bind]
        exact findChild_mid hKacc
      have hihs := ih (acc ++ [(a, n)]) fs hdn
        (by rw [← List.append_cons]; exact hlk)
        (by rw [← List.append_cons]; exact hnd)
      cases n with
      | file sz sOk dOk =>
          rw [visitChildren, enqPaths]
          have hpv : pathVisit rootName fs (p ++ [a]) = [] := pathVisit_file hlkc
          cases hu : a.utf8 with
          | none =>
              show x ∈ ([] : List FsPath) ++ visitChildren dn p cs' ↔
                  (x ∈ ([] : List FsPath) ++ enqPaths dn p cs' ∨
                   ∃ P ∈ ([] : List FsPath) ++ enqPaths dn p cs',
                     x ∈ pathVisit rootName fs P)
              rw [List.nil_append, List.nil_append]
              exact hihs x
          | some nm =>
              show x ∈ (if (strEndsWith dn SNAPSHOT_SUFFIX
                      || nm == LOCAL_METADATA_FILE) = true
                    then [p ++ [a]] else ([] : List FsPath)) ++ visitChildren dn p cs' ↔
                  (x ∈ (if (strEndsWith dn SNAPSHOT_SUFFIX
                      || nm == LOCAL_METADATA_FILE) = true
                    then [p ++ [a]] else ([] : List FsPath)) ++ enqPaths dn p cs' ∨
                   ∃ P ∈ (if (strEndsWith dn SNAPSHOT_SUFFIX
                      || nm == LOCAL_METADATA_FILE) = true
                    then [p ++ [a]] else ([] : List FsPath)) ++ enqPaths dn p cs',
                     x ∈ pathVisit rootName fs P)
              by_cases hcond :
                  (strEndsWith dn SNAPSHOT_SUFFIX || nm == LOCAL_METADATA_FILE) = true
              · rw [if_pos hcond, List.cons_append, List.nil_append]
                constructor
                · intro hx
                  rcases List.mem_cons.mp hx with hx | hx
                  · exact Or.inl (List.mem_cons.mpr (Or.inl hx))
                  · rcases (hihs x).mp hx with hx | ⟨P, hP, hPx⟩
                    · exact Or.inl (List.mem_cons.mpr (Or.inr hx))
                    · exact Or.inr ⟨P, List.mem_cons_of_mem _ hP, hPx⟩
                · intro hx
                  rcases hx with hx | ⟨P, hP, hPx⟩
                  · rcases List.mem_cons.mp hx with hx | hx
                    · exact List.mem_cons.mpr (Or.inl hx)
                    · exact List.mem_cons.mpr (Or.inr ((hihs x).mpr (Or.inl hx)))
                  · rcases List.mem_cons.mp hP with hP | hP
                    · rw [hP, hpv] at hPx
                      simp at hPx
                    · exact List.mem_cons.mpr
                        (Or.inr ((hihs x).mpr (Or.inr ⟨P, hP, hPx⟩)))
              · rw [if_neg hcond, List.nil_append]
                exact hihs x
      | dir ro2 cs2 =>
          rw [visitChildren, enqPaths]
          show x ∈ ((p ++ [a]) :: (match a.utf8 with
              | some cn => visitNode cn (p ++ [a]) (Node.dir ro2 cs2)
              | none => [])) ++ visitChildren dn p cs' ↔
            (x ∈ (p ++ [a]) :: enqPaths dn p cs' ∨
             ∃ P ∈ (p ++ [a]) :: enqPaths dn p cs', x ∈ pathVisit rootName fs P)
          have hpv : pathVisit rootName fs (p ++ [a]) = (match a.utf8 with
              | some cn => visitNode cn (p ++ [a]) (Node.dir ro2 cs2)
              | none => []) := by
            cases hu : a.utf8 with
            | none => exact pathVisit_dir_noname hlkc (by rw [fileNameAt_concat, hu])
            | some cn => exact pathVisit_dir hlkc (by rw [fileNameAt_concat, hu])
          rw [List.cons_append]
          constructor
          · intro hx
            rcases List.mem_cons.mp hx with hx | hx
            · exact Or.inl (List.mem_cons.mpr (Or.inl hx))
            · rcases List.mem_append.mp hx with hx | hx
              · exact Or.inr ⟨p ++ [a], List.mem_cons_self _ _, by rw [hpv]; exact hx⟩
              · rcases (hihs x).mp hx with hx | ⟨P, hP, hPx⟩
                · exact Or.inl (List.mem_cons.mpr (Or.inr hx))
                · exact Or.inr ⟨P, List.mem_cons_of_mem _ hP, hPx⟩
          · intro hx
            rcases hx with hx | ⟨P, hP, hPx⟩
            · rcases List.mem_cons.mp hx with hx | hx
              · exact List.mem_cons.mpr (Or.inl hx)
              · exact List.mem_cons.mpr (Or.inr (List.mem_append.mpr
                  (Or.inr ((hihs x).mpr (Or.inl hx)))))
            · rcases List.mem_cons.mp hP with hP | hP
              · rw [hP, hpv] at hPx
                exact List.mem_cons.mpr (Or.inr (List.mem_append.mpr (Or.inl hPx)))
              · exact List.mem_cons.mpr (Or.inr (List.mem_append.mpr
                  (Or.inr ((hihs x).mpr (Or.inr ⟨P, hP, hPx⟩)))))

/-! Basic facts about the string operations and the suffix table. -/

theorem strEndsWith_iff {s pat : String} : strEndsWith s pat = true ↔ pat.data <:+ s.data := by
  simp [strEndsWith]

theorem suffixies_nodup : SUFFIXIES.Nodup := by decide

theorem suffixies_suffix_eq :
    ∀ s ∈ SUFFIXIES, ∀ t ∈ SUFFIXIES, s.data <:+ t.data → s = t := by decide

theorem suffix_match_unique {n s t : String} (hs : s ∈ SUFFIXIES) (ht : t ∈ SUFFIXIES)
    (h1 : strEndsWith n s = true) (h2 : strEndsWith n t = true) : s = t := by
  rcases List.suffix_or_suffix_of_suffix (strEndsWith_iff.mp h1) (strEndsWith_iff.mp h2) with
    h | h
  · exact suffixies_suffix_eq s hs t ht h
  · exact (suffixies_suffix_eq t ht s hs h).symm

theorem filter_length_le_one {P : String → Bool} {l : List String} (hnd : l.Nodup)
    (huniq : ∀ a ∈ l, ∀ b ∈ l, P a = true → P b = true → a = b) :
    (l.filter P).length ≤ 1 := by
  induction l with
  | nil => simp
  | cons a rest ih =>
      rcases List.nodup_cons.mp hnd with ⟨hna, hndr⟩
      rw [List.filter_cons]
      by_cases hPa : P a = true
      · rw [if_pos hPa]
        have hrest : rest.filter P = [] := by
          rw [List.filter_eq_nil_iff]
          intro b hb hPb
          have hba : b = a :=
            huniq b (List.mem_cons_of_mem a hb) a (List.mem_cons_self a rest) hPb hPa
          exact hna (hba ▸ hb)
        rw [hrest]
        simp
      · rw [if_neg hPa]
        exact ih hndr fun x hx y hy =>
          huniq x (List.mem_cons_of_mem a hx) y (List.mem_cons_of_mem a hy)

/-! The suffix loop: skipping, firing, and a closed characterization. -/

theorem suffixLoop_skip_all {n dn : String} {p : FsPath} {fs : Node} {d : Nat}
    {sufs : List String}
    (h : ∀ s ∈ sufs, (strEndsWith n s && !strContains n dn) = false) :
    suffixLoop n dn p sufs fs d = (fs, d) := by
  induction sufs with
  | nil => rfl
  | cons s rest ih =>
      have hs := h s (List.mem_cons_self s rest)
      simp only [suffixLoop, hs, Bool.false_eq_true, if_false]
      exact ih fun t ht => h t (List.mem_cons_of_mem s ht)

theorem suffixLoop_skip_append {n dn : String} {p : FsPath} {fs : Node} {d : Nat}
    {l₁ l₂ : List String}
    (h : ∀ s ∈ l₁, (strEndsWith n s && !strContains n dn) = false) :
    suffixLoop n dn p (l₁ ++ l₂) fs d = suffixLoop n dn p l₂ fs d := by
  induction l₁ with
  | nil => rfl
  | cons s rest ih =>
      have hs := h s (List.mem_cons_self s rest)
      simp only [List.cons_append, suffixLoop, hs, Bool.false_eq_true, if_false]
      exact ih fun t ht => h t (List.mem_cons_of_mem s ht)

theorem exists_first_match {P : String → Bool} :
    ∀ {l : List String}, l.any P = true →
      ∃ l₁ s l₂, l = l₁ ++ s :: l₂ ∧ (∀ x ∈ l₁, P x = false) ∧ P s = true := by
  intro l
  induction l with
  | nil => intro h; simp at h
  | cons a rest ih =>
      intro h
      by_cases ha : P a = true
      · exact ⟨[], a, rest, rfl, by intro x hx; simp at hx, ha⟩
      · have hr : rest.any P = true := by
          cases hPa : P a with
          | false => rw [List.any_cons, hPa] at h; simpa using h
          | true => exact absurd hPa ha
        obtain ⟨l₁, s, l₂, heq, h₁, h₂⟩ := ih hr
        refine ⟨a :: l₁, s, l₂, by rw [heq, List.cons_append], ?_, h₂⟩
        intro x hx
        rcases List.mem_cons.mp hx with rfl | hx
        · exact Bool.not_eq_true _ ▸ Bool.of_not_eq_true ha
        · exact h₁ x hx

theorem suffixLoop_eq (n dn : String) (p : FsPath) (fs : Node) (d : Nat) :
    suffixLoop n dn p SUFFIXIES fs d =
      if ((SUFFIXIES.any fun s => strEndsWith n s) && !strContains n dn) = true then
        match removeFile p fs with
        | some fs' => (fs', d + (metadataLen p fs).getD 0)
        | none => (fs, d + (metadataLen p fs).getD 0)
      else (fs, d) := by
  by_cases hc : strContains n dn = true
  · rw [if_neg (by simp [hc])]
    exact suffixLoop_skip_all fun s _ => by simp [hc]
  · have hc' : strContains n dn = false := Bool.not_eq_true _ ▸ Bool.of_not_eq_true hc
    by_cases ha : (SUFFIXIES.any fun s => strEndsWith n s) = true
    · rw [if_pos (by simp [ha, hc'])]
      obtain ⟨l₁, s, l₂, heq, h₁, h₂⟩ := exists_first_match ha
      have hsmem : s ∈ SUFFIXIES := by rw [heq]; exact List.mem_append_right _ (List.mem_cons_self s l₂)
      have hl₂ : ∀ t ∈ l₂, (strEndsWith n t && !strContains n dn) = false := by
        intro t ht
        have htm : t ∈ SUFFIXIES := by
          rw [heq]; exact List.mem_append_right _ (List.mem_cons_of_mem s ht)
        by_cases hmt : strEndsWith n t = true
        · have : t = s := suffix_match_unique htm hsmem hmt h₂
          subst this
          have : SUFFIXIES.Nodup := suffixies_nodup
          rw [heq] at this
          exact absurd ht (List.Nodup.not_mem (this.of_append_right))
        · simp [Bool.not_eq_true _ ▸ Bool.of_not_eq_true hmt]
      rw [heq, suffixLoop_skip_append (fun t ht => by simp [h₁ t ht])]
      simp only [suffixLoop, h₂, hc', Bool.not_false, Bool.and_true, if_true]
      cases hrf : removeFile p fs with
      | some fs' => exact suffixLoop_skip_all hl₂
      | none => rfl
    · rw [if_neg (by simp [ha])]
      have ha' : ∀ s ∈ SUFFIXIES, strEndsWith n s = false := by
        intro s hsm
        by_cases hms : strEndsWith n s = true
        · exact absurd (List.any_eq_true.mpr ⟨s, hsm, hms⟩) ha
        · exact Bool.not_eq_true _ ▸ Bool.of_not_eq_true hms
      exact suffixLoop_skip_all fun s hsm => by simp [ha' s hsm]

theorem suffixLoop_deleted_le {n dn : String} {p : FsPath} :
    ∀ (sufs : List String) (fs : Node) (d : Nat), d ≤ (suffixLoop n dn p sufs fs d).2 := by
  intro sufs
  induction sufs with
  | nil => intro fs d; exact Nat.le_refl d
  | cons s rest ih =>
      intro fs d
      simp only [suffixLoop]
      by_cases hcond : (strEndsWith n s && !strContains n dn) = true
      · rw [if_pos hcond]
        cases removeFile p fs with
        | some fs' => exact Nat.le_trans (Nat.le_add_right d _) (ih _ _)
        | none => exact Nat.le_add_right d _
      · rw [if_neg hcond]
        exact ih fs d

/-! Deletion, lookup and the structural erase operator. -/

theorem removeFile_eq :
    ∀ (p : FsPath) (fs : Node), p ≠ [] →
      removeFile p fs = (match lookupPath p fs with
        | some (Node.file _ _ true) => some (eraseAt p fs)
        | _ => none) := by
  intro p
  induction p with
  | nil => intro fs h; exact absurd rfl h
  | cons a p ih =>
      intro fs _
      cases p with
      | nil =>
          cases fs with
          | file sz sOk dOk => rfl
          | dir ro cs =>
              simp only [removeFile, lookupPath, eraseAt]
              cases hfc : findChild a cs with
              | none => simp
              | some c =>
                  cases c with
                  | file sz sOk dOk =>
                      cases dOk with
                      | true => simp [lookupPath]
                      | false => simp [lookupPath]
                  | dir ro2 cs2 => simp [lookupPath]
      | cons b p' =>
          cases fs with
          | file sz sOk dOk => rfl
          | dir ro cs =>
              simp only [removeFile, lookupPath, eraseAt]
              cases hfc : findChild a cs with
              | none => rfl
              | some c =>
                  simp only [Option.some_bind]
                  rw [ih c (by simp)]
                  cases hlc : lookupPath (b :: p') c with
                  | none => simp
                  | some v =>
                      cases v with
                      | file sz sOk dOk =>
                          cases dOk with
                          | true =>
                              have : modifyChild a (fun _ => eraseAt (b :: p') c) cs =
                                  modifyChild a (eraseAt (b :: p')) cs :=
                                modifyChild_congr fun c' hc' => by
                                  rw [hfc] at hc'
                                  cases hc'
                                  rfl
                              simp only [Option.map_some']
                              rw [this]
                          | false => simp
                      | dir ro2 cs2 => simp

theorem metadataLen_file {p : FsPath} {fs : Node} {sz : Nat} {sOk dOk : Bool}
    (h : lookupPath p fs = some (Node.file sz sOk dOk)) :
    (metadataLen p fs).getD 0 = if sOk then sz else 0 := by
  cases sOk with
  | true => simp [metadataLen, h]
  | false => simp [metadataLen, h]

theorem removeFile_of_delFail {p : FsPath} {fs : Node} {sz : Nat} {sOk : Bool}
    (hne : p ≠ []) (h : lookupPath p fs = some (Node.file sz sOk false)) :
    removeFile p fs = none := by
  rw [removeFile_eq p fs hne, h]

theorem removeFile_of_delOk {p : FsPath} {fs : Node} {sz : Nat} {sOk : Bool}
    (hne : p ≠ []) (h : lookupPath p fs = some (Node.file sz sOk true)) :
    removeFile p fs = some (eraseAt p fs) := by
  rw [removeFile_eq p fs hne, h]

/-! Shape of a single traversal step. -/

theorem processPath_dir {rootName : Option RawName} {fs : Node} {d : Nat} {p : FsPath}
    {ro : Bool} {cs : List (RawName × Node)} {dn : String}
    (hlk : lookupPath p fs = some (Node.dir ro cs))
    (hdn : fileNameAt rootName p = some dn) :
    processPath rootName fs d p =
      if ro then
        match expandChildren dn p cs with
        | none => StepRes.panicked
        | some pushed => StepRes.next fs d pushed
      else StepRes.next fs d [] := by
  simp only [processPath, hlk, hdn]

theorem processPath_dir_noname {rootName : Option RawName} {fs : Node} {d : Nat} {p : FsPath}
    {ro : Bool} {cs : List (RawName × Node)}
    (hlk : lookupPath p fs = some (Node.dir ro cs))
    (hdn : fileNameAt rootName p = none) :
    processPath rootName fs d p = StepRes.next fs d [] := by
  simp only [processPath, hlk, hdn]

theorem processPath_file {rootName : Option RawName} {fs : Node} {d : Nat} {a : RawName}
    {p' : FsPath} {sz : Nat} {sOk dOk : Bool} {dn n : String}
    (hlk : lookupPath (a :: p') fs = some (Node.file sz sOk dOk))
    (hdn : fileNameAt rootName (a :: p').dropLast = some dn)
    (hn : fileNameAt rootName (a :: p') = some n) :
    processPath rootName fs d (a :: p') =
      if n == LOCAL_METADATA_FILE then
        match removeFile (a :: p') fs with
        | some fs' => StepRes.next fs' d []
        | none => StepRes.halted fs d
      else
        StepRes.next (suffixLoop n dn (a :: p') SUFFIXIES fs d).1
          (suffixLoop n dn (a :: p') SUFFIXIES fs d).2 [] := by
  simp only [processPath, hlk, hdn, hn]

theorem processPath_next_d {rootName : Option RawName} {fs : Node} {d : Nat} {p : FsPath} :
    ∀ {fs' : Node} {d' : Nat} {pushed : List FsPath},
      processPath rootName fs d p = StepRes.next fs' d' pushed → d ≤ d' := by
  intro fs' d' pushed h
  unfold processPath at h
  cases hlk : lookupPath p fs with
  | none =>
      rw [hlk] at h
      cases p with
      | nil => cases h; exact Nat.le_refl _
      | cons a p' =>
          cases hdn : fileNameAt rootName (a :: p').dropLast with
          | none => simp only [hdn] at h; cases h; exact Nat.le_refl _
          | some dn =>
              cases hn : fileNameAt rootName (a :: p') with
              | none => simp only [hdn, hn] at h; cases h; exact Nat.le_refl _
              | some n =>
                  simp only [hdn, hn] at h
                  by_cases hm : (n == LOCAL_METADATA_FILE) = true
                  · rw [if_pos hm] at h
                    cases hrf : removeFile (a :: p') fs with
                    | some fs₁ => rw [hrf] at h; cases h; exact Nat.le_refl _
                    | none => rw [hrf] at h; cases h
                  · rw [if_neg hm] at h
                    cases h
                    exact suffixLoop_deleted_le _ _ _
  | some node =>
      cases node with
      | file sz sOk dOk =>
          rw [hlk] at h
          cases p with
          | nil => cases h; exact Nat.le_refl _
          | cons a p' =>
              cases hdn : fileNameAt rootName (a :: p').dropLast with
              | none => simp only [hdn] at h; cases h; exact Nat.le_refl _
              | some dn =>
                  cases hn : fileNameAt rootName (a :: p') with
                  | none => simp only [hdn, hn] at h; cases h; exact Nat.le_refl _
                  | some n =>
                      simp only [hdn, hn] at h
                      by_cases hm : (n == LOCAL_METADATA_FILE) = true
                      · rw [if_pos hm] at h
                        cases hrf : removeFile (a :: p') fs with
                        | some fs₁ => rw [hrf] at h; cases h; exact Nat.le_refl _
                        | none => rw [hrf] at h; cases h
                      · rw [if_neg hm] at h
                        cases h
                        exact suffixLoop_deleted_le _ _ _
      | dir ro cs =>
          rw [hlk] at h
          cases hdn : fileNameAt rootName p with
          | none => simp only [hdn] at h; cases h; exact Nat.le_refl _
          | some dn =>
              simp only [hdn] at h
              cases ro with
              | false =>
                  have h' : StepRes.next fs d [] = StepRes.next fs' d' pushed := h
                  cases h'; exact Nat.le_refl _
              | true =>
                  have h' : (match expandChildren dn p cs with
                    | none => StepRes.panicked
                    | some ps => StepRes.next fs d ps) = StepRes.next fs' d' pushed := h
                  cases hex : expandChildren dn p cs with
                  | none => rw [hex] at h'; cases h'
                  | some pushed₁ => rw [hex] at h'; cases h'; exact Nat.le_refl _

theorem processPath_halted_d {rootName : Option RawName} {fs : Node} {d : Nat} {p : FsPath} :
    ∀ {fs' : Node} {d' : Nat},
      processPath rootName fs d p = StepRes.halted fs' d' → fs' = fs ∧ d' = d := by
  intro fs' d' h
  unfold processPath at h
  cases hlk : lookupPath p fs with
  | none =>
      rw [hlk] at h
      cases p with
      | nil => cases h
      | cons a p' =>
          cases hdn : fileNameAt rootName (a :: p').dropLast with
          | none => simp only [hdn] at h; cases h
          | some dn =>
              cases hn : fileNameAt rootName (a :: p') with
              | none => simp only [hdn, hn] at h; cases h
              | some n =>
                  simp only [hdn, hn] at h
                  by_cases hm : (n == LOCAL_METADATA_FILE) = true
                  · rw [if_pos hm] at h
                    cases hrf : removeFile (a :: p') fs with
                    | some fs₁ => rw [hrf] at h; cases h
                    | none => rw [hrf] at h; cases h; exact ⟨rfl, rfl⟩
                  · rw [if_neg hm] at h; cases h
  | some node =>
      cases node with
      | file sz sOk dOk =>
          rw [hlk] at h
          cases p with
          | nil => cases h
          | cons a p' =>
              cases hdn : fileNameAt rootName (a :: p').dropLast with
              | none => simp only [hdn] at h; cases h
              | some dn =>
                  cases hn : fileNameAt rootName (a :: p') with
                  | none => simp only [hdn, hn] at h; cases h
                  | some n =>
                      simp only [hdn, hn] at h
                      by_cases hm : (n == LOCAL_METADATA_FILE) = true
                      · rw [if_pos hm] at h
                        cases hrf : removeFile (a :: p') fs with
                        | some fs₁ => rw [hrf] at h; cases h
                        | none => rw [hrf] at h; cases h; exact ⟨rfl, rfl⟩
                      · rw [if_neg hm] at h; cases h
      | dir ro cs =>
          rw [hlk] at h
          cases hdn : fileNameAt rootName p with
          | none => simp only [hdn] at h; cases h
          | some dn =>
              simp only [hdn] at h
              cases ro with
              | false =>
                  have h' : StepRes.next fs d [] = StepRes.halted fs' d' := h
                  cases h'
              | true =>
                  have h' : (match expandChildren dn p cs with
                    | none => StepRes.panicked
                    | some ps => StepRes.next fs d ps) = StepRes.halted fs' d' := h
                  cases hex : expandChildren dn p cs with
                  | none => rw [hex] at h'; cases h'
                  | some pushed₁ => rw [hex] at h'; cases h'

theorem runLoop_deleted_mono :
    ∀ (fuel : Nat) (rootName : Option RawName) (fs : Node) (d : Nat) (q : List FsPath)
      (tr : List FsPath) (fs' : Node) (d' : Nat) (tr' : List FsPath),
      (runLoop rootName fuel fs d q tr = (RunOutcome.drained fs' d', tr') ∨
        runLoop rootName fuel fs d q tr = (RunOutcome.haltedRun fs' d', tr')) →
      d ≤ d' := by
  intro fuel
  induction fuel with
  | zero =>
      intro rootName fs d q tr fs' d' tr' h
      cases q with
      | nil =>
          rcases h with h | h
          · simp only [runLoop] at h
            cases h
            exact Nat.le_refl _
          · simp only [runLoop] at h
            cases h
      | cons p rest =>
          rcases h with h | h <;> (simp only [runLoop] at h; cases h)
  | succ fuel ih =>
      intro rootName fs d q tr fs' d' tr' h
      cases q with
      | nil =>
          rcases h with h | h
          · simp only [runLoop] at h
            cases h
            exact Nat.le_refl _
          · simp only [runLoop] at h
            cases h
      | cons p rest =>
          cases hstep : processPath rootName fs d p with
          | panicked =>
              rcases h with h | h <;> (simp only [runLoop, hstep] at h; cases h)
          | halted fs₁ d₁ =>
              rcases h with h | h
              · simp only [runLoop, hstep] at h; cases h
              · simp only [runLoop, hstep] at h
                cases h
                exact (processPath_halted_d hstep).2 ▸ Nat.le_refl _
          | next fs₁ d₁ pushed =>
              have h₁ : d ≤ d₁ := processPath_next_d hstep
              rcases h with h | h
              · simp only [runLoop, hstep] at h
                exact Nat.le_trans h₁ (ih rootName fs₁ d₁ (rest ++ pushed) (tr ++ [p]) fs' d'
                  tr' (Or.inl h))
              · simp only [runLoop, hstep] at h
                exact Nat.le_trans h₁ (ih rootName fs₁ d₁ (rest ++ pushed) (tr ++ [p]) fs' d'
                  tr' (Or.inr h))

/-! Interface lemmas for the queue invariant. -/

theorem queueOk_file_elim {rootName : Option RawName} {fs : Node} {p : FsPath}
    {sz : Nat} {sOk dOk : Bool}
    (hlk : lookupPath p fs = some (Node.file sz sOk dOk)) (hqk : queueOk rootName fs p) :
    p = [] ∨
      ∃ dn n, fileNameAt rootName p.dropLast = some dn ∧ fileNameAt rootName p = some n ∧
        (strEndsWith dn SNAPSHOT_SUFFIX || n == LOCAL_METADATA_FILE) = true ∧
        (delCond dn n = true → dOk = true) := by
  unfold queueOk at hqk
  rw [hlk] at hqk
  exact hqk

theorem queueOk_file_intro {rootName : Option RawName} {fs : Node} {p : FsPath}
    {sz : Nat} {sOk dOk : Bool}
    (hlk : lookupPath p fs = some (Node.file sz sOk dOk))
    (h : p = [] ∨
      ∃ dn n, fileNameAt rootName p.dropLast = some dn ∧ fileNameAt rootName p = some n ∧
        (strEndsWith dn SNAPSHOT_SUFFIX || n == LOCAL_METADATA_FILE) = true ∧
        (delCond dn n = true → dOk = true)) :
    queueOk rootName fs p := by
  unfold queueOk
  rw [hlk]
  exact h

theorem queueOk_dir_elim {rootName : Option RawName} {fs : Node} {p : FsPath}
    {ro : Bool} {cs : List (RawName × Node)}
    (hlk : lookupPath p fs = some (Node.dir ro cs)) (hqk : queueOk rootName fs p) :
    ∀ dn, fileNameAt rootName p = some dn → okNode dn (Node.dir ro cs) = true := by
  unfold queueOk at hqk
  rw [hlk] at hqk
  exact hqk

theorem queueOk_dir_intro {rootName : Option RawName} {fs : Node} {p : FsPath}
    {ro : Bool} {cs : List (RawName × Node)}
    (hlk : lookupPath p fs = some (Node.dir ro cs))
    (h : ∀ dn, fileNameAt rootName p = some dn → okNode dn (Node.dir ro cs) = true) :
    queueOk rootName fs p := by
  unfold queueOk
  rw [hlk]
  exact h

/-! The action and charge of a dequeued file path in cons form. -/

theorem effActionOf_file {rootName : Option RawName} {fs : Node} {a : RawName} {p' : FsPath}
    {sz : Nat} {sOk dOk : Bool} {dn n : String}
    (hlk : lookupPath (a :: p') fs = some (Node.file sz sOk dOk))
    (hdn : fileNameAt rootName (a :: p').dropLast = some dn)
    (hn : fileNameAt rootName (a :: p') = some n) :
    effActionOf rootName fs (a :: p')
      = if delCond dn n then EffAction.del else EffAction.keep := by
  have h1 : effActionOf rootName fs (a :: p')
      = (match fileNameAt rootName (a :: p').dropLast, fileNameAt rootName (a :: p') with
         | some dn', some n' => if delCond dn' n' then EffAction.del else EffAction.keep
         | _, _ => EffAction.keep) := by
    unfold effActionOf
    rw [hlk]
  rw [hdn, hn] at h1
  exact h1

theorem pathDelta_file {rootName : Option RawName} {fs : Node} {a : RawName} {p' : FsPath}
    {sz : Nat} {sOk dOk : Bool} {dn n : String}
    (hlk : lookupPath (a :: p') fs = some (Node.file sz sOk dOk))
    (hdn : fileNameAt rootName (a :: p').dropLast = some dn)
    (hn : fileNameAt rootName (a :: p') = some n) :
    pathDelta rootName fs (a :: p')
      = (if n == LOCAL_METADATA_FILE then 0
         else if delCond dn n then (if sOk then sz else 0) else 0) := by
  have h1 : pathDelta rootName fs (a :: p')
      = (match fileNameAt rootName (a :: p').dropLast, fileNameAt rootName (a :: p') with
         | some dn', some n' =>
             if n' == LOCAL_METADATA_FILE then 0
             else if delCond dn' n' then (if sOk then sz else 0) else 0
         | _, _ => 0) := by
    unfold pathDelta
    rw [hlk]
  rw [hdn, hn] at h1
  exact h1

/-! One dequeued path behaves exactly as its structural description. -/

theorem processPath_eq_file {rootName : Option RawName} {fs : Node} {d : Nat} {p : FsPath}
    {sz : Nat} {sOk dOk : Bool}
    (hlk : lookupPath p fs = some (Node.file sz sOk dOk))
    (hqk : queueOk rootName fs p) :
    processPath rootName fs d p
      = StepRes.next (pathEffect rootName fs p) (d + pathDelta rootName fs p) [] := by
  cases p with
  | nil =>
      have heff : pathEffect rootName fs [] = fs := by
        unfold pathEffect effActionOf
        rw [hlk]
        rfl
      have hdel : pathDelta rootName fs [] = 0 := by
        unfold pathDelta
        rw [hlk]
      rw [heff, hdel, Nat.add_zero]
      unfold processPath
      rw [hlk]
  | cons a p' =>
      rcases queueOk_file_elim hlk hqk with h | ⟨dn, n, hdn, hn, hcond, himp⟩
      · exact absurd h (by simp)
      · rw [processPath_file hlk hdn hn]
        have heff := effActionOf_file hlk hdn hn
        have hdel := pathDelta_file hlk hdn hn
        by_cases hm : (n == LOCAL_METADATA_FILE) = true
        · have hdc : delCond dn n = true := by
            unfold delCond
            rw [hm]
            rfl
          have hdOk : dOk = true := himp hdc
          subst hdOk
          rw [if_pos hm, removeFile_of_delOk (by simp) hlk]
          unfold pathEffect
          rw [heff, if_pos hdc, hdel, hm, if_pos rfl, Nat.add_zero]
          rfl
        · rw [if_neg hm]
          have hbf : (n == LOCAL_METADATA_FILE) = false :=
            Bool.not_eq_true _ ▸ Bool.of_not_eq_true hm
          have hsnap : strEndsWith dn SNAPSHOT_SUFFIX = true := by
            rcases Bool.or_eq_true_iff.mp hcond with h | h
            · exact h
            · exact absurd h hm
          have hdc : delCond dn n
              = ((SUFFIXIES.any fun s => strEndsWith n s) && !strContains n dn) := by
            unfold delCond
            rw [hbf, hsnap]
            simp
          rw [suffixLoop_eq]
          by_cases hg : ((SUFFIXIES.any fun s => strEndsWith n s) && !strContains n dn) = true
          · have hdct : delCond dn n = true := by rw [hdc]; exact hg
            have hdOk : dOk = true := himp hdct
            subst hdOk
            rw [if_pos hg, removeFile_of_delOk (by simp) hlk]
            unfold pathEffect
            rw [heff, if_pos hdct, hdel, hbf]
            simp only [Bool.false_eq_true, if_false, if_pos hdct]
            rw [metadataLen_file hlk]
            rfl
          · have hdcf : delCond dn n = false := by
              rw [hdc]
              exact Bool.not_eq_true _ ▸ Bool.of_not_eq_true hg
            rw [if_neg hg]
            unfold pathEffect
            rw [heff, if_neg (by rw [hdcf]; exact Bool.false_ne_true), hdel, hbf]
            simp only [Bool.false_eq_true, if_false]
            rw [hdcf]
            simp only [Bool.false_eq_true, if_false, Nat.add_zero]
            rfl

theorem queueOk_none_elim {rootName : Option RawName} {fs : Node} {p : FsPath}
    (hlk : lookupPath p fs = none) (hqk : queueOk rootName fs p) : False := by
  unfold queueOk at hqk
  rw [hlk] at hqk
  exact hqk

theorem removeFile_some {p : FsPath} {fs x : Node} (h : removeFile p fs = some x) :
    x = eraseAt p fs := by
  cases p with
  | nil => exact absurd h (by simp [removeFile])
  | cons a p' =>
      rw [removeFile_eq (a :: p') fs (by simp)] at h
      cases hlk : lookupPath (a :: p') fs with
      | none => rw [hlk] at h; cases h
      | some node =>
          cases node with
          | file sz sOk dOk =>
              cases dOk with
              | true =>
                  rw [hlk] at h
                  injection h with h
                  exact h.symm
              | false => rw [hlk] at h; cases h
          | dir ro cs => rw [hlk] at h; cases h

theorem pathEffect_file_form {rootName : Option RawName} {fs : Node} {p : FsPath}
    {sz : Nat} {sOk dOk : Bool}
    (hlk : lookupPath p fs = some (Node.file sz sOk dOk)) :
    pathEffect rootName fs p = fs ∨ pathEffect rootName fs p = eraseAt p fs := by
  unfold pathEffect
  cases p with
  | nil =>
      left
      have h1 : effActionOf rootName fs [] = EffAction.keep := by
        unfold effActionOf
        rw [hlk]
      rw [h1]
      rfl
  | cons a p' =>
      cases hdn : fileNameAt rootName (a :: p').dropLast with
      | none =>
          left
          have h1 : effActionOf rootName fs (a :: p')
              = (match fileNameAt rootName (a :: p').dropLast,
                    fileNameAt rootName (a :: p') with
                 | some dn', some n' => if delCond dn' n' then EffAction.del else EffAction.keep
                 | _, _ => EffAction.keep) := by
            unfold effActionOf
            rw [hlk]
          rw [hdn] at h1
          rw [h1]
          rfl
      | some dn =>
          cases hn : fileNameAt rootName (a :: p') with
          | none =>
              left
              have h1 : effActionOf rootName fs (a :: p')
                  = (match fileNameAt rootName (a :: p').dropLast,
                        fileNameAt rootName (a :: p') with
                     | some dn', some n' =>
                         if delCond dn' n' then EffAction.del else EffAction.keep
                     | _, _ => EffAction.keep) := by
                unfold effActionOf
                rw [hlk]
              rw [hdn, hn] at h1
              rw [h1]
              rfl
          | some n =>
              rw [effActionOf_file hlk hdn hn]
              by_cases hdc : delCond dn n = true
              · right
                rw [if_pos hdc]
                rfl
              · left
                rw [if_neg hdc]
                rfl

theorem processPath_next_cases {rootName : Option RawName} {fs : Node} {d : Nat} {p : FsPath}
    {fs' : Node} {d' : Nat} {pushed : List FsPath}
    (h : processPath rootName fs d p = StepRes.next fs' d' pushed) :
    (pushed = [] ∧ (fs' = fs ∨ fs' = eraseAt p fs)) ∨
    (∃ cs dn, lookupPath p fs = some (Node.dir true cs) ∧ fs' = fs ∧
       fileNameAt rootName p = some dn ∧ pushed = enqPaths dn p cs) := by
  unfold processPath at h
  cases hlk : lookupPath p fs with
  | none =>
      rw [hlk] at h
      left
      cases p with
      | nil =>
          cases h
          exact ⟨rfl, Or.inl rfl⟩
      | cons a p' =>
          cases hdn : fileNameAt rootName (a :: p').dropLast with
          | none =>
              simp only [hdn] at h
              cases h
              exact ⟨rfl, Or.inl rfl⟩
          | some dn =>
              cases hn : fileNameAt rootName (a :: p') with
              | none =>
                  simp only [hdn, hn] at h
                  cases h
                  exact ⟨rfl, Or.inl rfl⟩
              | some n =>
                  simp only [hdn, hn] at h
                  by_cases hm : (n == LOCAL_METADATA_FILE) = true
                  · rw [if_pos hm] at h
                    cases hrf : removeFile (a :: p') fs with
                    | some fs₁ =>
                        rw [hrf] at h
                        cases h
                        exact ⟨rfl, Or.inr (removeFile_some hrf)⟩
                    | none => rw [hrf] at h; cases h
                  · rw [if_neg hm] at h
                    cases h
                    refine ⟨rfl, ?_⟩
                    rw [suffixLoop_eq]
                    by_cases hg : ((SUFFIXIES.any fun s => strEndsWith n s)
                        && !strContains n dn) = true
                    · rw [if_pos hg]
                      cases hrf : removeFile (a :: p') fs with
                      | some fs₁ => exact Or.inr (removeFile_some hrf)
                      | none => exact Or.inl rfl
                    · rw [if_neg hg]
                      exact Or.inl rfl
  | some node =>
      cases node with
      | file sz sOk dOk =>
          rw [hlk] at h
          left
          cases p with
          | nil =>
              cases h
              exact ⟨rfl, Or.inl rfl⟩
          | cons a p' =>
              cases hdn : fileNameAt rootName (a :: p').dropLast with
              | none =>
                  simp only [hdn] at h
                  cases h
                  exact ⟨rfl, Or.inl rfl⟩
              | some dn =>
                  cases hn : fileNameAt rootName (a :: p') with
                  | none =>
                      simp only [hdn, hn] at h
                      cases h
                      exact ⟨rfl, Or.inl rfl⟩
                  | some n =>
                      simp only [hdn, hn] at h
                      by_cases hm : (n == LOCAL_METADATA_FILE) = true
                      · rw [if_pos hm] at h
                        cases hrf : removeFile (a :: p') fs with
                        | some fs₁ =>
                            rw [hrf] at h
                            cases h
                            exact ⟨rfl, Or.inr (removeFile_some hrf)⟩
                        | none => rw [hrf] at h; cases h
                      · rw [if_neg hm] at h
                        cases h
                        refine ⟨rfl, ?_⟩
                        rw [suffixLoop_eq]
                        by_cases hg : ((SUFFIXIES.any fun s => strEndsWith n s)
                            && !strContains n dn) = true
                        · rw [if_pos hg]
                          cases hrf : removeFile (a :: p') fs with
                          | some fs₁ => exact Or.inr (removeFile_some hrf)
                          | none => exact Or.inl rfl
                        · rw [if_neg hg]
                          exact Or.inl rfl
      | dir ro cs =>
          rw [hlk] at h
          cases hdn : fileNameAt rootName p with
          | none =>
              simp only [hdn] at h
              cases h
              exact Or.inl ⟨rfl, Or.inl rfl⟩
          | some dn =>
              simp only [hdn] at h
              cases ro with
              | false =>
                  have h' : StepRes.next fs d [] = StepRes.next fs' d' pushed := h
                  cases h'
                  exact Or.inl ⟨rfl, Or.inl rfl⟩
              | true =>
                  have h' : (match expandChildren dn p cs with
                    | none => StepRes.panicked
                    | some ps => StepRes.next fs d ps) = StepRes.next fs' d' pushed := h
                  cases hex : expandChildren dn p cs with
                  | none => rw [hex] at h'; cases h'
                  | some L =>
                      rw [hex] at h'
                      cases h'
                      exact Or.inr ⟨cs, dn, rfl, rfl, rfl, expandChildren_some_eq hex⟩

theorem prefix_concat_cases {r l : FsPath} {b : RawName} (h : r <+: l ++ [b]) :
    r <+: l ∨ r = l ++ [b] := by
  by_cases hlen : r.length ≤ l.length
  · exact Or.inl (List.prefix_of_prefix_length_le h (List.prefix_append l [b]) hlen)
  · right
    refine List.IsPrefix.eq_of_length h ?_
    have h1 := h.length_le
    simp only [List.length_append, List.length_cons, List.length_nil] at h1
    simp only [List.length_append, List.length_cons, List.length_nil]
    omega

theorem incomp_extend {r p : FsPath} {b : RawName} (h : Incomp r p) :
    Incomp r (p ++ [b]) := by
  constructor
  · intro hpre
    rcases prefix_concat_cases hpre with h1 | h1
    · exact h.1 h1
    · exact h.2 (h1 ▸ List.prefix_append p [b])
  · intro hpre
    exact h.2 (List.IsPrefix.trans (List.prefix_append p [b]) hpre)

theorem measureQ_enqPaths {dn : String} {p : FsPath} {fs : Node} {ro : Bool} :
    ∀ (cs acc : List (RawName × Node)),
      lookupPath p fs = some (Node.dir ro (acc ++ cs)) →
      nodupKeys (acc ++ cs) = true →
      measureQ fs (enqPaths dn p cs) ≤ cweight cs := by
  intro cs
  induction cs with
  | nil => intro acc _ _; exact Nat.le_refl 0
  | cons e cs' ih =>
      intro acc hlk hnd
      obtain ⟨a, n⟩ := e
      have hKacc : keyMem a acc = false := (nodupKeys_mid acc hnd).1
      have hlkc : lookupPath (p ++ [a]) fs = some n := by
        rw [lookupPath_concat, hlk]
        simp only [Option.some_bind]
        exact findChild_mid hKacc
      have hpw : pweight fs (p ++ [a]) = nweight n := by
        unfold pweight
        rw [hlkc]
      have hihs := ih (acc ++ [(a, n)])
        (by rw [← List.append_cons]; exact hlk)
        (by rw [← List.append_cons]; exact hnd)
      cases n with
      | file sz sOk dOk =>
          rw [enqPaths, cweight]
          cases hu : a.utf8 with
          | none =>
              show measureQ fs (([] : List FsPath) ++ enqPaths dn p cs')
                  ≤ nweight (Node.file sz sOk dOk) + cweight cs'
              rw [List.nil_append]
              exact Nat.le_trans hihs (Nat.le_add_left _ _)
          | some nm =>
              show measureQ fs
                  ((if (strEndsWith dn SNAPSHOT_SUFFIX || nm == LOCAL_METADATA_FILE) = true
                    then [p ++ [a]] else ([] : List FsPath)) ++ enqPaths dn p cs')
                ≤ nweight (Node.file sz sOk dOk) + cweight cs'
              by_cases hcond :
                  (strEndsWith dn SNAPSHOT_SUFFIX || nm == LOCAL_METADATA_FILE) = true
              · rw [if_pos hcond, List.cons_append, List.nil_append, measureQ_cons, hpw]
                exact Nat.add_le_add_left hihs _
              · rw [if_neg hcond, List.nil_append]
                exact Nat.le_trans hihs (Nat.le_add_left _ _)
      | dir ro2 cs2 =>
          rw [enqPaths, cweight, measureQ_cons, hpw]
          exact Nat.add_le_add_left hihs _

theorem queueOk_enqPaths {rootName : Option RawName} {p : FsPath} {dn : String}
    {fs : Node} {ro : Bool} :
    ∀ (cs acc : List (RawName × Node)),
      fileNameAt rootName p = some dn →
      lookupPath p fs = some (Node.dir ro (acc ++ cs)) →
      nodupKeys (acc ++ cs) = true →
      okChildren dn cs = true →
      ∀ x ∈ enqPaths dn p cs, queueOk rootName fs x := by
  intro cs
  induction cs with
  | nil => intro acc _ _ _ _ x hx; simp [enqPaths] at hx
  | cons e cs' ih =>
      intro acc hdn hlk hnd hok x hx
      obtain ⟨a, n⟩ := e
      have hKacc : keyMem a acc = false := (nodupKeys_mid acc hnd).1
      have hlkc : lookupPath (p ++ [a]) fs = some n := by
        rw [lookupPath_concat, hlk]
        simp only [Option.some_bind]
        exact findChild_mid hKacc
      cases n with
      | file sz sOk dOk =>
          rw [okChildren, Bool.and_eq_true] at hok
          have hihs := ih (acc ++ [(a, Node.file sz sOk dOk)]) hdn
            (by rw [← List.append_cons]; exact hlk)
            (by rw [← List.append_cons]; exact hnd) hok.2
          rw [enqPaths] at hx
          cases hu : a.utf8 with
          | none =>
              rw [hu] at hok
              exact absurd hok.1 (by simp)
          | some nm =>
              rw [hu] at hok hx
              rcases List.mem_append.mp hx with hx3 | hx3
              · have hx4 : x ∈ (if (strEndsWith dn SNAPSHOT_SUFFIX
                      || nm == LOCAL_METADATA_FILE) = true
                    then [p ++ [a]] else ([] : List FsPath)) := hx3
                by_cases hcond : (strEndsWith dn SNAPSHOT_SUFFIX
                    || nm == LOCAL_METADATA_FILE) = true
                · rw [if_pos hcond] at hx4
                  have hxe : x = p ++ [a] := by simpa using hx4
                  subst hxe
                  refine queueOk_file_intro hlkc (Or.inr ⟨dn, nm, ?_, ?_, hcond, ?_⟩)
                  · rw [List.dropLast_concat]
                    exact hdn
                  · rw [fileNameAt_concat, hu]
                  · intro hdc
                    have hok1 : (!delCond dn nm || dOk) = true := hok.1
                    rcases Bool.or_eq_true_iff.mp hok1 with h1 | h1
                    · rw [Bool.not_eq_true'] at h1
                      rw [hdc] at h1
                      cases h1
                    · exact h1
                · rw [if_neg hcond] at hx4
                  simp at hx4
              · exact hihs x hx3
      | dir ro2 cs2 =>
          rw [okChildren, Bool.and_eq_true] at hok
          have hihs := ih (acc ++ [(a, Node.dir ro2 cs2)]) hdn
            (by rw [← List.append_cons]; exact hlk)
            (by rw [← List.append_cons]; exact hnd) hok.2
          rw [enqPaths] at hx
          rcases List.mem_cons.mp hx with hx3 | hx3
          · subst hx3
            refine queueOk_dir_intro hlkc ?_
            intro dn' hdn'
            rw [fileNameAt_concat] at hdn'
            cases hu : a.utf8 with
            | none => rw [hu] at hdn'; cases hdn'
            | some cn =>
                rw [hu] at hdn'
                injection hdn' with hdn'
                subst hdn'
                rw [hu] at hok
                exact hok.1
          · exact hihs x hx3

theorem pweight_lookup {fs : Node} {p : FsPath} {n : Node}
    (hlk : lookupPath p fs = some n) : pweight fs p = nweight n := by
  unfold pweight
  rw [hlk]

theorem pathEffect_dir_noname {rootName : Option RawName} {fs : Node} {p : FsPath}
    {ro : Bool} {cs : List (RawName × Node)}
    (hlk : lookupPath p fs = some (Node.dir ro cs))
    (hdn : fileNameAt rootName p = none) :
    pathEffect rootName fs p = fs := by
  unfold pathEffect
  rw [effActionOf_dir_noname hlk hdn]
  rfl

theorem pathEffect_dir_off {rootName : Option RawName} {fs : Node} {p : FsPath}
    {cs : List (RawName × Node)} {dn : String}
    (hlk : lookupPath p fs = some (Node.dir false cs))
    (hdn : fileNameAt rootName p = some dn) :
    pathEffect rootName fs p = fs := by
  unfold pathEffect
  rw [effActionOf_dir hlk hdn]
  show replaceAt (pruneNode dn (Node.dir false cs)) p fs = fs
  have hpr : pruneNode dn (Node.dir false cs) = Node.dir false cs := rfl
  rw [hpr]
  exact replaceAt_self p fs _ hlk

theorem processPath_eq_dir_off {rootName : Option RawName} {fs : Node} {d : Nat} {p : FsPath}
    {cs : List (RawName × Node)} {dn : String}
    (hlk : lookupPath p fs = some (Node.dir false cs))
    (hdn : fileNameAt rootName p = some dn) :
    processPath rootName fs d p = StepRes.next fs d [] := by
  rw [processPath_dir hlk hdn]
  rfl

theorem processPath_eq_dir_on {rootName : Option RawName} {fs : Node} {d : Nat} {p : FsPath}
    {cs : List (RawName × Node)} {dn : String}
    (hlk : lookupPath p fs = some (Node.dir true cs))
    (hdn : fileNameAt rootName p = some dn)
    (hok : okChildren dn cs = true) :
    processPath rootName fs d p = StepRes.next fs d (enqPaths dn p cs) := by
  rw [processPath_dir hlk hdn, if_pos rfl, okChildren_expand hok]

/-! The run never exhausts its fuel, and every dequeued path descends from
a queued one; with a pairwise-incomparable queue the trace never repeats a
path. -/

theorem runLoop_progress :
    ∀ (fuel : Nat) (rootName : Option RawName) (fs : Node) (d : Nat) (q tr : List FsPath),
      measureQ fs q ≤ fuel → wfNode fs = true → List.Pairwise Incomp q →
      ∃ out tl, runLoop rootName fuel fs d q tr = (out, tr ++ tl) ∧
        out ≠ RunOutcome.fuelOut ∧ tl.Nodup ∧ ∀ x ∈ tl, ∃ p ∈ q, p <+: x := by
  intro fuel
  induction fuel with
  | zero =>
      intro rootName fs d q tr hm hwf hpw
      cases q with
      | nil =>
          refine ⟨RunOutcome.drained fs d, [], ?_, by simp, List.nodup_nil, by simp⟩
          rw [List.append_nil]
          simp only [runLoop]
      | cons p rest =>
          exfalso
          rw [measureQ_cons] at hm
          have h1 := pweight_pos fs p
          omega
  | succ fuel ih =>
      intro rootName fs d q tr hm hwf hpw
      cases q with
      | nil =>
          refine ⟨RunOutcome.drained fs d, [], ?_, by simp, List.nodup_nil, by simp⟩
          rw [List.append_nil]
          simp only [runLoop]
      | cons p rest =>
          have hInc : ∀ r ∈ rest, Incomp p r := (List.pairwise_cons.mp hpw).1
          have hpwrest : List.Pairwise Incomp rest := (List.pairwise_cons.mp hpw).2
          cases hstep : processPath rootName fs d p with
          | panicked =>
              refine ⟨RunOutcome.panickedRun, [p], ?_, by simp,
                List.nodup_singleton p, ?_⟩
              · simp only [runLoop, hstep]
              · intro x hx
                rw [List.mem_singleton] at hx
                refine ⟨p, List.mem_cons_self p rest, ?_⟩
                rw [hx]
          | halted fs₁ d₁ =>
              refine ⟨RunOutcome.haltedRun fs₁ d₁, [p], ?_, by simp,
                List.nodup_singleton p, ?_⟩
              · simp only [runLoop, hstep]
              · intro x hx
                rw [List.mem_singleton] at hx
                refine ⟨p, List.mem_cons_self p rest, ?_⟩
                rw [hx]
          | next fs₁ d₁ pushed =>
              have hrl : runLoop rootName (fuel + 1) fs d (p :: rest) tr
                  = runLoop rootName fuel fs₁ d₁ (rest ++ pushed) (tr ++ [p]) := by
                simp only [runLoop, hstep]
              rcases processPath_next_cases hstep with ⟨hpe, hfs⟩ | ⟨cs, dn, hlk, hfs, hdn, hpe⟩
              · subst hpe
                have hlkpres : ∀ r ∈ rest, lookupPath r fs₁ = lookupPath r fs := by
                  intro r hr
                  rcases hfs with rfl | rfl
                  · rfl
                  · exact lookupPath_eraseAt_incomp p r fs (hInc r hr)
                have hwf' : wfNode fs₁ = true := by
                  rcases hfs with rfl | rfl
                  · exact hwf
                  · exact wf_eraseAt p fs hwf
                have hm' : measureQ fs₁ rest ≤ fuel := by
                  rw [measureQ_congr hlkpres]
                  rw [measureQ_cons] at hm
                  have h1 := pweight_pos fs p
                  omega
                obtain ⟨out, tl', heq, hne, hnd, hext⟩ :=
                  ih rootName fs₁ d₁ rest (tr ++ [p]) hm' hwf' hpwrest
                refine ⟨out, p :: tl', ?_, hne, ?_, ?_⟩
                · rw [hrl, List.append_nil, heq, List.append_assoc]
                  rfl
                · refine List.nodup_cons.mpr ⟨?_, hnd⟩
                  intro hmem
                  obtain ⟨r, hr, hpre⟩ := hext p hmem
                  exact (hInc r hr).2 hpre
                · intro x hx
                  rcases List.mem_cons.mp hx with hx0 | hx'
                  · refine ⟨p, List.mem_cons_self p rest, ?_⟩
                    rw [hx0]
                  · obtain ⟨r, hr, hpre⟩ := hext x hx'
                    exact ⟨r, List.mem_cons_of_mem p hr, hpre⟩
              · rw [hfs, hpe] at hrl
                have hnd_cs : nodupKeys cs = true := (wfNode_dir (wf_lookup p hwf hlk)).1
                have hmEnq : measureQ fs (enqPaths dn p cs) ≤ cweight cs :=
                  measureQ_enqPaths cs [] hlk hnd_cs
                have hm' : measureQ fs (rest ++ enqPaths dn p cs) ≤ fuel := by
                  rw [measureQ_append]
                  rw [measureQ_cons, pweight_lookup hlk] at hm
                  have hnw : nweight (Node.dir true cs) = 1 + cweight cs := rfl
                  rw [hnw] at hm
                  omega
                have hpw' : List.Pairwise Incomp (rest ++ enqPaths dn p cs) := by
                  rw [List.pairwise_append]
                  refine ⟨hpwrest, enqPaths_pairwise hnd_cs, ?_⟩
                  intro r hr e he
                  obtain ⟨b, rfl, _⟩ := enqPaths_shape he
                  exact incomp_extend ⟨(hInc r hr).2, (hInc r hr).1⟩
                obtain ⟨out, tl', heq, hne, hnd, hext⟩ :=
                  ih rootName fs d₁ (rest ++ enqPaths dn p cs) (tr ++ [p]) hm' hwf hpw'
                refine ⟨out, p :: tl', ?_, hne, ?_, ?_⟩
                · rw [hrl, heq, List.append_assoc]
                  rfl
                · refine List.nodup_cons.mpr ⟨?_, hnd⟩
                  intro hmem
                  obtain ⟨r, hr, hpre⟩ := hext p hmem
                  rcases List.mem_append.mp hr with hr' | hr'
                  · exact (hInc r hr').2 hpre
                  · obtain ⟨b, rfl, _⟩ := enqPaths_shape hr'
                    have h1 := hpre.length_le
                    simp only [List.length_append, List.length_cons, List.length_nil] at h1
                    omega
                · intro x hx
                  rcases List.mem_cons.mp hx with hx0 | hx'
                  · refine ⟨p, List.mem_cons_self p rest, ?_⟩
                    rw [hx0]
                  · obtain ⟨r, hr, hpre⟩ := hext x hx'
                    rcases List.mem_append.mp hr with hr' | hr'
                    · exact ⟨r, List.mem_cons_of_mem p hr', hpre⟩
                    · obtain ⟨b, rfl, _⟩ := enqPaths_shape hr'
                      exact ⟨p, List.mem_cons_self p rest,
                        List.IsPrefix.trans (List.prefix_append p [b]) hpre⟩

/-! On a failure-free queue the run drains, the final tree is the fold of
the structural effects, the counter gains the structural charge, and the
dequeued paths are exactly the queue plus its visit sets. -/

theorem runLoop_noFail :
    ∀ (fuel : Nat) (rootName : Option RawName) (fs : Node) (d : Nat) (q tr : List FsPath),
      measureQ fs q ≤ fuel → wfNode fs = true → List.Pairwise Incomp q →
      (∀ p ∈ q, queueOk rootName fs p) →
      ∃ tl, runLoop rootName fuel fs d q tr
          = (RunOutcome.drained (applyAll rootName fs q) (d + deltaQ rootName fs q), tr ++ tl)
        ∧ ∀ x, x ∈ tl ↔ (x ∈ q ∨ ∃ P ∈ q, x ∈ pathVisit rootName fs P) := by
  intro fuel
  induction fuel with
  | zero =>
      intro rootName fs d q tr hm hwf hpw hq
      cases q with
      | nil =>
          refine ⟨[], ?_, by simp⟩
          rw [List.append_nil]
          simp only [runLoop]
          rfl
      | cons p rest =>
          exfalso
          rw [measureQ_cons] at hm
          have h1 := pweight_pos fs p
          omega
  | succ fuel ih =>
      intro rootName fs d q tr hm hwf hpw hq
      cases q with
      | nil =>
          refine ⟨[], ?_, by simp⟩
          rw [List.append_nil]
          simp only [runLoop]
          rfl
      | cons p rest =>
          have hqk : queueOk rootName fs p := hq p (List.mem_cons_self p rest)
          have hInc : ∀ r ∈ rest, Incomp p r := (List.pairwise_cons.mp hpw).1
          have hpwrest : List.Pairwise Incomp rest := (List.pairwise_cons.mp hpw).2
          have hmain : (processPath rootName fs d p
                = StepRes.next (pathEffect rootName fs p) (d + pathDelta rootName fs p) []
              ∧ pathVisit rootName fs p = []
              ∧ wfNode (pathEffect rootName fs p) = true) ∨
              (∃ cs dn, lookupPath p fs = some (Node.dir true cs) ∧
                fileNameAt rootName p = some dn ∧ okChildren dn cs = true) := by
            cases hlk : lookupPath p fs with
            | none => exact (queueOk_none_elim hlk hqk).elim
            | some node =>
                cases node with
                | file sz sOk dOk =>
                    left
                    refine ⟨processPath_eq_file hlk hqk, pathVisit_file hlk, ?_⟩
                    rcases (pathEffect_file_form hlk :
                        pathEffect rootName fs p = fs ∨
                          pathEffect rootName fs p = eraseAt p fs) with he | he
                    · rw [he]; exact hwf
                    · rw [he]; exact wf_eraseAt p fs hwf
                | dir ro cs =>
                    cases hdn : fileNameAt rootName p with
                    | none =>
                        left
                        have heff := pathEffect_dir_noname hlk hdn
                        have hΔ := pathDelta_dir_noname hlk hdn
                        refine ⟨?_, pathVisit_dir_noname hlk hdn, by rw [heff]; exact hwf⟩
                        rw [processPath_dir_noname hlk hdn, heff, hΔ, Nat.add_zero]
                    | some dn =>
                        have hok := queueOk_dir_elim hlk hqk dn hdn
                        cases ro with
                        | false =>
                            left
                            have heff := pathEffect_dir_off hlk hdn
                            have hΔ : pathDelta rootName fs p = 0 := by
                              rw [pathDelta_dir hlk hdn]
                              rfl
                            have hpv : pathVisit rootName fs p = [] := by
                              rw [pathVisit_dir hlk hdn]
                              rfl
                            refine ⟨?_, hpv, by rw [heff]; exact hwf⟩
                            rw [processPath_eq_dir_off hlk hdn, heff, hΔ, Nat.add_zero]
                        | true =>
                            right
                            exact ⟨cs, dn, rfl, rfl, hok⟩
          rcases hmain with ⟨hstep, hpv, hwf'⟩ | ⟨cs, dn, hlk, hdn, hokc⟩
          · have hlkpres : ∀ r ∈ rest,
                lookupPath r (pathEffect rootName fs p) = lookupPath r fs :=
              fun r hr => lookupPath_pathEffect_incomp (hInc r hr)
            have hm' : measureQ (pathEffect rootName fs p) rest ≤ fuel := by
              rw [measureQ_congr hlkpres]
              rw [measureQ_cons] at hm
              have h1 := pweight_pos fs p
              omega
            have hq' : ∀ r ∈ rest, queueOk rootName (pathEffect rootName fs p) r :=
              fun r hr => (queueOk_congr (hlkpres r hr)).mpr (hq r (List.mem_cons_of_mem p hr))
            have hrl : runLoop rootName (fuel + 1) fs d (p :: rest) tr
                = runLoop rootName fuel (pathEffect rootName fs p)
                    (d + pathDelta rootName fs p) (rest ++ []) (tr ++ [p]) := by
              simp only [runLoop, hstep]
            rw [List.append_nil] at hrl
            obtain ⟨tl', heq, hiff⟩ := ih rootName (pathEffect rootName fs p)
              (d + pathDelta rootName fs p) rest (tr ++ [p]) hm' hwf' hpwrest hq'
            refine ⟨p :: tl', ?_, ?_⟩
            · rw [hrl, heq, deltaQ_congr hlkpres, List.append_assoc, deltaQ_cons,
                ← Nat.add_assoc]
              rfl
            · intro x
              rw [List.mem_cons, hiff x]
              have hvcong : ∀ P ∈ rest,
                  pathVisit rootName (pathEffect rootName fs p) P = pathVisit rootName fs P :=
                fun P hP => pathVisit_congr (hlkpres P hP)
              constructor
              · rintro (hx0 | hx | ⟨P, hP, hxP⟩)
                · exact Or.inl (List.mem_cons.mpr (Or.inl hx0))
                · exact Or.inl (List.mem_cons_of_mem p hx)
                · exact Or.inr ⟨P, List.mem_cons_of_mem p hP, (hvcong P hP) ▸ hxP⟩
              · rintro (hx | ⟨P, hP, hxP⟩)
                · rcases List.mem_cons.mp hx with hx0 | hx'
                  · exact Or.inl hx0
                  · exact Or.inr (Or.inl hx')
                · rcases List.mem_cons.mp hP with hP0 | hP'
                  · rw [hP0, hpv] at hxP
                    simp at hxP
                  · exact Or.inr (Or.inr ⟨P, hP', (hvcong P hP').symm ▸ hxP⟩)
          · have hnd_cs : nodupKeys cs = true := (wfNode_dir (wf_lookup p hwf hlk)).1
            have hstep : processPath rootName fs d p
                = StepRes.next fs d (enqPaths dn p cs) :=
              processPath_eq_dir_on hlk hdn hokc
            have hrl : runLoop rootName (fuel + 1) fs d (p :: rest) tr
                = runLoop rootName fuel fs d (rest ++ enqPaths dn p cs) (tr ++ [p]) := by
              simp only [runLoop, hstep]
            have hmEnq : measureQ fs (enqPaths dn p cs) ≤ cweight cs :=
              measureQ_enqPaths cs [] hlk hnd_cs
            have hm' : measureQ fs (rest ++ enqPaths dn p cs) ≤ fuel := by
              rw [measureQ_append]
              rw [measureQ_cons, pweight_lookup hlk] at hm
              have hnw : nweight (Node.dir true cs) = 1 + cweight cs := rfl
              rw [hnw] at hm
              omega
            have hpw' : List.Pairwise Incomp (rest ++ enqPaths dn p cs) := by
              rw [List.pairwise_append]
              refine ⟨hpwrest, enqPaths_pairwise hnd_cs, ?_⟩
              intro r hr e he
              obtain ⟨b, rfl, _⟩ := enqPaths_shape he
              exact incomp_extend ⟨(hInc r hr).2, (hInc r hr).1⟩
            have hq' : ∀ r ∈ rest ++ enqPaths dn p cs, queueOk rootName fs r := by
              intro r hr
              rcases List.mem_append.mp hr with h | h
              · exact hq r (List.mem_cons_of_mem p h)
              · exact queueOk_enqPaths cs [] hdn hlk hnd_cs hokc r h
            obtain ⟨tl', heq, hiff⟩ := ih rootName fs d (rest ++ enqPaths dn p cs)
              (tr ++ [p]) hm' hwf hpw' hq'
            have hlkA : lookupPath p (applyAll rootName fs rest) = some (Node.dir true cs) := by
              rw [lookupPath_applyAll_incomp rest p fs
                (fun r hr => ⟨(hInc r hr).2, (hInc r hr).1⟩)]
              exact hlk
            have hAA : applyAll rootName fs (rest ++ enqPaths dn p cs)
                = applyAll rootName fs (p :: rest) := by
              rw [applyAll_append]
              have h2 : applyAll rootName fs (p :: rest)
                  = applyAll rootName (pathEffect rootName fs p) rest := rfl
              rw [h2, applyAll_pathEffect_incomp rest p fs hInc]
              have hpe2 : pathEffect rootName (applyAll rootName fs rest) p
                  = replaceAt (Node.dir true (pruneChildren dn cs)) p
                      (applyAll rootName fs rest) := by
                unfold pathEffect
                rw [effActionOf_dir hlkA hdn]
                rfl
              rw [hpe2]
              exact applyAll_enqPaths cs [] (applyAll rootName fs rest) hdn hlkA hnd_cs
            have hΔp : pathDelta rootName fs p = delSizeChildren dn cs := by
              rw [pathDelta_dir hlk hdn]
              rfl
            have hΔq : deltaQ rootName fs (enqPaths dn p cs) = delSizeChildren dn cs :=
              deltaQ_enqPaths cs [] fs hdn hlk hnd_cs
            have hD : deltaQ rootName fs (rest ++ enqPaths dn p cs)
                = deltaQ rootName fs (p :: rest) := by
              rw [deltaQ_append, deltaQ_cons, hΔq, hΔp, Nat.add_comm]
            refine ⟨p :: tl', ?_, ?_⟩
            · rw [hrl, heq, hAA, hD, List.append_assoc]
              rfl
            · intro x
              rw [List.mem_cons, hiff x]
              have hpv : pathVisit rootName fs p = visitChildren dn p cs := by
                rw [pathVisit_dir hlk hdn]
                rfl
              have hvc := visitChildren_iff cs [] fs hdn hlk hnd_cs x
              constructor
              · rintro (hx0 | hx | ⟨P, hP, hxP⟩)
                · exact Or.inl (List.mem_cons.mpr (Or.inl hx0))
                · rcases List.mem_append.mp hx with h | h
                  · exact Or.inl (List.mem_cons_of_mem p h)
                  · exact Or.inr ⟨p, List.mem_cons_self p rest,
                      by rw [hpv]; exact hvc.mpr (Or.inl h)⟩
                · rcases List.mem_append.mp hP with h | h
                  · exact Or.inr ⟨P, List.mem_cons_of_mem p h, hxP⟩
                  · exact Or.inr ⟨p, List.mem_cons_self p rest,
                      by rw [hpv]; exact hvc.mpr (Or.inr ⟨P, h, hxP⟩)⟩
              · rintro (hx | ⟨P, hP, hxP⟩)
                · rcases List.mem_cons.mp hx with hx0 | hx'
                  · exact Or.inl hx0
                  · exact Or.inr (Or.inl (List.mem_append.mpr (Or.inl hx')))
                · rcases List.mem_cons.mp hP with hP0 | hP'
                  · rw [hP0, hpv] at hxP
                    rcases hvc.mp hxP with h | ⟨Q, hQ, hxQ⟩
                    · exact Or.inr (Or.inl (List.mem_append.mpr (Or.inr h)))
                    · exact Or.inr (Or.inr ⟨Q, List.mem_append.mpr (Or.inr hQ), hxQ⟩)
                  · exact Or.inr (Or.inr ⟨P, List.mem_append.mpr (Or.inl hP'), hxP⟩)

/-! Equations of the structural prune. -/

theorem pruneNode_file {dn : String} {sz : Nat} {sOk dOk : Bool} :
    pruneNode dn (Node.file sz sOk dOk) = Node.file sz sOk dOk := rfl

theorem pruneNode_dir_true {dn : String} {cs : List (RawName × Node)} :
    pruneNode dn (Node.dir true cs) = Node.dir true (pruneChildren dn cs) := rfl

theorem pruneNode_dir_false {dn : String} {cs : List (RawName × Node)} :
    pruneNode dn (Node.dir false cs) = Node.dir false cs := rfl

theorem pruneChildren_file_del {dn nm : String} {a : RawName} {sz : Nat} {sOk dOk : Bool}
    {rest : List (RawName × Node)} (hu : a.utf8 = some nm) (hdc : delCond dn nm = true) :
    pruneChildren dn ((a, Node.file sz sOk dOk) :: rest) = pruneChildren dn rest := by
  rw [pruneChildren, hu]
  show (if delCond dn nm = true then pruneChildren dn rest
      else (a, Node.file sz sOk dOk) :: pruneChildren dn rest) = pruneChildren dn rest
  rw [if_pos hdc]

theorem pruneChildren_file_keep {dn nm : String} {a : RawName} {sz : Nat} {sOk dOk : Bool}
    {rest : List (RawName × Node)} (hu : a.utf8 = some nm) (hdc : delCond dn nm = false) :
    pruneChildren dn ((a, Node.file sz sOk dOk) :: rest)
      = (a, Node.file sz sOk dOk) :: pruneChildren dn rest := by
  rw [pruneChildren, hu]
  show (if delCond dn nm = true then pruneChildren dn rest
      else (a, Node.file sz sOk dOk) :: pruneChildren dn rest)
    = (a, Node.file sz sOk dOk) :: pruneChildren dn rest
  rw [if_neg (by rw [hdc]; exact Bool.false_ne_true)]

theorem pruneChildren_file_none {dn : String} {a : RawName} {sz : Nat} {sOk dOk : Bool}
    {rest : List (RawName × Node)} (hu : a.utf8 = none) :
    pruneChildren dn ((a, Node.file sz sOk dOk) :: rest)
      = (a, Node.file sz sOk dOk) :: pruneChildren dn rest := by
  rw [pruneChildren, hu]

theorem pruneChildren_dir_some {dn cn : String} {a : RawName} {ro : Bool}
    {cs2 rest : List (RawName × Node)} (hu : a.utf8 = some cn) :
    pruneChildren dn ((a, Node.dir ro cs2) :: rest)
      = (a, pruneNode cn (Node.dir ro cs2)) :: pruneChildren dn rest := by
  rw [pruneChildren, hu]

theorem pruneChildren_dir_none {dn : String} {a : RawName} {ro : Bool}
    {cs2 rest : List (RawName × Node)} (hu : a.utf8 = none) :
    pruneChildren dn ((a, Node.dir ro cs2) :: rest)
      = (a, Node.dir ro cs2) :: pruneChildren dn rest := by
  rw [pruneChildren, hu]

/-! Keys of a pruned listing form a sub-multiset of the original keys, so
resolution in the pruned listing is determined by the original entry. -/

theorem keyMem_pruneChildren_false {dn : String} {b : RawName} :
    ∀ {cs}, keyMem b cs = false → keyMem b (pruneChildren dn cs) = false := by
  intro cs
  induction cs with
  | nil => intro h; exact h
  | cons e rest ih =>
      obtain ⟨a, n⟩ := e
      intro h
      simp only [keyMem, Bool.or_eq_false_iff] at h
      cases n with
      | file sz sOk dOk =>
          cases hu : a.utf8 with
          | none =>
              rw [pruneChildren_file_none hu]
              simp only [keyMem, Bool.or_eq_false_iff]
              exact ⟨h.1, ih h.2⟩
          | some nm =>
              cases hdc : delCond dn nm with
              | true =>
                  rw [pruneChildren_file_del hu hdc]
                  exact ih h.2
              | false =>
                  rw [pruneChildren_file_keep hu hdc]
                  simp only [keyMem, Bool.or_eq_false_iff]
                  exact ⟨h.1, ih h.2⟩
      | dir ro2 cs2 =>
          cases hu : a.utf8 with
          | none =>
              rw [pruneChildren_dir_none hu]
              simp only [keyMem, Bool.or_eq_false_iff]
              exact ⟨h.1, ih h.2⟩
          | some cn =>
              rw [pruneChildren_dir_some hu]
              simp only [keyMem, Bool.or_eq_false_iff]
              exact ⟨h.1, ih h.2⟩

theorem nodupKeys_pruneChildren {dn : String} :
    ∀ {cs}, nodupKeys cs = true → nodupKeys (pruneChildren dn cs) = true := by
  intro cs
  induction cs with
  | nil => intro h; exact h
  | cons e rest ih =>
      obtain ⟨a, n⟩ := e
      intro h
      simp only [nodupKeys, Bool.and_eq_true, Bool.not_eq_true'] at h
      cases n with
      | file sz sOk dOk =>
          cases hu : a.utf8 with
          | none =>
              rw [pruneChildren_file_none hu]
              simp only [nodupKeys, Bool.and_eq_true, Bool.not_eq_true']
              exact ⟨keyMem_pruneChildren_false h.1, ih h.2⟩
          | some nm =>
              cases hdc : delCond dn nm with
              | true =>
                  rw [pruneChildren_file_del hu hdc]
                  exact ih h.2
              | false =>
                  rw [pruneChildren_file_keep hu hdc]
                  simp only [nodupKeys, Bool.and_eq_true, Bool.not_eq_true']
                  exact ⟨keyMem_pruneChildren_false h.1, ih h.2⟩
      | dir ro2 cs2 =>
          cases hu : a.utf8 with
          | none =>
              rw [pruneChildren_dir_none hu]
              simp only [nodupKeys, Bool.and_eq_true, Bool.not_eq_true']
              exact ⟨keyMem_pruneChildren_false h.1, ih h.2⟩
          | some cn =>
              rw [pruneChildren_dir_some hu]
              simp only [nodupKeys, Bool.and_eq_true, Bool.not_eq_true']
              exact ⟨keyMem_pruneChildren_false h.1, ih h.2⟩

theorem findChild_pruneChildren_file {dn nm : String} {a : RawName} {sz : Nat}
    {sOk dOk : Bool} :
    ∀ {cs}, nodupKeys cs = true → findChild a cs = some (Node.file sz sOk dOk) →
      a.utf8 = some nm →
      findChild a (pruneChildren dn cs)
        = if delCond dn nm then none else some (Node.file sz sOk dOk) := by
  intro cs
  induction cs with
  | nil => intro _ hfc _; simp [findChild] at hfc
  | cons e rest ih =>
      obtain ⟨b, m⟩ := e
      intro hnd hfc hu
      simp only [nodupKeys, Bool.and_eq_true, Bool.not_eq_true'] at hnd
      by_cases hba : b = a
      · subst hba
        rw [findChild, if_pos rfl] at hfc
        injection hfc with hfc
        subst hfc
        cases hdc : delCond dn nm with
        | true =>
            rw [pruneChildren_file_del hu hdc, if_pos rfl]
            exact keyMem_false_findChild (keyMem_pruneChildren_false hnd.1)
        | false =>
            rw [pruneChildren_file_keep hu hdc, if_neg Bool.false_ne_true]
            rw [findChild, if_pos rfl]
      · rw [findChild, if_neg hba] at hfc
        have hrec := ih hnd.2 hfc hu
        cases m with
        | file sz2 sOk2 dOk2 =>
            cases hu2 : b.utf8 with
            | none =>
                rw [pruneChildren_file_none hu2, findChild, if_neg hba]
                exact hrec
            | some nm2 =>
                cases hdc2 : delCond dn nm2 with
                | true =>
                    rw [pruneChildren_file_del hu2 hdc2]
                    exact hrec
                | false =>
                    rw [pruneChildren_file_keep hu2 hdc2, findChild, if_neg hba]
                    exact hrec
        | dir ro2 cs2 =>
            cases hu2 : b.utf8 with
            | none =>
                rw [pruneChildren_dir_none hu2, findChild, if_neg hba]
                exact hrec
            | some cn2 =>
                rw [pruneChildren_dir_some hu2, findChild, if_neg hba]
                exact hrec

theorem findChild_pruneChildren_dir {dn cn : String} {a : RawName} {ro : Bool}
    {cs2 : List (RawName × Node)} :
    ∀ {cs}, nodupKeys cs = true → findChild a cs = some (Node.dir ro cs2) →
      a.utf8 = some cn →
      findChild a (pruneChildren dn cs) = some (pruneNode cn (Node.dir ro cs2)) := by
  intro cs
  induction cs with
  | nil => intro _ hfc _; simp [findChild] at hfc
  | cons e rest ih =>
      obtain ⟨b, m⟩ := e
      intro hnd hfc hu
      simp only [nodupKeys, Bool.and_eq_true, Bool.not_eq_true'] at hnd
      by_cases hba : b = a
      · subst hba
        rw [findChild, if_pos rfl] at hfc
        injection hfc with hfc
        subst hfc
        rw [pruneChildren_dir_some hu, findChild, if_pos rfl]
      · rw [findChild, if_neg hba] at hfc
        have hrec := ih hnd.2 hfc hu
        cases m with
        | file sz2 sOk2 dOk2 =>
            cases hu2 : b.utf8 with
            | none =>
                rw [pruneChildren_file_none hu2, findChild, if_neg hba]
                exact hrec
            | some nm2 =>
                cases hdc2 : delCond dn nm2 with
                | true =>
                    rw [pruneChildren_file_del hu2 hdc2]
                    exact hrec
                | false =>
                    rw [pruneChildren_file_keep hu2 hdc2, findChild, if_neg hba]
                    exact hrec
        | dir ro3 cs3 =>
            cases hu2 : b.utf8 with
            | none =>
                rw [pruneChildren_dir_none hu2, findChild, if_neg hba]
                exact hrec
            | some cn2 =>
                rw [pruneChildren_dir_some hu2, findChild, if_neg hba]
                exact hrec

/-! The readable-and-decodable chain of names along a path. -/

theorem chainName_nil {dn dn' : String} {fs : Node}
    (h : chainName dn [] fs = some dn') : (∃ cs, fs = Node.dir true cs) ∧ dn' = dn := by
  cases fs with
  | file sz sOk dOk => exact absurd h (by simp [chainName])
  | dir ro cs =>
      cases ro with
      | false => exact absurd h (by simp [chainName])
      | true =>
          refine ⟨⟨cs, rfl⟩, ?_⟩
          have h2 : some dn = some dn' := h
          injection h2 with h2
          exact h2.symm

theorem chainName_cons {dn dn' : String} {b : RawName} {p' : FsPath} {fs : Node}
    (h : chainName dn (b :: p') fs = some dn') :
    ∃ cs c cn, fs = Node.dir true cs ∧ findChild b cs = some c ∧ b.utf8 = some cn ∧
      chainName cn p' c = some dn' := by
  cases fs with
  | file sz sOk dOk => exact absurd h (by simp [chainName])
  | dir ro cs =>
      cases ro with
      | false => exact absurd h (by simp [chainName])
      | true =>
          have h2 : (match findChild b cs, b.utf8 with
              | some c, some cn => chainName cn p' c
              | _, _ => none) = some dn' := h
          cases hfc : findChild b cs with
          | none =>
              rw [hfc] at h2
              cases hu : b.utf8 with
              | none => rw [hu] at h2; simp at h2
              | some cn => rw [hu] at h2; simp at h2
          | some c =>
              rw [hfc] at h2
              cases hu : b.utf8 with
              | none => rw [hu] at h2; simp at h2
              | some cn =>
                  rw [hu] at h2
                  exact ⟨cs, c, cn, rfl, hfc, rfl, h2⟩

theorem chainName_dirShape {dn dn' : String} {c : Node} :
    ∀ {p : FsPath}, chainName dn p c = some dn' → ∃ cs2, c = Node.dir true cs2 := by
  intro p h
  cases p with
  | nil =>
      obtain ⟨⟨cs, rfl⟩, _⟩ := chainName_nil h
      exact ⟨cs, rfl⟩
  | cons b q =>
      obtain ⟨cs, c2, cn, rfl, _, _, _⟩ := chainName_cons h
      exact ⟨cs, rfl⟩

theorem chainName_lookup_dir :
    ∀ (p : FsPath) {dn dn' : String} {fs : Node},
      chainName dn p fs = some dn' →
      ∃ cs, lookupPath p fs = some (Node.dir true cs) := by
  intro p
  induction p with
  | nil =>
      intro dn dn' fs h
      obtain ⟨⟨cs, rfl⟩, _⟩ := chainName_nil h
      exact ⟨cs, rfl⟩
  | cons b p' ih =>
      intro dn dn' fs h
      obtain ⟨cs, c, cn, rfl, hfc, hu, h'⟩ := chainName_cons h
      obtain ⟨cs2, hlk2⟩ := ih h'
      refine ⟨cs2, ?_⟩
      simp only [lookupPath, hfc, Option.some_bind]
      exact hlk2

/-! Resolving a file just below a readable decoded chain, after the prune:
present iff its eligibility condition fails. -/

theorem lookupPath_pruneNode_file :
    ∀ (p : FsPath) {dn dn' : String} {fs : Node} {a : RawName} {nm : String}
      {sz : Nat} {sOk dOk : Bool},
      wfNode fs = true →
      chainName dn p fs = some dn' →
      lookupPath (p ++ [a]) fs = some (Node.file sz sOk dOk) →
      a.utf8 = some nm →
      lookupPath (p ++ [a]) (pruneNode dn fs)
        = if delCond dn' nm then none else some (Node.file sz sOk dOk) := by
  intro p
  induction p with
  | nil =>
      intro dn dn' fs a nm sz sOk dOk hwf hch hlk hu
      obtain ⟨⟨cs, rfl⟩, rfl⟩ := chainName_nil hch
      have hfc : findChild a cs = some (Node.file sz sOk dOk) := by
        rw [lookupPath_concat] at hlk
        simpa using hlk
      have hnd : nodupKeys cs = true := (wfNode_dir hwf).1
      rw [pruneNode_dir_true, lookupPath_concat]
      simp only [lookupPath, Option.some_bind]
      exact findChild_pruneChildren_file hnd hfc hu
  | cons b p' ih =>
      intro dn dn' fs a nm sz sOk dOk hwf hch hlk hu
      obtain ⟨cs, c, cn, rfl, hfc, hbu, hch'⟩ := chainName_cons hch
      have hnd : nodupKeys cs = true := (wfNode_dir hwf).1
      have hwfc : wfNode c = true := wfChildren_findChild (wfNode_dir hwf).2 hfc
      have hlk' : lookupPath (p' ++ [a]) c = some (Node.file sz sOk dOk) := by
        rw [List.cons_append] at hlk
        simp only [lookupPath, hfc, Option.some_bind] at hlk
        exact hlk
      obtain ⟨cs2, rfl⟩ := chainName_dirShape hch'
      rw [pruneNode_dir_true, List.cons_append]
      simp only [lookupPath]
      rw [findChild_pruneChildren_dir hnd hfc hbu]
      simp only [Option.some_bind]
      exact ih hwfc hch' hlk' hu

/-! Equations of the other structural folds. -/

theorem delSize_dir_true {dn : String} {cs : List (RawName × Node)} :
    delSize dn (Node.dir true cs) = delSizeChildren dn cs := rfl

theorem delSize_dir_false {dn : String} {cs : List (RawName × Node)} :
    delSize dn (Node.dir false cs) = 0 := rfl

theorem delSizeChildren_file_eq {dn : String} {a : RawName} {sz : Nat} {sOk dOk : Bool}
    {rest : List (RawName × Node)} :
    delSizeChildren dn ((a, Node.file sz sOk dOk) :: rest)
      = (match a.utf8 with
         | some n =>
             if n == LOCAL_METADATA_FILE then 0
             else if delCond dn n then (if sOk then sz else 0) else 0
         | none => 0) + delSizeChildren dn rest := by
  rw [delSizeChildren]

theorem delSizeChildren_dir_eq {dn : String} {a : RawName} {ro : Bool}
    {cs2 rest : List (RawName × Node)} :
    delSizeChildren dn ((a, Node.dir ro cs2) :: rest)
      = (match a.utf8 with
         | some cn => delSize cn (Node.dir ro cs2)
         | none => 0) + delSizeChildren dn rest := by
  rw [delSizeChildren]

theorem okNode_dir_true {dn : String} {cs : List (RawName × Node)} :
    okNode dn (Node.dir true cs) = okChildren dn cs := rfl

theorem okChildren_file_eq {dn : String} {a : RawName} {sz : Nat} {sOk dOk : Bool}
    {rest : List (RawName × Node)} :
    okChildren dn ((a, Node.file sz sOk dOk) :: rest)
      = ((match a.utf8 with
          | some n => !delCond dn n || dOk
          | none => false) && okChildren dn rest) := by
  rw [okChildren]

theorem okChildren_dir_eq {dn : String} {a : RawName} {ro : Bool}
    {cs2 rest : List (RawName × Node)} :
    okChildren dn ((a, Node.dir ro cs2) :: rest)
      = ((match a.utf8 with
          | some cn => okNode cn (Node.dir ro cs2)
          | none => true) && okChildren dn rest) := by
  rw [okChildren]

theorem wfChildren_cons_eq {a : RawName} {n : Node} {rest : List (RawName × Node)} :
    wfChildren ((a, n) :: rest) = (wfNode n && wfChildren rest) := by
  rw [wfChildren]

theorem visitNode_dir_true {dn : String} {base : FsPath} {cs : List (RawName × Node)} :
    visitNode dn base (Node.dir true cs) = visitChildren dn base cs := rfl

theorem visitNode_dir_false {dn : String} {base : FsPath} {cs : List (RawName × Node)} :
    visitNode dn base (Node.dir false cs) = [] := rfl

theorem visitChildren_file_eq {dn : String} {base : FsPath} {a : RawName} {sz : Nat}
    {sOk dOk : Bool} {rest : List (RawName × Node)} :
    visitChildren dn base ((a, Node.file sz sOk dOk) :: rest)
      = (match a.utf8 with
         | some n =>
             if strEndsWith dn SNAPSHOT_SUFFIX || n == LOCAL_METADATA_FILE
             then [base ++ [a]] else []
         | none => []) ++ visitChildren dn base rest := by
  rw [visitChildren]

theorem visitChildren_dir_eq {dn : String} {base : FsPath} {a : RawName} {ro : Bool}
    {cs2 rest : List (RawName × Node)} :
    visitChildren dn base ((a, Node.dir ro cs2) :: rest)
      = ((base ++ [a]) :: (match a.utf8 with
          | some cn => visitNode cn (base ++ [a]) (Node.dir ro cs2)
          | none => [])) ++ visitChildren dn base rest := by
  rw [visitChildren]

theorem delCond_false_parts {dn nm : String} (hdc : delCond dn nm = false) :
    (nm == LOCAL_METADATA_FILE) = false := by
  have hdc' := hdc
  unfold delCond at hdc'
  exact (Bool.or_eq_false_iff.mp hdc').1

/-! Pruning is idempotent, recharges nothing, and preserves traversal
health and well-formedness; bounded induction over the subtree weight
stands in for the nested structural induction. -/

theorem prune_idem_bound :
    ∀ (k : Nat),
      (∀ (dn : String) (n : Node), nweight n ≤ k →
        pruneNode dn (pruneNode dn n) = pruneNode dn n) ∧
      (∀ (dn : String) (cs : List (RawName × Node)), cweight cs ≤ k →
        pruneChildren dn (pruneChildren dn cs) = pruneChildren dn cs) := by
  intro k
  induction k with
  | zero =>
      constructor
      · intro dn n h
        exact absurd h (by have := nweight_pos n; omega)
      · intro dn cs h
        cases cs with
        | nil => rfl
        | cons e rest =>
            obtain ⟨a, n⟩ := e
            exfalso
            rw [cweight] at h
            have := nweight_pos n
            omega
  | succ k ihk =>
      have hnode : ∀ (dn : String) (n : Node), nweight n ≤ k + 1 →
          pruneNode dn (pruneNode dn n) = pruneNode dn n := by
        intro dn n h
        cases n with
        | file sz sOk dOk => rfl
        | dir ro cs =>
            cases ro with
            | false => rfl
            | true =>
                rw [pruneNode_dir_true, pruneNode_dir_true,
                  ihk.2 dn cs (by rw [nweight] at h; omega)]
      refine ⟨hnode, ?_⟩
      intro dn cs
      induction cs with
      | nil => intro _; rfl
      | cons e rest ihrest =>
          obtain ⟨a, n⟩ := e
          intro h
          have hrest : cweight rest ≤ k + 1 := by
            rw [cweight] at h
            have := nweight_pos n
            omega
          cases n with
          | file sz sOk dOk =>
              cases hu : a.utf8 with
              | none =>
                  rw [pruneChildren_file_none hu, pruneChildren_file_none hu,
                    ihrest hrest]
              | some nm =>
                  cases hdc : delCond dn nm with
                  | true => rw [pruneChildren_file_del hu hdc, ihrest hrest]
                  | false =>
                      rw [pruneChildren_file_keep hu hdc, pruneChildren_file_keep hu hdc,
                        ihrest hrest]
          | dir ro2 cs2 =>
              cases hu : a.utf8 with
              | none =>
                  rw [pruneChildren_dir_none hu, pruneChildren_dir_none hu, ihrest hrest]
              | some cn =>
                  cases ro2 with
                  | false =>
                      rw [pruneChildren_dir_some hu, pruneNode_dir_false,
                        pruneChildren_dir_some hu, pruneNode_dir_false, ihrest hrest]
                  | true =>
                      have hcs2 : cweight cs2 ≤ k := by
                        rw [cweight, nweight] at h
                        omega
                      rw [pruneChildren_dir_some hu, pruneNode_dir_true,
                        pruneChildren_dir_some hu, pruneNode_dir_true,
                        ihk.2 cn cs2 hcs2, ihrest hrest]

theorem pruneNode_idem {dn : String} {n : Node} :
    pruneNode dn (pruneNode dn n) = pruneNode dn n :=
  (prune_idem_bound (nweight n)).1 dn n (Nat.le_refl _)

theorem delSize_prune_bound :
    ∀ (k : Nat),
      (∀ (dn : String) (n : Node), nweight n ≤ k → delSize dn (pruneNode dn n) = 0) ∧
      (∀ (dn : String) (cs : List (RawName × Node)), cweight cs ≤ k →
        delSizeChildren dn (pruneChildren dn cs) = 0) := by
  intro k
  induction k with
  | zero =>
      constructor
      · intro dn n h
        exact absurd h (by have := nweight_pos n; omega)
      · intro dn cs h
        cases cs with
        | nil => rfl
        | cons e rest =>
            obtain ⟨a, n⟩ := e
            exfalso
            rw [cweight] at h
            have := nweight_pos n
            omega
  | succ k ihk =>
      have hnode : ∀ (dn : String) (n : Node), nweight n ≤ k + 1 →
          delSize dn (pruneNode dn n) = 0 := by
        intro dn n h
        cases n with
        | file sz sOk dOk => rfl
        | dir ro cs =>
            cases ro with
            | false => rfl
            | true =>
                rw [pruneNode_dir_true, delSize_dir_true,
                  ihk.2 dn cs (by rw [nweight] at h; omega)]
      refine ⟨hnode, ?_⟩
      intro dn cs
      induction cs with
      | nil => intro _; rfl
      | cons e rest ihrest =>
          obtain ⟨a, n⟩ := e
          intro h
          have hrest : cweight rest ≤ k + 1 := by
            rw [cweight] at h
            have := nweight_pos n
            omega
          cases n with
          | file sz sOk dOk =>
              cases hu : a.utf8 with
              | none =>
                  rw [pruneChildren_file_none hu, delSizeChildren_file_eq, hu,
                    ihrest hrest]
              | some nm =>
                  cases hdc : delCond dn nm with
                  | true => rw [pruneChildren_file_del hu hdc, ihrest hrest]
                  | false =>
                      have hm := delCond_false_parts hdc
                      rw [pruneChildren_file_keep hu hdc, delSizeChildren_file_eq, hu]
                      show (if (nm == LOCAL_METADATA_FILE) = true then 0
                          else if delCond dn nm = true then (if sOk = true then sz else 0)
                          else 0) + delSizeChildren dn (pruneChildren dn rest) = 0
                      rw [hm, hdc, ihrest hrest]
                      simp
          | dir ro2 cs2 =>
              cases hu : a.utf8 with
              | none =>
                  rw [pruneChildren_dir_none hu, delSizeChildren_dir_eq, hu,
                    ihrest hrest]
              | some cn =>
                  cases ro2 with
                  | false =>
                      rw [pruneChildren_dir_some hu, pruneNode_dir_false,
                        delSizeChildren_dir_eq, hu, ihrest hrest]
                      show delSize cn (Node.dir false cs2) + 0 = 0
                      rw [delSize_dir_false]
                  | true =>
                      have hcs2 : cweight cs2 ≤ k := by
                        rw [cweight, nweight] at h
                        omega
                      rw [pruneChildren_dir_some hu, pruneNode_dir_true,
                        delSizeChildren_dir_eq, hu, ihrest hrest]
                      show delSize cn (Node.dir true (pruneChildren cn cs2)) + 0 = 0
                      rw [delSize_dir_true, ihk.2 cn cs2 hcs2]

theorem delSize_pruneNode {dn : String} {n : Node} : delSize dn (pruneNode dn n) = 0 :=
  (delSize_prune_bound (nweight n)).1 dn n (Nat.le_refl _)

theorem ok_prune_bound :
    ∀ (k : Nat),
      (∀ (dn : String) (n : Node), nweight n ≤ k → okNode dn n = true →
        okNode dn (pruneNode dn n) = true) ∧
      (∀ (dn : String) (cs : List (RawName × Node)), cweight cs ≤ k →
        okChildren dn cs = true → okChildren dn (pruneChildren dn cs) = true) := by
  intro k
  induction k with
  | zero =>
      constructor
      · intro dn n h
        exact absurd h (by have := nweight_pos n; omega)
      · intro dn cs h
        cases cs with
        | nil => intro _; rfl
        | cons e rest =>
            obtain ⟨a, n⟩ := e
            exfalso
            rw [cweight] at h
            have := nweight_pos n
            omega
  | succ k ihk =>
      have hnode : ∀ (dn : String) (n : Node), nweight n ≤ k + 1 → okNode dn n = true →
          okNode dn (pruneNode dn n) = true := by
        intro dn n h hok
        cases n with
        | file sz sOk dOk => rfl
        | dir ro cs =>
            cases ro with
            | false => rfl
            | true =>
                rw [pruneNode_dir_true, okNode_dir_true]
                rw [okNode_dir_true] at hok
                exact ihk.2 dn cs (by rw [nweight] at h; omega) hok
      refine ⟨hnode, ?_⟩
      intro dn cs
      induction cs with
      | nil => intro _ _; rfl
      | cons e rest ihrest =>
          obtain ⟨a, n⟩ := e
          intro h hok
          have hrest : cweight rest ≤ k + 1 := by
            rw [cweight] at h
            have := nweight_pos n
            omega
          cases n with
          | file sz sOk dOk =>
              rw [okChildren_file_eq, Bool.and_eq_true] at hok
              cases hu : a.utf8 with
              | none =>
                  rw [hu] at hok
                  exact absurd hok.1 (by simp)
              | some nm =>
                  rw [hu] at hok
                  cases hdc : delCond dn nm with
                  | true =>
                      rw [pruneChildren_file_del hu hdc]
                      exact ihrest hrest hok.2
                  | false =>
                      rw [pruneChildren_file_keep hu hdc, okChildren_file_eq, hu]
                      show ((!delCond dn nm || dOk)
                          && okChildren dn (pruneChildren dn rest)) = true
                      rw [hdc, ihrest hrest hok.2]
                      rfl
          | dir ro2 cs2 =>
              rw [okChildren_dir_eq, Bool.and_eq_true] at hok
              cases hu : a.utf8 with
              | none =>
                  rw [pruneChildren_dir_none hu, okChildren_dir_eq, hu,
                    ihrest hrest hok.2]
                  rfl
              | some cn =>
                  rw [hu] at hok
                  cases ro2 with
                  | false =>
                      rw [pruneChildren_dir_some hu, pruneNode_dir_false,
                        okChildren_dir_eq, hu, ihrest hrest hok.2]
                      rfl
                  | true =>
                      have hcs2 : cweight cs2 ≤ k := by
                        rw [cweight, nweight] at h
                        omega
                      rw [pruneChildren_dir_some hu, pruneNode_dir_true,
                        okChildren_dir_eq, hu]
                      show (okNode cn (Node.dir true (pruneChildren cn cs2))
                          && okChildren dn (pruneChildren dn rest)) = true
                      rw [okNode_dir_true, ihk.2 cn cs2 hcs2 hok.1, ihrest hrest hok.2]
                      rfl

theorem okNode_pruneNode {dn : String} {n : Node} (hok : okNode dn n = true) :
    okNode dn (pruneNode dn n) = true :=
  (ok_prune_bound (nweight n)).1 dn n (Nat.le_refl _) hok

theorem wf_prune_bound :
    ∀ (k : Nat),
      (∀ (dn : String) (n : Node), nweight n ≤ k → wfNode n = true →
        wfNode (pruneNode dn n) = true) ∧
      (∀ (dn : String) (cs : List (RawName × Node)), cweight cs ≤ k →
        wfChildren cs = true → wfChildren (pruneChildren dn cs) = true) := by
  intro k
  induction k with
  | zero =>
      constructor
      · intro dn n h
        exact absurd h (by have := nweight_pos n; omega)
      · intro dn cs h
        cases cs with
        | nil => intro _; rfl
        | cons e rest =>
            obtain ⟨a, n⟩ := e
            exfalso
            rw [cweight] at h
            have := nweight_pos n
            omega
  | succ k ihk =>
      have hnode : ∀ (dn : String) (n : Node), nweight n ≤ k + 1 → wfNode n = true →
          wfNode (pruneNode dn n) = true := by
        intro dn n h hwf
        cases n with
        | file sz sOk dOk => rfl
        | dir ro cs =>
            cases ro with
            | false => exact hwf
            | true =>
                obtain ⟨hnd, hwc⟩ := wfNode_dir hwf
                rw [pruneNode_dir_true]
                have h2 : wfNode (Node.dir true (pruneChildren dn cs))
                    = (nodupKeys (pruneChildren dn cs)
                        && wfChildren (pruneChildren dn cs)) := rfl
                rw [h2, nodupKeys_pruneChildren hnd,
                  ihk.2 dn cs (by rw [nweight] at h; omega) hwc]
                rfl
      refine ⟨hnode, ?_⟩
      intro dn cs
      induction cs with
      | nil => intro _ _; rfl
      | cons e rest ihrest =>
          obtain ⟨a, n⟩ := e
          intro h hwc
          rw [wfChildren_cons_eq, Bool.and_eq_true] at hwc
          have hrest : cweight rest ≤ k + 1 := by
            rw [cweight] at h
            have := nweight_pos n
            omega
          cases n with
          | file sz sOk dOk =>
              cases hu : a.utf8 with
              | none =>
                  rw [pruneChildren_file_none hu, wfChildren_cons_eq,
                    ihrest hrest hwc.2]
                  rfl
              | some nm =>
                  cases hdc : delCond dn nm with
                  | true =>
                      rw [pruneChildren_file_del hu hdc]
                      exact ihrest hrest hwc.2
                  | false =>
                      rw [pruneChildren_file_keep hu hdc, wfChildren_cons_eq,
                        ihrest hrest hwc.2]
                      rfl
          | dir ro2 cs2 =>
              cases hu : a.utf8 with
              | none =>
                  rw [pruneChildren_dir_none hu, wfChildren_cons_eq,
                    ihrest hrest hwc.2, hwc.1]
                  rfl
              | some cn =>
                  rw [pruneChildren_dir_some hu, wfChildren_cons_eq,
                    hnode cn (Node.dir ro2 cs2) (by rw [cweight] at h; omega) hwc.1,
                    ihrest hrest hwc.2]
                  rfl

theorem wfNode_pruneNode {dn : String} {n : Node} (hwf : wfNode n = true) :
    wfNode (pruneNode dn n) = true :=
  (wf_prune_bound (nweight n)).1 dn n (Nat.le_refl _) hwf

/-! Every dequeued path strictly inside a subtree extends the subtree's
base by at least one component, whose head is a key of the listing. -/

theorem visit_shape_bound :
    ∀ (k : Nat),
      (∀ (dn : String) (base : FsPath) (n : Node) (y : FsPath), nweight n ≤ k →
        y ∈ visitNode dn base n → ∃ b t, y = base ++ b :: t) ∧
      (∀ (dn : String) (base : FsPath) (cs : List (RawName × Node)) (y : FsPath),
        cweight cs ≤ k → y ∈ visitChildren dn base cs →
        ∃ b t, y = base ++ b :: t ∧ keyMem b cs = true) := by
  intro k
  induction k with
  | zero =>
      constructor
      · intro dn base n y h
        exact absurd h (by have := nweight_pos n; omega)
      · intro dn base cs y h hy
        cases cs with
        | nil => simp [visitChildren] at hy
        | cons e rest =>
            obtain ⟨a, n⟩ := e
            exfalso
            rw [cweight] at h
            have := nweight_pos n
            omega
  | succ k ihk =>
      have hnode : ∀ (dn : String) (base : FsPath) (n : Node) (y : FsPath),
          nweight n ≤ k + 1 → y ∈ visitNode dn base n → ∃ b t, y = base ++ b :: t := by
        intro dn base n y h hy
        cases n with
        | file sz sOk dOk => simp [visitNode] at hy
        | dir ro cs =>
            cases ro with
            | false => rw [visitNode_dir_false] at hy; simp at hy
            | true =>
                rw [visitNode_dir_true] at hy
                obtain ⟨b, t, hbt, _⟩ :=
                  ihk.2 dn base cs y (by rw [nweight] at h; omega) hy
                exact ⟨b, t, hbt⟩
      refine ⟨hnode, ?_⟩
      intro dn base cs y h hy
      induction cs with
      | nil => simp [visitChildren] at hy
      | cons e rest ihrest =>
          obtain ⟨a, n⟩ := e
          have hrest : cweight rest ≤ k + 1 := by
            rw [cweight] at h
            have := nweight_pos n
            omega
          cases n with
          | file sz sOk dOk =>
              rw [visitChildren_file_eq] at hy
              rcases List.mem_append.mp hy with hy' | hy'
              · cases hu : a.utf8 with
                | none =>
                    rw [hu] at hy'
                    simp at hy'
                | some nm =>
                    rw [hu] at hy'
                    have hy2 : y ∈ (if (strEndsWith dn SNAPSHOT_SUFFIX
                          || nm == LOCAL_METADATA_FILE) = true
                        then [base ++ [a]] else ([] : List FsPath)) := hy'
                    by_cases hcond : (strEndsWith dn SNAPSHOT_SUFFIX
                        || nm == LOCAL_METADATA_FILE) = true
                    · rw [if_pos hcond] at hy2
                      have hye : y = base ++ [a] := by simpa using hy2
                      exact ⟨a, [], hye, by simp [keyMem]⟩
                    · rw [if_neg hcond] at hy2
                      simp at hy2
              · obtain ⟨b, t, hbt, hbm⟩ := ihrest hrest hy'
                exact ⟨b, t, hbt, by simp [keyMem, hbm]⟩
          | dir ro2 cs2 =>
              rw [visitChildren_dir_eq] at hy
              rcases List.mem_append.mp hy with hy' | hy'
              · rcases List.mem_cons.mp hy' with hye | hy2
                · exact ⟨a, [], hye, by simp [keyMem]⟩
                · cases hu : a.utf8 with
                  | none =>
                      rw [hu] at hy2
                      simp at hy2
                  | some cn =>
                      rw [hu] at hy2
                      have hnw2 : nweight (Node.dir ro2 cs2) ≤ k + 1 := by
                        rw [cweight] at h
                        omega
                      obtain ⟨b, t, hbt⟩ :=
                        hnode cn (base ++ [a]) (Node.dir ro2 cs2) y hnw2 hy2
                      refine ⟨a, b :: t, ?_, by simp [keyMem]⟩
                      rw [hbt, List.append_assoc]
                      rfl
              · obtain ⟨b, t, hbt, hbm⟩ := ihrest hrest hy'
                exact ⟨b, t, hbt, by simp [keyMem, hbm]⟩

theorem visitNode_shape {dn : String} {base : FsPath} {n : Node} {y : FsPath}
    (hy : y ∈ visitNode dn base n) : ∃ b t, y = base ++ b :: t :=
  (visit_shape_bound (nweight n)).1 dn base n y (Nat.le_refl _) hy

theorem visitChildren_shape {dn : String} {base : FsPath} {cs : List (RawName × Node)}
    {y : FsPath} (hy : y ∈ visitChildren dn base cs) :
    ∃ b t, y = base ++ b :: t ∧ keyMem b cs = true :=
  (visit_shape_bound (cweight cs)).2 dn base cs y (Nat.le_refl _) hy

/-! Localizing trace membership: a dequeued path inside a child's subtree
is accounted for by that child alone (keys are unambiguous). -/

theorem visitChildren_step {dn cn : String} {base : FsPath} {b : RawName} {c : Node}
    {y : FsPath} :
    ∀ {cs : List (RawName × Node)}, nodupKeys cs = true → findChild b cs = some c →
      b.utf8 = some cn → y ≠ [] →
      ((base ++ b :: y) ∈ visitChildren dn base cs ↔
        (base ++ b :: y) ∈ visitNode cn (base ++ [b]) c) := by
  intro cs
  induction cs with
  | nil => intro _ hfc _ _; simp [findChild] at hfc
  | cons e rest ih =>
      obtain ⟨bb, m⟩ := e
      intro hnd hfc hu hy
      simp only [nodupKeys, Bool.and_eq_true, Bool.not_eq_true'] at hnd
      by_cases hba : bb = b
      · subst hba
        rw [findChild, if_pos rfl] at hfc
        injection hfc with hfc
        subst hfc
        cases m with
        | file sz sOk dOk =>
            constructor
            · intro hx
              rw [visitChildren_file_eq] at hx
              exfalso
              rcases List.mem_append.mp hx with hx' | hx'
              · rw [hu] at hx'
                have hx2 : base ++ bb :: y ∈ (if (strEndsWith dn SNAPSHOT_SUFFIX
                      || cn == LOCAL_METADATA_FILE) = true
                    then [base ++ [bb]] else ([] : List FsPath)) := hx'
                by_cases hcond : (strEndsWith dn SNAPSHOT_SUFFIX
                    || cn == LOCAL_METADATA_FILE) = true
                · rw [if_pos hcond] at hx2
                  have hx3 : base ++ bb :: y = base ++ [bb] := by simpa using hx2
                  have h3 := List.append_cancel_left hx3
                  injection h3 with _ h4
                  exact hy h4
                · rw [if_neg hcond] at hx2
                  simp at hx2
              · obtain ⟨b2, t, hbt, hbm⟩ := visitChildren_shape hx'
                have h3 := List.append_cancel_left hbt
                injection h3 with h4 _
                rw [← h4] at hbm
                rw [hnd.1] at hbm
                exact Bool.false_ne_true hbm
            · intro hx
              simp [visitNode] at hx
        | dir ro2 cs2 =>
            rw [visitChildren_dir_eq, hu]
            constructor
            · intro hx
              rcases List.mem_append.mp hx with hx' | hx'
              · have hx2 : base ++ bb :: y
                    ∈ (base ++ [bb]) :: visitNode cn (base ++ [bb]) (Node.dir ro2 cs2) := hx'
                rcases List.mem_cons.mp hx2 with hxe | hx3
                · exfalso
                  have h3 := List.append_cancel_left hxe
                  injection h3 with _ h4
                  exact hy h4
                · exact hx3
              · exfalso
                obtain ⟨b2, t, hbt, hbm⟩ := visitChildren_shape hx'
                have h3 := List.append_cancel_left hbt
                injection h3 with h4 _
                rw [← h4] at hbm
                rw [hnd.1] at hbm
                exact Bool.false_ne_true hbm
            · intro hx
              apply List.mem_append.mpr
              left
              exact List.mem_cons_of_mem _ hx
      · rw [findChild, if_neg hba] at hfc
        have hih := ih hnd.2 hfc hu hy
        have hneq : ∀ (t : List RawName), base ++ b :: y ≠ base ++ bb :: t := by
          intro t heq2
          have h3 := List.append_cancel_left heq2
          injection h3 with h4 _
          exact hba h4.symm
        cases m with
        | file sz sOk dOk =>
            rw [visitChildren_file_eq]
            constructor
            · intro hx
              rcases List.mem_append.mp hx with hx' | hx'
              · exfalso
                cases hu2 : bb.utf8 with
                | none =>
                    rw [hu2] at hx'
                    simp at hx'
                | some nm2 =>
                    rw [hu2] at hx'
                    have hx2 : base ++ b :: y ∈ (if (strEndsWith dn SNAPSHOT_SUFFIX
                          || nm2 == LOCAL_METADATA_FILE) = true
                        then [base ++ [bb]] else ([] : List FsPath)) := hx'
                    by_cases hcond : (strEndsWith dn SNAPSHOT_SUFFIX
                        || nm2 == LOCAL_METADATA_FILE) = true
                    · rw [if_pos hcond] at hx2
                      exact hneq [] (by simpa using hx2)
                    · rw [if_neg hcond] at hx2
                      simp at hx2
              · exact hih.mp hx'
            · intro hx
              exact List.mem_append.mpr (Or.inr (hih.mpr hx))
        | dir ro2 cs2 =>
            rw [visitChildren_dir_eq]
            constructor
            · intro hx
              rcases List.mem_append.mp hx with hx' | hx'
              · exfalso
                rcases List.mem_cons.mp hx' with hxe | hx3
                · exact hneq [] hxe
                · cases hu2 : bb.utf8 with
                  | none =>
                      rw [hu2] at hx3
                      simp at hx3
                  | some cn2 =>
                      rw [hu2] at hx3
                      have hx4 : base ++ b :: y
                          ∈ visitNode cn2 (base ++ [bb]) (Node.dir ro2 cs2) := hx3
                      obtain ⟨b2, t2, hbt⟩ := visitNode_shape hx4
                      refine hneq (b2 :: t2) ?_
                      rw [hbt, List.append_assoc]
                      rfl
              · exact hih.mp hx'
            · intro hx
              exact List.mem_append.mpr (Or.inr (hih.mpr hx))

theorem visitNode_chain :
    ∀ (p : FsPath) (base : FsPath) {dn dn' : String} {fs : Node}
      {cs : List (RawName × Node)},
      wfNode fs = true →
      chainName dn p fs = some dn' →
      lookupPath p fs = some (Node.dir true cs) →
      ∀ (y : FsPath), y ≠ [] →
        ((base ++ p ++ y) ∈ visitNode dn base fs ↔
          (base ++ p ++ y) ∈ visitChildren dn' (base ++ p) cs) := by
  intro p
  induction p with
  | nil =>
      intro base dn dn' fs cs hwf hch hlk y hy
      obtain ⟨⟨cs0, rfl⟩, rfl⟩ := chainName_nil hch
      have h2 : some (Node.dir true cs0) = some (Node.dir true cs) := hlk
      injection h2 with h2
      injection h2 with _ h3
      subst h3
      simp only [List.append_nil, visitNode_dir_true]
  | cons b p' ih =>
      intro base dn dn' fs cs hwf hch hlk y hy
      obtain ⟨cs0, c, cn, rfl, hfc, hu, hch'⟩ := chainName_cons hch
      have hnd := (wfNode_dir hwf).1
      have hwfc := wfChildren_findChild (wfNode_dir hwf).2 hfc
      have hlk' : lookupPath p' c = some (Node.dir true cs) := by
        simp only [lookupPath, hfc, Option.some_bind] at hlk
        exact hlk
      rw [visitNode_dir_true]
      have hx : base ++ (b :: p') ++ y = base ++ b :: (p' ++ y) := by
        rw [List.append_assoc]
        rfl
      rw [hx]
      have hne : p' ++ y ≠ [] := by
        intro h0
        exact hy (List.append_eq_nil.mp h0).2
      rw [visitChildren_step hnd hfc hu hne]
      have hx2 : base ++ b :: (p' ++ y) = (base ++ [b]) ++ p' ++ y := by
        simp
      rw [hx2]
      have hx3 : base ++ b :: p' = (base ++ [b]) ++ p' := by
        simp
      rw [hx3]
      exact ih (base ++ [b]) hwfc hch' hlk' y hy

theorem visitChildren_elig {dn : String} {base : FsPath} {a : RawName} :
    ∀ {cs : List (RawName × Node)}, nodupKeys cs = true →
      ((base ++ [a]) ∈ visitChildren dn base cs ↔
        (∃ ro cs2, findChild a cs = some (Node.dir ro cs2)) ∨
        (∃ sz sOk dOk nm, findChild a cs = some (Node.file sz sOk dOk) ∧
          a.utf8 = some nm ∧
          (strEndsWith dn SNAPSHOT_SUFFIX || nm == LOCAL_METADATA_FILE) = true)) := by
  intro cs
  induction cs with
  | nil =>
      intro _
      simp [visitChildren, findChild]
  | cons e rest ih =>
      obtain ⟨bb, m⟩ := e
      intro hnd
      simp only [nodupKeys, Bool.and_eq_true, Bool.not_eq_true'] at hnd
      have htail_excl : (base ++ [a]) ∈ visitChildren dn base rest →
          keyMem a rest = true := by
        intro hx
        obtain ⟨b2, t, hbt, hbm⟩ := visitChildren_shape hx
        have h3 := List.append_cancel_left hbt
        injection h3 with h4 _
        rw [← h4] at hbm
        exact hbm
      by_cases hba : bb = a
      · subst hba
        cases m with
        | file sz sOk dOk =>
            rw [visitChildren_file_eq]
            constructor
            · intro hx
              rcases List.mem_append.mp hx with hx' | hx'
              · cases hu : bb.utf8 with
                | none =>
                    rw [hu] at hx'
                    simp at hx'
                | some nm =>
                    rw [hu] at hx'
                    have hx2 : base ++ [bb] ∈ (if (strEndsWith dn SNAPSHOT_SUFFIX
                          || nm == LOCAL_METADATA_FILE) = true
                        then [base ++ [bb]] else ([] : List FsPath)) := hx'
                    by_cases hcond : (strEndsWith dn SNAPSHOT_SUFFIX
                        || nm == LOCAL_METADATA_FILE) = true
                    · refine Or.inr ⟨sz, sOk, dOk, nm, ?_, rfl, hcond⟩
                      rw [findChild, if_pos rfl]
                    · rw [if_neg hcond] at hx2
                      simp at hx2
              · exfalso
                have hbm := htail_excl hx'
                rw [hnd.1] at hbm
                exact Bool.false_ne_true hbm
            · rintro (⟨ro2, cs2, hfc2⟩ | ⟨sz2, sOk2, dOk2, nm, hfc2, hu, hcond⟩)
              · rw [findChild, if_pos rfl] at hfc2
                cases hfc2
              · rw [findChild, if_pos rfl] at hfc2
                injection hfc2 with hfc2
                cases hfc2
                apply List.mem_append.mpr
                left
                rw [hu]
                have h5 : base ++ [bb]
                    ∈ (if (strEndsWith dn SNAPSHOT_SUFFIX
                        || nm == LOCAL_METADATA_FILE) = true
                      then [base ++ [bb]] else ([] : List FsPath)) := by
                  rw [if_pos hcond]
                  exact List.mem_singleton.mpr rfl
                exact h5
        | dir ro2 cs2 =>
            rw [visitChildren_dir_eq]
            constructor
            · intro _
              refine Or.inl ⟨ro2, cs2, ?_⟩
              rw [findChild, if_pos rfl]
            · intro _
              apply List.mem_append.mpr
              left
              exact List.mem_cons_self _ _
      · have hneq : ∀ (t : List RawName), base ++ [a] ≠ base ++ bb :: t := by
          intro t heq2
          have h3 := List.append_cancel_left heq2
          injection h3 with h4 _
          exact hba h4.symm
        have hskip : findChild a ((bb, m) :: rest) = findChild a rest := by
          rw [findChild, if_neg hba]
        cases m with
        | file sz sOk dOk =>
            rw [visitChildren_file_eq, hskip]
            rw [← ih hnd.2]
            constructor
            · intro hx
              rcases List.mem_append.mp hx with hx' | hx'
              · exfalso
                cases hu2 : bb.utf8 with
                | none =>
                    rw [hu2] at hx'
                    simp at hx'
                | some nm2 =>
                    rw [hu2] at hx'
                    have hx2 : base ++ [a] ∈ (if (strEndsWith dn SNAPSHOT_SUFFIX
                          || nm2 == LOCAL_METADATA_FILE) = true
                        then [base ++ [bb]] else ([] : List FsPath)) := hx'
                    by_cases hcond : (strEndsWith dn SNAPSHOT_SUFFIX
                        || nm2 == LOCAL_METADATA_FILE) = true
                    · rw [if_pos hcond] at hx2
                      exact hneq [] (by simpa using hx2)
                    · rw [if_neg hcond] at hx2
                      simp at hx2
              · exact hx'
            · intro hx
              exact List.mem_append.mpr (Or.inr hx)
        | dir ro2 cs2 =>
            rw [visitChildren_dir_eq, hskip]
            rw [← ih hnd.2]
            constructor
            · intro hx
              rcases List.mem_append.mp hx with hx' | hx'
              · exfalso
                rcases List.mem_cons.mp hx' with hxe | hx3
                · exact hneq [] hxe
                · cases hu2 : bb.utf8 with
                  | none =>
                      rw [hu2] at hx3
                      simp at hx3
                  | some cn2 =>
                      rw [hu2] at hx3
                      have hx4 : base ++ [a]
                          ∈ visitNode cn2 (base ++ [bb]) (Node.dir ro2 cs2) := hx3
                      obtain ⟨b2, t2, hbt⟩ := visitNode_shape hx4
                      refine hneq (b2 :: t2) ?_
                      rw [hbt, List.append_assoc]
                      rfl
              · exact hx'
            · intro hx
              exact List.mem_append.mpr (Or.inr hx)

/-! What the run does to the root path. -/

theorem pathVisit_root {rootName : Option RawName} {fs : Node} {dn₀ : String}
    (hdn₀ : fileNameAt rootName [] = some dn₀) :
    pathVisit rootName fs [] = visitNode dn₀ [] fs := by
  unfold pathVisit
  cases fs with
  | file sz sOk dOk => rfl
  | dir ro cs =>
      show (match fileNameAt rootName [] with
          | some dn => visitNode dn [] (Node.dir ro cs)
          | none => ([] : List FsPath)) = visitNode dn₀ [] (Node.dir ro cs)
      rw [hdn₀]

theorem pathEffect_root_named {rootName : Option RawName} {fs : Node} {dn₀ : String}
    (hdn₀ : fileNameAt rootName [] = some dn₀) :
    pathEffect rootName fs [] = pruneNode dn₀ fs := by
  unfold pathEffect effActionOf
  cases fs with
  | file sz sOk dOk => rfl
  | dir ro cs =>
      show runEff (match fileNameAt rootName [] with
          | some dn => EffAction.subst (pruneNode dn (Node.dir ro cs))
          | none => EffAction.keep) [] (Node.dir ro cs) = pruneNode dn₀ (Node.dir ro cs)
      rw [hdn₀]
      rfl

theorem pathDelta_root_named {rootName : Option RawName} {fs : Node} {dn₀ : String}
    (hdn₀ : fileNameAt rootName [] = some dn₀) :
    pathDelta rootName fs [] = delSize dn₀ fs := by
  unfold pathDelta
  cases fs with
  | file sz sOk dOk => rfl
  | dir ro cs =>
      show (match fileNameAt rootName [] with
          | some dn => delSize dn (Node.dir ro cs)
          | none => 0) = delSize dn₀ (Node.dir ro cs)
      rw [hdn₀]

theorem pathEffect_root_noname {rootName : Option RawName} {fs : Node}
    (hdn₀ : fileNameAt rootName [] = none) :
    pathEffect rootName fs [] = fs := by
  unfold pathEffect effActionOf
  cases fs with
  | file sz sOk dOk => rfl
  | dir ro cs =>
      show runEff (match fileNameAt rootName [] with
          | some dn => EffAction.subst (pruneNode dn (Node.dir ro cs))
          | none => EffAction.keep) [] (Node.dir ro cs) = Node.dir ro cs
      rw [hdn₀]
      rfl

theorem pathDelta_root_noname {rootName : Option RawName} {fs : Node}
    (hdn₀ : fileNameAt rootName [] = none) :
    pathDelta rootName fs [] = 0 := by
  unfold pathDelta
  cases fs with
  | file sz sOk dOk => rfl
  | dir ro cs =>
      show (match fileNameAt rootName [] with
          | some dn => delSize dn (Node.dir ro cs)
          | none => 0) = 0
      rw [hdn₀]

theorem queueOk_root {rootName : Option RawName} {fs : Node}
    (hok : okRun rootName fs) : queueOk rootName fs [] := by
  unfold queueOk
  cases fs with
  | file sz sOk dOk => exact Or.inl rfl
  | dir ro cs => exact fun dn hdn => hok dn hdn

/-- A failure-free well-formed run drains the queue: the final tree is the
root's structural effect, the counter its structural charge, and the trace
is the root plus its visit set. -/
theorem cleanup_drained {rootName : Option RawName} {fs : Node}
    (hwf : wfNode fs = true) (hok : okRun rootName fs) :
    ∃ tl, cleanup rootName fs
        = (RunOutcome.drained (pathEffect rootName fs []) (pathDelta rootName fs []), tl)
      ∧ ∀ x, x ∈ tl ↔ (x = [] ∨ x ∈ pathVisit rootName fs []) := by
  have hmeas : measureQ fs [[]] ≤ nweight fs := by
    rw [measureQ_cons, measureQ_nil, pweight_lookup (rfl : lookupPath [] fs = some fs)]
    omega
  have hpw : List.Pairwise Incomp [[]] := by simp
  have hq0 : ∀ p ∈ ([[]] : List FsPath), queueOk rootName fs p := by
    intro p hp
    rw [List.mem_singleton] at hp
    subst hp
    exact queueOk_root hok
  obtain ⟨tl, heq, hiff⟩ := runLoop_noFail (nweight fs) rootName fs 0 [[]] [] hmeas hwf hpw hq0
  rw [List.nil_append] at heq
  refine ⟨tl, ?_, ?_⟩
  · show runLoop rootName (nweight fs) fs 0 [[]] [] = _
    rw [heq]
    have h1 : applyAll rootName fs [[]] = pathEffect rootName fs [] := rfl
    have h2 : 0 + deltaQ rootName fs [[]] = pathDelta rootName fs [] := by
      simp [deltaQ]
    rw [h1, h2]
  · intro x
    rw [hiff x]
    constructor
    · rintro (hx | ⟨P, hP, hxP⟩)
      · exact Or.inl (List.mem_singleton.mp hx)
      · rw [List.mem_singleton] at hP
        subst hP
        exact Or.inr hxP
    · rintro (hx | hx)
      · exact Or.inl (List.mem_singleton.mpr hx)
      · exact Or.inr ⟨[], List.mem_singleton.mpr rfl, hx⟩

/-! Claim theorems settled from the step-level analysis. -/

/-- C4: a failed deletion of the local metadata file halts the whole
queue-processing loop at once — the remaining queue is discarded
unexamined while the accumulated counter is kept for the summary — whereas
a failed deletion of a suffix-matched artifact only ends that one file's
suffix loop: the byte counter is charged and the traversal continues with
the remaining queued work. -/
theorem metadata_failure_halts_artifact_failure_continues :
    (∀ (rootName : Option RawName) (fuel : Nat) (fs : Node) (d : Nat) (a : RawName)
       (p' : FsPath) (rest tr : List FsPath) (sz : Nat) (sOk : Bool) (dn : String),
       lookupPath (a :: p') fs = some (Node.file sz sOk false) →
       fileNameAt rootName (a :: p').dropLast = some dn →
       fileNameAt rootName (a :: p') = some LOCAL_METADATA_FILE →
       runLoop rootName (fuel + 1) fs d ((a :: p') :: rest) tr
         = (RunOutcome.haltedRun fs d, tr ++ [a :: p'])) ∧
    (∀ (rootName : Option RawName) (fuel : Nat) (fs : Node) (d : Nat) (a : RawName)
       (p' : FsPath) (rest tr : List FsPath) (sz : Nat) (sOk : Bool) (dn n : String),
       lookupPath (a :: p') fs = some (Node.file sz sOk false) →
       fileNameAt rootName (a :: p').dropLast = some dn →
       fileNameAt rootName (a :: p') = some n →
       n ≠ LOCAL_METADATA_FILE →
       (SUFFIXIES.any fun s => strEndsWith n s) = true →
       strContains n dn = false →
       runLoop rootName (fuel + 1) fs d ((a :: p') :: rest) tr
         = runLoop rootName fuel fs (d + (if sOk then sz else 0)) rest (tr ++ [a :: p'])) := by
  constructor
  · intro rootName fuel fs d a p' rest tr sz sOk dn hlk hdn hn
    have hpp := @processPath_file rootName fs d a p' sz sOk false dn
      LOCAL_METADATA_FILE hlk hdn hn
    rw [if_pos (by simp), removeFile_of_delFail (by simp) hlk] at hpp
    simp only [runLoop, hpp]
  · intro rootName fuel fs d a p' rest tr sz sOk dn n hlk hdn hn hne hany hnc
    have hpp := @processPath_file rootName fs d a p' sz sOk false dn n hlk hdn hn
    rw [if_neg (by simpa using hne)] at hpp
    rw [suffixLoop_eq, if_pos (by simp [hany, hnc]),
      removeFile_of_delFail (by simp) hlk] at hpp
    simp only [metadataLen_file hlk] at hpp
    simp only [runLoop, hpp, List.append_nil]

/-- Witness for C4, on concrete trees: the halting metadata case and the
continuing artifact case. -/
theorem metadata_failure_halts_artifact_failure_continues_witness :
    runLoop exRoot 6 exHalt 0 [[rnm "maven-metadata-local.xml"], [rnm "b-SNAPSHOT"]] []
        = (RunOutcome.haltedRun exHalt 0, [[rnm "maven-metadata-local.xml"]]) ∧
    runLoop exRoot 3 exDelFail 0 [[rnm "a-SNAPSHOT", rnm "x.jar"]] []
        = runLoop exRoot 2 exDelFail (0 + (if true then 7 else 0)) []
            [[rnm "a-SNAPSHOT", rnm "x.jar"]] :=
  ⟨metadata_failure_halts_artifact_failure_continues.1 exRoot 5 exHalt 0
      (rnm "maven-metadata-local.xml") [] [[rnm "b-SNAPSHOT"]] [] 5 true "repo" rfl rfl rfl,
   metadata_failure_halts_artifact_failure_continues.2 exRoot 2 exDelFail 0
      (rnm "a-SNAPSHOT") [rnm "x.jar"] [] [] 7 true "a-SNAPSHOT" "x.jar" rfl rfl rfl
      (by decide) (by decide) (by decide)⟩

/-- C5 counterexample: on `exDelFail` the only eligible artifact cannot be
removed, yet its 7 bytes are charged: the run drains with the tree
unchanged — the file is still present — and a reported total of 7, so the
counter is not incremented "only for files actually removed". -/
theorem deleted_size_charged_without_removal :
    (cleanup exRoot exDelFail).1 = RunOutcome.drained exDelFail 7 ∧
    lookupPath [rnm "a-SNAPSHOT", rnm "x.jar"] exDelFail = some (Node.file 7 true false) :=
  ⟨rfl, rfl⟩

/-- C5 amended: along one run the deleted-byte counter is monotonically
non-decreasing, and it is charged exactly once per suffix-matched file at
the moment deletion is attempted — by the file's size when the metadata
lookup succeeds and by zero when it fails — whether or not the removal
itself succeeds; when no suffix matches, or the name contains the folder
name, nothing is charged. -/
theorem deleted_size_monotone_and_charges :
    (∀ (fuel : Nat) (rootName : Option RawName) (fs : Node) (d : Nat)
       (q tr : List FsPath) (fs' : Node) (d' : Nat) (tr' : List FsPath),
       (runLoop rootName fuel fs d q tr = (RunOutcome.drained fs' d', tr') ∨
         runLoop rootName fuel fs d q tr = (RunOutcome.haltedRun fs' d', tr')) → d ≤ d') ∧
    (∀ (n dn : String) (p : FsPath) (fs : Node) (d : Nat),
       ((SUFFIXIES.any fun s => strEndsWith n s) = false ∨ strContains n dn = true) →
       suffixLoop n dn p SUFFIXIES fs d = (fs, d)) ∧
    (∀ (n dn : String) (p : FsPath) (fs : Node) (d : Nat),
       (SUFFIXIES.any fun s => strEndsWith n s) = true → strContains n dn = false →
       (suffixLoop n dn p SUFFIXIES fs d).2 = d + (metadataLen p fs).getD 0) ∧
    (∀ (n dn : String) (p : FsPath) (fs : Node) (d : Nat),
       metadataLen p fs = none → (suffixLoop n dn p SUFFIXIES fs d).2 = d) := by
  refine ⟨runLoop_deleted_mono, ?_, ?_, ?_⟩
  · intro n dn p fs d h
    rw [suffixLoop_eq, if_neg]
    rcases h with h | h <;> simp [h]
  · intro n dn p fs d h1 h2
    rw [suffixLoop_eq, if_pos (by simp [h1, h2])]
    cases removeFile p fs <;> rfl
  · intro n dn p fs d h
    rw [suffixLoop_eq]
    by_cases hc : ((SUFFIXIES.any fun s => strEndsWith n s) && !strContains n dn) = true
    · rw [if_pos hc]
      cases removeFile p fs <;> simp [h]
    · rw [if_neg hc]

/-- Witness for the amended C5 statement: a failed size lookup charges
zero. -/
theorem deleted_size_monotone_and_charges_witness :
    (suffixLoop "x.jar" "v" [rnm "x.jar"] SUFFIXIES (Node.dir true []) 5).2 = 5 :=
  deleted_size_monotone_and_charges.2.2.2 "x.jar" "v" [rnm "x.jar"] (Node.dir true []) 5 rfl

/-- C6: the recoverable-error taxonomy fails for unresolvable child file
names: on a root directory holding one file whose name is not valid
UTF-8, the run panics (the `unwrap` at main.rs:66) instead of skipping
the entry and continuing. -/
theorem cleanup_panics_on_undecodable_file_name :
    (cleanup exRoot exPanic).1 = RunOutcome.panickedRun := rfl

/-- C9: unit selection of the size formatter is by the 1 GiB / 1 MiB /
1 KiB integer thresholds, KiB and above carry two decimals, bytes print
as an integer. -/
theorem format_size_unit_selection :
    (∀ s : Nat, 1024 * 1024 * 1024 ≤ s →
        format_size s = twoDecimal s (1024 * 1024 * 1024) ++ " GiB") ∧
    (∀ s : Nat, 1024 * 1024 ≤ s → s < 1024 * 1024 * 1024 →
        format_size s = twoDecimal s (1024 * 1024) ++ " MiB") ∧
    (∀ s : Nat, 1024 ≤ s → s < 1024 * 1024 →
        format_size s = twoDecimal s 1024 ++ " KiB") ∧
    (∀ s : Nat, s < 1024 → format_size s = toString s ++ " B") ∧
    format_size 512 = "512 B" ∧ format_size 2048 = "2.00 KiB" ∧
    format_size 5242880 = "5.00 MiB" ∧ format_size 3221225472 = "3.00 GiB" := by
  refine ⟨?_, ?_, ?_, ?_, by decide, by decide, by decide, by decide⟩
  · intro s h
    unfold format_size
    rw [if_pos h]
  · intro s h1 h2
    unfold format_size
    rw [if_neg (by omega), if_pos h1]
  · intro s h1 h2
    unfold format_size
    rw [if_neg (by omega), if_neg (by omega), if_pos h1]
  · intro s h
    unfold format_size
    rw [if_neg (by omega), if_neg (by omega), if_neg (by omega)]

/-- Witness for the C9 thresholds at concrete sizes on each side. -/
theorem format_size_unit_selection_witness :
    format_size 3221225472 = twoDecimal 3221225472 (1024 * 1024 * 1024) ++ " GiB" ∧
    format_size 5242880 = twoDecimal 5242880 (1024 * 1024) ++ " MiB" ∧
    format_size 2048 = twoDecimal 2048 1024 ++ " KiB" ∧
    format_size 512 = toString 512 ++ " B" :=
  ⟨format_size_unit_selection.1 3221225472 (by norm_num),
   format_size_unit_selection.2.1 5242880 (by norm_num) (by norm_num),
   format_size_unit_selection.2.2.1 2048 (by norm_num) (by norm_num),
   format_size_unit_selection.2.2.2.1 512 (by norm_num)⟩

/-- C10: no recognized suffix is a suffix of another, so any file name
matches at most one entry of the table, and one pass of the suffix loop
charges the counter at most once (by the single size-or-zero lookup). -/
theorem suffixies_single_match :
    (∀ n : String, (SUFFIXIES.filter fun s => strEndsWith n s).length ≤ 1) ∧
    (∀ (n dn : String) (p : FsPath) (fs : Node) (d : Nat),
       (suffixLoop n dn p SUFFIXIES fs d).2 = d ∨
         (suffixLoop n dn p SUFFIXIES fs d).2 = d + (metadataLen p fs).getD 0) := by
  constructor
  · intro n
    exact filter_length_le_one suffixies_nodup fun a ha b hb hpa hpb =>
      suffix_match_unique ha hb hpa hpb
  · intro n dn p fs d
    rw [suffixLoop_eq]
    by_cases hc : ((SUFFIXIES.any fun s => strEndsWith n s) && !strContains n dn) = true
    · rw [if_pos hc]
      cases removeFile p fs
      · exact Or.inr rfl
      · exact Or.inr rfl
    · rw [if_neg hc]
      exact Or.inl rfl

/-! Concrete facts about the example tree, shared by the witnesses. -/

theorem okRun_exSnap : okRun exRoot exSnap := by
  intro dn hdn
  have h2 : some "repo" = some dn := hdn
  injection h2 with h3
  subst h3
  decide

theorem cleanup_exSnap_eq :
    cleanup exRoot exSnap = (RunOutcome.drained exSnap1 10, exTrace) := rfl

/-- C1: for every file sitting directly under a readable directory chain
whose decoded names resolve, whose parent's name ends in `-SNAPSHOT`, and
whose own name ends with one of the six recognized suffixes, a completed
run deletes the file if and only if its name does not contain the parent
directory's name as a substring. -/
theorem snapshot_artifact_deleted_iff
    {rootName : Option RawName} {fs fs₁ : Node} {d₁ : Nat} {tr₁ : List FsPath}
    {p : FsPath} {a : RawName} {dn₀ dn n : String} {sz : Nat} {sOk dOk : Bool}
    (hwf : wfNode fs = true) (hok : okRun rootName fs)
    (hdn₀ : fileNameAt rootName [] = some dn₀)
    (hch : chainName dn₀ p fs = some dn)
    (hlk : lookupPath (p ++ [a]) fs = some (Node.file sz sOk dOk))
    (hu : a.utf8 = some n)
    (hsnap : strEndsWith dn SNAPSHOT_SUFFIX = true)
    (hsuf : (SUFFIXIES.any fun s => strEndsWith n s) = true)
    (h1 : cleanup rootName fs = (RunOutcome.drained fs₁ d₁, tr₁)) :
    lookupPath (p ++ [a]) fs₁ = none ↔ strContains n dn = false := by
  obtain ⟨tl, heq, _⟩ := cleanup_drained hwf hok
  rw [h1] at heq
  injection heq with heq htr
  injection heq with hfs hd
  subst hfs
  rw [pathEffect_root_named hdn₀, lookupPath_pruneNode_file p hwf hch hlk hu]
  have hbm : (n == LOCAL_METADATA_FILE) = false := by
    cases hb : (n == LOCAL_METADATA_FILE) with
    | false => rfl
    | true =>
        exfalso
        have hn := eq_of_beq hb
        subst hn
        exact absurd hsuf (by decide)
  have hdc : delCond dn n
      = ((SUFFIXIES.any fun s => strEndsWith n s) && !strContains n dn) := by
    unfold delCond
    rw [hbm, hsnap]
    simp
  rw [hdc, hsuf]
  cases hc : strContains n dn with
  | true => simp
  | false => simp

/-- C1 witness: the timestamped jar in the snapshot folder of `exSnap`. -/
theorem snapshot_artifact_deleted_iff_witness :
    wfNode exSnap = true ∧
      (lookupPath ([rnm "1.0-SNAPSHOT"] ++ [rnm "foo-1.0-20230101.jar"]) exSnap1 = none
        ↔ strContains "foo-1.0-20230101.jar" "1.0-SNAPSHOT" = false) :=
  ⟨by decide,
   snapshot_artifact_deleted_iff (by decide) okRun_exSnap rfl rfl rfl rfl
     (by decide) (by decide) cleanup_exSnap_eq⟩

/-- C2: a file child of a readable non-snapshot directory, not named
`maven-metadata-local.xml`, is never dequeued for evaluation and survives
the completed run unchanged, while every directory child of the same
directory is still dequeued (the traversal descends). -/
theorem non_snapshot_children_untouched
    {rootName : Option RawName} {fs fs₁ : Node} {d₁ : Nat} {tr₁ : List FsPath}
    {p : FsPath} {a : RawName} {dn₀ dn n : String} {sz : Nat} {sOk dOk : Bool}
    {cs : List (RawName × Node)}
    (hwf : wfNode fs = true) (hok : okRun rootName fs)
    (hdn₀ : fileNameAt rootName [] = some dn₀)
    (hch : chainName dn₀ p fs = some dn)
    (hcs : lookupPath p fs = some (Node.dir true cs))
    (hlk : lookupPath (p ++ [a]) fs = some (Node.file sz sOk dOk))
    (hu : a.utf8 = some n)
    (hsnap : strEndsWith dn SNAPSHOT_SUFFIX = false)
    (hnm : (n == LOCAL_METADATA_FILE) = false)
    (h1 : cleanup rootName fs = (RunOutcome.drained fs₁ d₁, tr₁)) :
    lookupPath (p ++ [a]) fs₁ = some (Node.file sz sOk dOk) ∧
      (p ++ [a]) ∉ tr₁ ∧
      ∀ (b : RawName) (ro2 : Bool) (cs2 : List (RawName × Node)),
        lookupPath (p ++ [b]) fs = some (Node.dir ro2 cs2) → (p ++ [b]) ∈ tr₁ := by
  obtain ⟨tl, heq, hmem⟩ := cleanup_drained hwf hok
  rw [h1] at heq
  injection heq with heq htr
  injection heq with hfs hd
  subst hfs
  subst htr
  have hdc : delCond dn n = false := by
    unfold delCond
    rw [hnm, hsnap]
    simp
  have hnd_cs : nodupKeys cs = true := (wfNode_dir (wf_lookup p hwf hcs)).1
  refine ⟨?_, ?_, ?_⟩
  · rw [pathEffect_root_named hdn₀, lookupPath_pruneNode_file p hwf hch hlk hu, hdc]
    simp
  · intro hmemx
    rw [hmem] at hmemx
    rcases hmemx with h0 | hv
    · exact absurd h0 (by simp)
    · rw [pathVisit_root hdn₀] at hv
      have hv2 := (visitNode_chain p [] hwf hch hcs [a] (by simp)).mp hv
      have hv3 := (visitChildren_elig hnd_cs).mp hv2
      rcases hv3 with ⟨ro2, cs2, hfc2⟩ | ⟨sz2, sOk2, dOk2, nm2, hfc2, hu2, hcond⟩
      · have hfcf : findChild a cs = some (Node.file sz sOk dOk) := by
          rw [lookupPath_concat, hcs] at hlk
          simpa using hlk
        rw [hfcf] at hfc2
        simp at hfc2
      · rw [hu] at hu2
        injection hu2 with hu2
        subst hu2
        rw [hsnap, hnm] at hcond
        simp at hcond
  · intro b ro2 cs2 hlkb
    rw [hmem]
    right
    rw [pathVisit_root hdn₀]
    apply (visitNode_chain p [] hwf hch hcs [b] (by simp)).mpr
    apply (visitChildren_elig hnd_cs).mpr
    left
    refine ⟨ro2, cs2, ?_⟩
    rw [lookupPath_concat, hcs] at hlkb
    simpa using hlkb

/-- C2 witness: the release jar in the `1.0` folder of `exSnap`. -/
theorem non_snapshot_children_untouched_witness :
    wfNode exSnap = true ∧
      (lookupPath ([rnm "1.0"] ++ [rnm "foo-1.0.jar"]) exSnap1
          = some (Node.file 7 true true) ∧
        ([rnm "1.0"] ++ [rnm "foo-1.0.jar"]) ∉ exTrace ∧
        ∀ (b : RawName) (ro2 : Bool) (cs2 : List (RawName × Node)),
          lookupPath ([rnm "1.0"] ++ [b]) exSnap = some (Node.dir ro2 cs2) →
            ([rnm "1.0"] ++ [b]) ∈ exTrace) :=
  ⟨by decide,
   non_snapshot_children_untouched (by decide) okRun_exSnap rfl rfl rfl rfl rfl
     (by decide) (by decide) cleanup_exSnap_eq⟩

/-- C3: every reached file named exactly `maven-metadata-local.xml` is
gone after a completed run, regardless of the parent folder's name, of
the six-suffix table, and of the containment check. -/
theorem metadata_deleted_wherever_found
    {rootName : Option RawName} {fs fs₁ : Node} {d₁ : Nat} {tr₁ : List FsPath}
    {p : FsPath} {a : RawName} {dn₀ dn : String} {sz : Nat} {sOk dOk : Bool}
    (hwf : wfNode fs = true) (hok : okRun rootName fs)
    (hdn₀ : fileNameAt rootName [] = some dn₀)
    (hch : chainName dn₀ p fs = some dn)
    (hlk : lookupPath (p ++ [a]) fs = some (Node.file sz sOk dOk))
    (hu : a.utf8 = some LOCAL_METADATA_FILE)
    (h1 : cleanup rootName fs = (RunOutcome.drained fs₁ d₁, tr₁)) :
    lookupPath (p ++ [a]) fs₁ = none := by
  obtain ⟨tl, heq, _⟩ := cleanup_drained hwf hok
  rw [h1] at heq
  injection heq with heq htr
  injection heq with hfs hd
  subst hfs
  rw [pathEffect_root_named hdn₀, lookupPath_pruneNode_file p hwf hch hlk hu]
  have hdc : delCond dn LOCAL_METADATA_FILE = true := by
    unfold delCond
    simp
  rw [hdc, if_pos rfl]

/-- C3 witness: the metadata file in the non-snapshot `1.0` folder of
`exSnap`. -/
theorem metadata_deleted_wherever_found_witness :
    wfNode exSnap = true ∧
      lookupPath ([rnm "1.0"] ++ [rnm "maven-metadata-local.xml"]) exSnap1 = none :=
  ⟨by decide,
   metadata_deleted_wherever_found (by decide) okRun_exSnap rfl rfl rfl rfl
     cleanup_exSnap_eq⟩

/-- C7: on every well-formed finite tree the FIFO worklist run ends
within `nweight fs` iterations (the fuel bound is never hit), no path is
dequeued twice, and on a failure-free tree the queue drains completely,
ending in the summary state with the structural final tree and charge. -/
theorem cleanup_terminates_bfs {rootName : Option RawName} {fs : Node}
    (hwf : wfNode fs = true) :
    ∃ out tr, cleanup rootName fs = (out, tr) ∧ out ≠ RunOutcome.fuelOut ∧ tr.Nodup ∧
      (okRun rootName fs →
        out = RunOutcome.drained (pathEffect rootName fs []) (pathDelta rootName fs [])) := by
  have hmeas : measureQ fs [[]] ≤ nweight fs := by
    rw [measureQ_cons, measureQ_nil, pweight_lookup (rfl : lookupPath [] fs = some fs)]
    omega
  have hpw : List.Pairwise Incomp [[]] := by simp
  obtain ⟨out, tl, heq, hne, hnd, _⟩ :=
    runLoop_progress (nweight fs) rootName fs 0 [[]] [] hmeas hwf hpw
  rw [List.nil_append] at heq
  refine ⟨out, tl, heq, hne, hnd, ?_⟩
  intro hok
  obtain ⟨tl2, heq2, _⟩ := cleanup_drained hwf hok
  have h3 : (out, tl)
      = (RunOutcome.drained (pathEffect rootName fs []) (pathDelta rootName fs []), tl2) :=
    heq.symm.trans heq2
  exact congrArg Prod.fst h3

/-- C7 witness: the run on `exSnap`. -/
theorem cleanup_terminates_bfs_witness :
    ∃ out tr, cleanup exRoot exSnap = (out, tr) ∧ out ≠ RunOutcome.fuelOut ∧ tr.Nodup ∧
      (okRun exRoot exSnap →
        out = RunOutcome.drained (pathEffect exRoot exSnap [])
          (pathDelta exRoot exSnap [])) :=
  cleanup_terminates_bfs (by decide)

/-- C8: after a completed run, running the cleanup again on the resulting
tree deletes nothing: it drains with the tree unchanged and a zero
counter, and zero formats as `"0 B"`. -/
theorem cleanup_idempotent {rootName : Option RawName} {fs fs₁ : Node} {d₁ : Nat}
    {tr₁ : List FsPath}
    (hwf : wfNode fs = true) (hok : okRun rootName fs)
    (h1 : cleanup rootName fs = (RunOutcome.drained fs₁ d₁, tr₁)) :
    (∃ tr₂, cleanup rootName fs₁ = (RunOutcome.drained fs₁ 0, tr₂)) ∧
      format_size 0 = "0 B" := by
  obtain ⟨tl, heq, _⟩ := cleanup_drained hwf hok
  rw [h1] at heq
  injection heq with heq htr
  injection heq with hfs hd
  subst hfs
  constructor
  · cases hdn : fileNameAt rootName [] with
    | none =>
        rw [pathEffect_root_noname hdn]
        obtain ⟨tl2, heq2, _⟩ := cleanup_drained hwf hok
        rw [pathEffect_root_noname hdn, pathDelta_root_noname hdn] at heq2
        exact ⟨tl2, heq2⟩
    | some dn₀ =>
        rw [pathEffect_root_named hdn]
        have hwf1 : wfNode (pruneNode dn₀ fs) = true := wfNode_pruneNode hwf
        have hok1 : okRun rootName (pruneNode dn₀ fs) := by
          intro dn' hdn'
          rw [hdn] at hdn'
          injection hdn' with hdn'
          subst hdn'
          exact okNode_pruneNode (hok dn₀ hdn)
        obtain ⟨tl2, heq2, _⟩ := cleanup_drained hwf1 hok1
        rw [pathEffect_root_named hdn, pruneNode_idem, pathDelta_root_named hdn,
          delSize_pruneNode] at heq2
        exact ⟨tl2, heq2⟩
  · decide

/-- C8 witness: the second run on the pruned `exSnap` tree. -/
theorem cleanup_idempotent_witness :
    wfNode exSnap = true ∧
      ((∃ tr₂, cleanup exRoot exSnap1 = (RunOutcome.drained exSnap1 0, tr₂)) ∧
        format_size 0 = "0 B") :=
  ⟨by decide, cleanup_idempotent (by decide) okRun_exSnap cleanup_exSnap_eq⟩

end MavenClean
